import Mathlib

/-!
Verification of the arena-based skip list in `src/bin/skip_list.rs`.

The Rust structure `SkipList<T>` stores nodes in a dense vector (the arena);
all links between nodes are arena indices (`Option<usize>`).  We embed the
structure shallowly: values are `Int`, machine indices are `Nat`, the 32-bit
xorshift generator state is a `Nat` reduced modulo `2 ^ 32`, and the few
loops whose termination depends on the pointer structure are given explicit
fuel (always instantiated, as proved below, with enough fuel on the states
the program can actually reach).
-/

set_option maxHeartbeats 1000000

namespace SkipListVerif

def MAX_LEVEL : Nat := 16

structure Node where
  value : Int
  forward : List (Option Nat)
deriving Repr, DecidableEq, Inhabited

def Node.new (value : Int) (level : Nat) : Node :=
  { value := value, forward := List.replicate (level + 1) none }

structure SkipList where
  nodes : List Node
  head_forward : List (Option Nat)
  level : Nat
  rng_state : Nat
deriving Repr, DecidableEq

def U32 : Nat := 2 ^ 32

/-- Constructor `SkipList::new`.  The seed derivation mixes a global counter
with a stack address; we take that mixture as a parameter and keep the
final `| 1` from the source. -/
def SkipList.new (seed : Nat) : SkipList :=
  { nodes := []
    head_forward := List.replicate (MAX_LEVEL + 1) none
    level := 0
    rng_state := (seed % U32) ||| 1 }

/-- Xorshift step of `SkipList::next_random` (shifts 13 left, 17 right,
5 left, each on 32-bit state). -/
def next_random (s : Nat) : Nat :=
  let s1 := (s ^^^ (s <<< 13)) % U32
  let s2 := (s1 ^^^ (s1 >>> 17)) % U32
  (s2 ^^^ (s2 <<< 5)) % U32

/-- Loop body of `SkipList::random_level`; the fuel equals
`MAX_LEVEL - level` at every call, which makes the fuel-free guard
`level < MAX_LEVEL` and the fuel pattern agree. -/
def random_level_aux : Nat → Nat → Nat → Nat × Nat
  | 0, level, s => (level, s)
  | fuel + 1, level, s =>
    if level < MAX_LEVEL then
      let r := next_random s
      if r % 2 = 0 then random_level_aux fuel (level + 1) r else (level, r)
    else (level, s)

/-- Function `SkipList::random_level`, returning the chosen height together
with the final generator state. -/
def random_level (s : Nat) : Nat × Nat :=
  random_level_aux MAX_LEVEL 0 s

/-- Method `SkipList::get_forward`: `none` stands for the head. -/
def SkipList.get_forward (l : SkipList) (node_idx : Option Nat) (level : Nat) : Option Nat :=
  match node_idx with
  | none => (l.head_forward.get? level).getD none
  | some idx =>
    match l.nodes.get? idx with
    | none => none
    | some nd => (nd.forward.get? level).getD none

/-- Method `SkipList::set_forward`. -/
def SkipList.set_forward (l : SkipList) (node_idx : Option Nat) (level : Nat)
    (target : Option Nat) : SkipList :=
  match node_idx with
  | none =>
    if level < l.head_forward.length then
      { l with head_forward := l.head_forward.set level target }
    else l
  | some idx =>
    match l.nodes.get? idx with
    | none => l
    | some nd =>
      if level < nd.forward.length then
        { l with nodes := l.nodes.set idx { nd with forward := nd.forward.set level target } }
      else l

/-- Inner `while` loop shared by `insert` and `delete`: advance while the
next node at this level exists, is in bounds, and its value is less than
the target. -/
def SkipList.advance (l : SkipList) (value : Int) (level : Nat) :
    Option Nat → Nat → Option Nat
  | cur, 0 => cur
  | cur, fuel + 1 =>
    match l.get_forward cur level with
    | none => cur
    | some next_idx =>
      if next_idx < l.nodes.length then
        if (l.nodes.getD next_idx default).value < value then
          l.advance value level (some next_idx) fuel
        else cur
      else cur

/-- Descending `for level in (0..=self.level).rev()` loop of `insert` and
`delete`, recording the per-level predecessor in the update vector. -/
def SkipList.buildUpdateAux (l : SkipList) (value : Int) :
    Nat → Option Nat → List (Option Nat) → List (Option Nat) × Option Nat
  | 0, cur, upd =>
    let c := l.advance value 0 cur l.nodes.length
    (upd.set 0 c, c)
  | lvl + 1, cur, upd =>
    let c := l.advance value (lvl + 1) cur l.nodes.length
    l.buildUpdateAux value lvl c (upd.set (lvl + 1) c)

def SkipList.buildUpdate (l : SkipList) (value : Int) :
    List (Option Nat) × Option Nat :=
  l.buildUpdateAux value l.level none (List.replicate (MAX_LEVEL + 1) none)

/-- Loop `for level in (self.level + 1)..=new_level { update[level] = None }`. -/
def clearRange (u : List (Option Nat)) (a b : Nat) : List (Option Nat) :=
  (List.range' a (b + 1 - a)).foldl (fun acc lv => acc.set lv none) u

/-- Body of the splice loop of `insert`: read the old successor into the
new node, then point the predecessor at the new node. -/
def spliceStep (update1 : List (Option Nat)) (new_idx : Nat)
    (acc : SkipList × Node) (lv : Nat) : SkipList × Node :=
  let fwd := acc.1.get_forward (update1.getD lv none) lv
  (acc.1.set_forward (update1.getD lv none) lv (some new_idx),
   { acc.2 with forward := acc.2.forward.set lv fwd })

/-- Splice loop of `insert` (`for level in 0..=new_level`). -/
def SkipList.insertSplice (l : SkipList) (update1 : List (Option Nat)) (value : Int)
    (new_level new_idx : Nat) : SkipList × Node :=
  (List.range (new_level + 1)).foldl (spliceStep update1 new_idx)
    (l, Node.new value new_level)

/-- Method `SkipList::insert`. -/
def SkipList.insert (l : SkipList) (value : Int) : SkipList :=
  let ud := l.buildUpdate value
  let update := ud.1
  let current := ud.2
  let isDup : Bool :=
    match l.get_forward current 0 with
    | some next_idx =>
      decide (next_idx < l.nodes.length) &&
        decide ((l.nodes.getD next_idx default).value = value)
    | none => false
  if isDup then l
  else
    let rl := random_level l.rng_state
    let new_level := rl.1
    let l0 : SkipList := { l with rng_state := rl.2 }
    let lp :=
      if l0.level < new_level then
        ({ l0 with level := new_level }, clearRange update (l0.level + 1) new_level)
      else (l0, update)
    let l1 := lp.1
    let update1 := lp.2
    let new_idx := l1.nodes.length
    let st := l1.insertSplice update1 value new_level new_idx
    { st.1 with nodes := st.1.nodes ++ [st.2] }

/-- Level-local loop of `SkipList::search`, including the equality
short-circuit; returns the final position and the found flag. -/
def SkipList.searchLevel (l : SkipList) (value : Int) (level : Nat) :
    Option Nat → Nat → Option Nat × Bool
  | cur, 0 => (cur, false)
  | cur, fuel + 1 =>
    match l.get_forward cur level with
    | none => (cur, false)
    | some next_idx =>
      if next_idx < l.nodes.length then
        let w := (l.nodes.getD next_idx default).value
        if w < value then l.searchLevel value level (some next_idx) fuel
        else if w = value then (some next_idx, true)
        else (cur, false)
      else (cur, false)

def SkipList.searchAux (l : SkipList) (value : Int) : Nat → Option Nat → Bool
  | 0, cur => (l.searchLevel value 0 cur l.nodes.length).2
  | lvl + 1, cur =>
    let r := l.searchLevel value (lvl + 1) cur l.nodes.length
    if r.2 then true else l.searchAux value lvl r.1

/-- Method `SkipList::search`. -/
def SkipList.search (l : SkipList) (value : Int) : Bool :=
  l.searchAux value l.level none

/-- Body of the splice loop of `delete`: while the level does not exceed
the list level, route the predecessor around the target. -/
def dspliceStep (update : List (Option Nat)) (target_idx : Nat)
    (st : SkipList) (lv : Nat) : SkipList :=
  if lv ≤ st.level then
    let next_target := ((st.nodes.getD target_idx default).forward.get? lv).getD none
    st.set_forward (update.getD lv none) lv next_target
  else st

/-- Splice loop of `delete`, over every level up to the target's height. -/
def SkipList.deleteSplice (l : SkipList) (update : List (Option Nat))
    (target_idx target_level : Nat) : SkipList :=
  (List.range (target_level + 1)).foldl (dspliceStep update target_idx) l

/-- Body of the head renumbering loop of `delete`: an index above the
removed position slides down, an index equal to it is cleared. -/
def renumStep (target_idx : Nat) (acc : List (Option Nat)) (lv : Nat) : List (Option Nat) :=
  match (acc.get? lv).getD none with
  | some fi =>
    if target_idx < fi then acc.set lv (some (fi - 1))
    else if fi = target_idx then acc.set lv none
    else acc
  | none => acc

/-- Head renumbering loop of `delete` (levels `0..=self.level` only). -/
def renumberHead (target_idx lvl : Nat) (hf : List (Option Nat)) : List (Option Nat) :=
  (List.range (lvl + 1)).foldl (renumStep target_idx) hf

/-- Node renumbering loop of `delete`: every stored index above the removed
position slides down (indices equal to it are left alone here). -/
def renumberNodes (target_idx : Nat) (ns : List Node) : List Node :=
  ns.map fun nd =>
    { nd with forward := nd.forward.map fun fr =>
        match fr with
        | some fi => if target_idx < fi then some (fi - 1) else some fi
        | none => none }

/-- Level shrinking loop of `delete`: while the level is positive and the
head has no forward reference at the top level, decrement. -/
def shrinkLevel (hf : List (Option Nat)) : Nat → Nat
  | 0 => 0
  | lv + 1 => if (hf.get? (lv + 1)).getD none = none then shrinkLevel hf lv else lv + 1

/-- Method `SkipList::delete`, returning the success flag with the next
state. -/
def SkipList.delete (l : SkipList) (value : Int) : Bool × SkipList :=
  let ud := l.buildUpdate value
  let update := ud.1
  let current := ud.2
  match l.get_forward current 0 with
  | none => (false, l)
  | some target_idx =>
    if target_idx < l.nodes.length ∧ (l.nodes.getD target_idx default).value = value then
      let target_level := (l.nodes.getD target_idx default).forward.length - 1
      let l1 := l.deleteSplice update target_idx target_level
      let l2 : SkipList := { l1 with nodes := l1.nodes.eraseIdx target_idx }
      let l3 : SkipList := { l2 with head_forward := renumberHead target_idx l2.level l2.head_forward }
      let l4 : SkipList := { l3 with nodes := renumberNodes target_idx l3.nodes }
      let l5 : SkipList := { l4 with level := shrinkLevel l4.head_forward l4.level }
      (true, l5)
    else (false, l)

def SkipList.len (l : SkipList) : Nat := l.nodes.length

def SkipList.is_empty (l : SkipList) : Bool := l.nodes.isEmpty

/-!
Canonical states.  A reachable skip list is determined, up to the generator
state, by its arena data: the list of `(value, height)` pairs in arena
order.  `mkCanon` rebuilds the unique pointer structure the invariants
allow: at every level each participating node points to the participating
node with the least value above its own, the head points to the least
participating value, and the list level is the maximum height.
-/

def vAt (d : List (Int × Nat)) (i : Nat) : Int := ((d.get? i).map Prod.fst).getD 0

def hAt (d : List (Int × Nat)) (i : Nat) : Nat := ((d.get? i).map Prod.snd).getD 0

def pickMin (val : Nat → Int) : List Nat → Option Nat
  | [] => none
  | i :: rest =>
    match pickMin val rest with
    | none => some i
    | some j => if val i ≤ val j then some i else some j

def pickMax (val : Nat → Int) : List Nat → Option Nat
  | [] => none
  | i :: rest =>
    match pickMax val rest with
    | none => some i
    | some j => if val j ≤ val i then some i else some j

/-- Arena positions participating in level `L`. -/
def candL (d : List (Int × Nat)) (L : Nat) : List Nat :=
  (List.range d.length).filter fun i => decide (L ≤ hAt d i)

/-- Positions participating in level `L` whose value exceeds `u`. -/
def candAbove (d : List (Int × Nat)) (L : Nat) (u : Int) : List Nat :=
  (candL d L).filter fun i => decide (u < vAt d i)

/-- Positions participating in level `L` whose value is below `t`. -/
def candBelow (d : List (Int × Nat)) (L : Nat) (t : Int) : List Nat :=
  (candL d L).filter fun i => decide (vAt d i < t)

/-- Canonical successor: the position of the least level-`L` value above `u`. -/
def succAt (d : List (Int × Nat)) (L : Nat) (u : Int) : Option Nat :=
  pickMin (vAt d) (candAbove d L u)

/-- Canonical head entry at level `L`: the position of the least level-`L` value. -/
def headAt (d : List (Int × Nat)) (L : Nat) : Option Nat :=
  pickMin (vAt d) (candL d L)

/-- Canonical predecessor: the position of the greatest level-`L` value below `t`. -/
def predAt (d : List (Int × Nat)) (L : Nat) (t : Int) : Option Nat :=
  pickMax (vAt d) (candBelow d L t)

/-- Position of the least level-`L` value that is at least `t`. -/
def nextAt (d : List (Int × Nat)) (L : Nat) (t : Int) : Option Nat :=
  pickMin (vAt d) ((candL d L).filter fun i => decide (t ≤ vAt d i))

def maxH (d : List (Int × Nat)) : Nat := (d.map Prod.snd).foldr max 0

def mkCanon (d : List (Int × Nat)) (rng : Nat) : SkipList :=
  { nodes := (List.range d.length).map fun i =>
      { value := vAt d i
        forward := (List.range (hAt d i + 1)).map fun L => succAt d L (vAt d i) }
    head_forward := (List.range (MAX_LEVEL + 1)).map fun L => headAt d L
    level := maxH d
    rng_state := rng }

def vals (d : List (Int × Nat)) : List Int := d.map Prod.fst

def goodData (d : List (Int × Nat)) : Prop :=
  (vals d).Nodup ∧ ∀ p ∈ d, p.2 ≤ MAX_LEVEL

/-!
Operation sequences and the reference set semantics.
-/

inductive Op where
  | ins (v : Int)
  | del (v : Int)

def applyOp (l : SkipList) : Op → SkipList
  | Op.ins v => l.insert v
  | Op.del v => (l.delete v).2

def run (seed : Nat) (ops : List Op) : SkipList :=
  ops.foldl applyOp (SkipList.new seed)

/-- Reference history semantics: `v` has been inserted and not deleted
since its last insertion. -/
def liveAfter (ops : List Op) (v : Int) : Bool :=
  ops.foldl
    (fun acc op =>
      match op with
      | Op.ins w => if w = v then true else acc
      | Op.del w => if w = v then false else acc) false

/-!
Specifications of `pickMin` and `pickMax`.
-/

theorem pickMin_eq_none {val : Nat → Int} {l : List Nat} :
    pickMin val l = none ↔ l = [] := by
  cases l with
  | nil => simp [pickMin]
  | cons a rest =>
    constructor
    · intro hc
      cases h : pickMin val rest with
      | none =>
        simp only [pickMin, h] at hc
        exact Option.noConfusion hc
      | some j =>
        simp only [pickMin, h] at hc
        split at hc <;> simp_all
    · intro hc
      exact absurd hc (List.cons_ne_nil a rest)

theorem pickMin_mem {val : Nat → Int} {l : List Nat} {i : Nat}
    (h : pickMin val l = some i) : i ∈ l := by
  induction l with
  | nil => simp [pickMin] at h
  | cons a rest ih =>
    cases hr : pickMin val rest with
    | none =>
      simp only [pickMin, hr] at h
      exact (Option.some_inj.mp h) ▸ List.mem_cons_self a rest
    | some j =>
      simp only [pickMin, hr] at h
      by_cases hc : val a ≤ val j
      · rw [if_pos hc] at h
        exact (Option.some_inj.mp h) ▸ List.mem_cons_self a rest
      · rw [if_neg hc] at h
        obtain rfl := Option.some_inj.mp h
        exact List.mem_cons_of_mem _ (ih hr)

theorem pickMin_le {val : Nat → Int} {l : List Nat} {i : Nat}
    (h : pickMin val l = some i) : ∀ j ∈ l, val i ≤ val j := by
  induction l generalizing i with
  | nil => simp [pickMin] at h
  | cons a rest ih =>
    intro j hj
    cases hr : pickMin val rest with
    | none =>
      simp only [pickMin, hr] at h
      have hre : rest = [] := pickMin_eq_none.mp hr
      subst hre
      rcases List.mem_singleton.mp hj with rfl
      rw [Option.some_inj.mp h]
    | some k =>
      simp only [pickMin, hr] at h
      by_cases hc : val a ≤ val k
      · rw [if_pos hc] at h
        rcases Option.some_inj.mp h with rfl
        rcases List.mem_cons.mp hj with rfl | hj2
        · exact le_refl _
        · exact le_trans hc (ih hr _ hj2)
      · rw [if_neg hc] at h
        rcases Option.some_inj.mp h with rfl
        rcases List.mem_cons.mp hj with rfl | hj2
        · exact le_of_not_le hc
        · exact ih hr _ hj2

theorem pickMin_eq_some {val : Nat → Int} {l : List Nat} {i : Nat}
    (inj : ∀ a ∈ l, ∀ b ∈ l, val a = val b → a = b)
    (hi : i ∈ l) (hmin : ∀ j ∈ l, val i ≤ val j) : pickMin val l = some i := by
  cases h : pickMin val l with
  | none =>
    rw [pickMin_eq_none.mp h] at hi
    exact absurd hi (List.not_mem_nil i)
  | some i0 =>
    have h1 := pickMin_le h i hi
    have h2 := hmin i0 (pickMin_mem h)
    exact congrArg some (inj i0 (pickMin_mem h) i hi (le_antisymm h1 h2))

theorem pickMax_eq_none {val : Nat → Int} {l : List Nat} :
    pickMax val l = none ↔ l = [] := by
  cases l with
  | nil => simp [pickMax]
  | cons a rest =>
    constructor
    · intro hc
      cases h : pickMax val rest with
      | none =>
        simp only [pickMax, h] at hc
        exact Option.noConfusion hc
      | some j =>
        simp only [pickMax, h] at hc
        split at hc <;> simp_all
    · intro hc
      exact absurd hc (List.cons_ne_nil a rest)

theorem pickMax_mem {val : Nat → Int} {l : List Nat} {i : Nat}
    (h : pickMax val l = some i) : i ∈ l := by
  induction l with
  | nil => simp [pickMax] at h
  | cons a rest ih =>
    cases hr : pickMax val rest with
    | none =>
      simp only [pickMax, hr] at h
      exact (Option.some_inj.mp h) ▸ List.mem_cons_self a rest
    | some j =>
      simp only [pickMax, hr] at h
      by_cases hc : val j ≤ val a
      · rw [if_pos hc] at h
        exact (Option.some_inj.mp h) ▸ List.mem_cons_self a rest
      · rw [if_neg hc] at h
        obtain rfl := Option.some_inj.mp h
        exact List.mem_cons_of_mem _ (ih hr)

theorem pickMax_ge {val : Nat → Int} {l : List Nat} {i : Nat}
    (h : pickMax val l = some i) : ∀ j ∈ l, val j ≤ val i := by
  induction l generalizing i with
  | nil => simp [pickMax] at h
  | cons a rest ih =>
    intro j hj
    cases hr : pickMax val rest with
    | none =>
      simp only [pickMax, hr] at h
      have hre : rest = [] := pickMax_eq_none.mp hr
      subst hre
      rcases List.mem_singleton.mp hj with rfl
      rw [Option.some_inj.mp h]
    | some k =>
      simp only [pickMax, hr] at h
      by_cases hc : val k ≤ val a
      · rw [if_pos hc] at h
        rcases Option.some_inj.mp h with rfl
        rcases List.mem_cons.mp hj with rfl | hj2
        · exact le_refl _
        · exact le_trans (ih hr _ hj2) hc
      · rw [if_neg hc] at h
        rcases Option.some_inj.mp h with rfl
        rcases List.mem_cons.mp hj with rfl | hj2
        · exact le_of_not_le hc
        · exact ih hr _ hj2

theorem pickMax_eq_some {val : Nat → Int} {l : List Nat} {i : Nat}
    (inj : ∀ a ∈ l, ∀ b ∈ l, val a = val b → a = b)
    (hi : i ∈ l) (hmax : ∀ j ∈ l, val j ≤ val i) : pickMax val l = some i := by
  cases h : pickMax val l with
  | none =>
    rw [pickMax_eq_none.mp h] at hi
    exact absurd hi (List.not_mem_nil i)
  | some i0 =>
    have h1 := pickMax_ge h i hi
    have h2 := hmax i0 (pickMax_mem h)
    exact congrArg some (inj i0 (pickMax_mem h) i hi (le_antisymm h2 h1))

/-!
Membership in the candidate lists, and injectivity of `vAt` on good data.
-/

theorem mem_candL {d : List (Int × Nat)} {L i : Nat} :
    i ∈ candL d L ↔ i < d.length ∧ L ≤ hAt d i := by
  simp [candL, List.mem_filter, List.mem_range]

theorem mem_candAbove {d : List (Int × Nat)} {L i : Nat} {u : Int} :
    i ∈ candAbove d L u ↔ i < d.length ∧ L ≤ hAt d i ∧ u < vAt d i := by
  simp [candAbove, List.mem_filter, mem_candL, and_assoc]

theorem mem_candBelow {d : List (Int × Nat)} {L i : Nat} {t : Int} :
    i ∈ candBelow d L t ↔ i < d.length ∧ L ≤ hAt d i ∧ vAt d i < t := by
  simp [candBelow, List.mem_filter, mem_candL, and_assoc]

theorem vals_length {d : List (Int × Nat)} : (vals d).length = d.length := by
  simp [vals]

theorem vals_get? {d : List (Int × Nat)} {i : Nat} (h : i < d.length) :
    (vals d).get? i = some (vAt d i) := by
  have hq := List.get?_eq_get h
  simp only [vals, vAt, List.get?_eq_getElem?, List.getElem?_map] at hq ⊢
  rw [hq]
  rfl

theorem vAt_mem_vals {d : List (Int × Nat)} {i : Nat} (h : i < d.length) :
    vAt d i ∈ vals d :=
  List.mem_iff_get?.mpr ⟨i, vals_get? h⟩

theorem mem_vals_iff {d : List (Int × Nat)} {t : Int} :
    t ∈ vals d ↔ ∃ i, i < d.length ∧ vAt d i = t := by
  constructor
  · intro h
    rcases List.mem_iff_get?.mp h with ⟨i, hi⟩
    have hlen : i < (vals d).length := by
      by_contra hc
      rw [List.get?_eq_none.mpr (le_of_not_lt hc)] at hi
      exact Option.noConfusion hi
    rw [vals_length] at hlen
    rw [vals_get? hlen] at hi
    exact ⟨i, hlen, Option.some_inj.mp hi⟩
  · rintro ⟨i, hi, rfl⟩
    exact vAt_mem_vals hi

theorem goodData_inj {d : List (Int × Nat)} (hd : goodData d) {i j : Nat}
    (hi : i < d.length) (hj : j < d.length) (hv : vAt d i = vAt d j) : i = j := by
  have h1 : (vals d).get? i = (vals d).get? j := by rw [vals_get? hi, vals_get? hj, hv]
  have hnd := hd.1
  have hi' : i < (vals d).length := by rw [vals_length]; exact hi
  have hj' : j < (vals d).length := by rw [vals_length]; exact hj
  rw [List.get?_eq_get hi', List.get?_eq_get hj'] at h1
  have h2 := (List.Nodup.get_inj_iff hnd).mp (Option.some_inj.mp h1)
  exact congrArg Fin.val h2

theorem hAt_eq {d : List (Int × Nat)} {i : Nat} (h : i < d.length) :
    hAt d i = (d.get ⟨i, h⟩).2 := by
  simp only [hAt, List.get?_eq_get h]
  rfl

theorem vAt_eq {d : List (Int × Nat)} {i : Nat} (h : i < d.length) :
    vAt d i = (d.get ⟨i, h⟩).1 := by
  simp only [vAt, List.get?_eq_get h]
  rfl

theorem hAt_le_MAX {d : List (Int × Nat)} (hd : goodData d) {i : Nat}
    (h : i < d.length) : hAt d i ≤ MAX_LEVEL := by
  rw [hAt_eq h]
  exact hd.2 _ (List.get_mem d i h)

/-!
Specifications of the four canonical selectors.
-/

theorem succAt_spec {d : List (Int × Nat)} {L i : Nat} {u : Int}
    (h : succAt d L u = some i) :
    i < d.length ∧ L ≤ hAt d i ∧ u < vAt d i ∧
      ∀ j, j < d.length → L ≤ hAt d j → u < vAt d j → vAt d i ≤ vAt d j := by
  have hm := mem_candAbove.mp (pickMin_mem h)
  refine ⟨hm.1, hm.2.1, hm.2.2, ?_⟩
  intro j hj hLj huj
  exact pickMin_le h j (mem_candAbove.mpr ⟨hj, hLj, huj⟩)

theorem succAt_eq_none {d : List (Int × Nat)} {L : Nat} {u : Int} :
    succAt d L u = none ↔ ∀ j, j < d.length → L ≤ hAt d j → ¬ u < vAt d j := by
  rw [succAt, pickMin_eq_none, List.eq_nil_iff_forall_not_mem]
  constructor
  · intro h j hj hL hu
    exact h j (mem_candAbove.mpr ⟨hj, hL, hu⟩)
  · intro h x hx
    rw [mem_candAbove] at hx
    exact h x hx.1 hx.2.1 hx.2.2

theorem succAt_intro {d : List (Int × Nat)} {L i : Nat} {u : Int} (hd : goodData d)
    (hi : i < d.length) (hL : L ≤ hAt d i) (hu : u < vAt d i)
    (hmin : ∀ j, j < d.length → L ≤ hAt d j → u < vAt d j → vAt d i ≤ vAt d j) :
    succAt d L u = some i :=
  pickMin_eq_some
    (fun a ha b hb hv =>
      goodData_inj hd (mem_candAbove.mp ha).1 (mem_candAbove.mp hb).1 hv)
    (mem_candAbove.mpr ⟨hi, hL, hu⟩)
    (fun j hj =>
      hmin j (mem_candAbove.mp hj).1 (mem_candAbove.mp hj).2.1 (mem_candAbove.mp hj).2.2)

theorem headAt_spec {d : List (Int × Nat)} {L i : Nat}
    (h : headAt d L = some i) :
    i < d.length ∧ L ≤ hAt d i ∧
      ∀ j, j < d.length → L ≤ hAt d j → vAt d i ≤ vAt d j := by
  have hm := mem_candL.mp (pickMin_mem h)
  exact ⟨hm.1, hm.2, fun j hj hLj => pickMin_le h j (mem_candL.mpr ⟨hj, hLj⟩)⟩

theorem headAt_eq_none {d : List (Int × Nat)} {L : Nat} :
    headAt d L = none ↔ ∀ j, j < d.length → ¬ L ≤ hAt d j := by
  rw [headAt, pickMin_eq_none, List.eq_nil_iff_forall_not_mem]
  constructor
  · intro h j hj hL
    exact h j (mem_candL.mpr ⟨hj, hL⟩)
  · intro h x hx
    rw [mem_candL] at hx
    exact h x hx.1 hx.2

theorem headAt_intro {d : List (Int × Nat)} {L i : Nat} (hd : goodData d)
    (hi : i < d.length) (hL : L ≤ hAt d i)
    (hmin : ∀ j, j < d.length → L ≤ hAt d j → vAt d i ≤ vAt d j) :
    headAt d L = some i :=
  pickMin_eq_some
    (fun a ha b hb hv => goodData_inj hd (mem_candL.mp ha).1 (mem_candL.mp hb).1 hv)
    (mem_candL.mpr ⟨hi, hL⟩)
    (fun j hj => hmin j (mem_candL.mp hj).1 (mem_candL.mp hj).2)

theorem predAt_spec {d : List (Int × Nat)} {L i : Nat} {t : Int}
    (h : predAt d L t = some i) :
    i < d.length ∧ L ≤ hAt d i ∧ vAt d i < t ∧
      ∀ j, j < d.length → L ≤ hAt d j → vAt d j < t → vAt d j ≤ vAt d i := by
  have hm := mem_candBelow.mp (pickMax_mem h)
  refine ⟨hm.1, hm.2.1, hm.2.2, ?_⟩
  intro j hj hLj huj
  exact pickMax_ge h j (mem_candBelow.mpr ⟨hj, hLj, huj⟩)

theorem predAt_eq_none {d : List (Int × Nat)} {L : Nat} {t : Int} :
    predAt d L t = none ↔ ∀ j, j < d.length → L ≤ hAt d j → ¬ vAt d j < t := by
  rw [predAt, pickMax_eq_none, List.eq_nil_iff_forall_not_mem]
  constructor
  · intro h j hj hL hu
    exact h j (mem_candBelow.mpr ⟨hj, hL, hu⟩)
  · intro h x hx
    rw [mem_candBelow] at hx
    exact h x hx.1 hx.2.1 hx.2.2

theorem predAt_intro {d : List (Int × Nat)} {L i : Nat} {t : Int} (hd : goodData d)
    (hi : i < d.length) (hL : L ≤ hAt d i) (hu : vAt d i < t)
    (hmax : ∀ j, j < d.length → L ≤ hAt d j → vAt d j < t → vAt d j ≤ vAt d i) :
    predAt d L t = some i :=
  pickMax_eq_some
    (fun a ha b hb hv =>
      goodData_inj hd (mem_candBelow.mp ha).1 (mem_candBelow.mp hb).1 hv)
    (mem_candBelow.mpr ⟨hi, hL, hu⟩)
    (fun j hj =>
      hmax j (mem_candBelow.mp hj).1 (mem_candBelow.mp hj).2.1 (mem_candBelow.mp hj).2.2)

theorem mem_nextCand {d : List (Int × Nat)} {L i : Nat} {t : Int} :
    i ∈ (candL d L).filter (fun i => decide (t ≤ vAt d i)) ↔
      i < d.length ∧ L ≤ hAt d i ∧ t ≤ vAt d i := by
  simp [List.mem_filter, mem_candL, and_assoc]

theorem nextAt_spec {d : List (Int × Nat)} {L i : Nat} {t : Int}
    (h : nextAt d L t = some i) :
    i < d.length ∧ L ≤ hAt d i ∧ t ≤ vAt d i ∧
      ∀ j, j < d.length → L ≤ hAt d j → t ≤ vAt d j → vAt d i ≤ vAt d j := by
  have hm := mem_nextCand.mp (pickMin_mem h)
  refine ⟨hm.1, hm.2.1, hm.2.2, ?_⟩
  intro j hj hLj huj
  exact pickMin_le h j (mem_nextCand.mpr ⟨hj, hLj, huj⟩)

theorem nextAt_eq_none {d : List (Int × Nat)} {L : Nat} {t : Int} :
    nextAt d L t = none ↔ ∀ j, j < d.length → L ≤ hAt d j → ¬ t ≤ vAt d j := by
  rw [nextAt, pickMin_eq_none, List.eq_nil_iff_forall_not_mem]
  constructor
  · intro h j hj hL hu
    exact h j (mem_nextCand.mpr ⟨hj, hL, hu⟩)
  · intro h x hx
    rw [mem_nextCand] at hx
    exact h x hx.1 hx.2.1 hx.2.2

theorem nextAt_intro {d : List (Int × Nat)} {L i : Nat} {t : Int} (hd : goodData d)
    (hi : i < d.length) (hL : L ≤ hAt d i) (hu : t ≤ vAt d i)
    (hmin : ∀ j, j < d.length → L ≤ hAt d j → t ≤ vAt d j → vAt d i ≤ vAt d j) :
    nextAt d L t = some i :=
  pickMin_eq_some
    (fun a ha b hb hv =>
      goodData_inj hd (mem_nextCand.mp ha).1 (mem_nextCand.mp hb).1 hv)
    (mem_nextCand.mpr ⟨hi, hL, hu⟩)
    (fun j hj =>
      hmin j (mem_nextCand.mp hj).1 (mem_nextCand.mp hj).2.1 (mem_nextCand.mp hj).2.2)

/-!
Facts about `maxH`.
-/

theorem le_foldr_max {l : List Nat} {x : Nat} (h : x ∈ l) : x ≤ l.foldr max 0 := by
  induction l with
  | nil => cases h
  | cons a rest ih =>
    rcases List.mem_cons.mp h with rfl | h2
    · exact le_max_left _ _
    · exact le_trans (ih h2) (le_max_right _ _)

theorem foldr_max_le {l : List Nat} {b : Nat} (h : ∀ x ∈ l, x ≤ b) :
    l.foldr max 0 ≤ b := by
  induction l with
  | nil => exact Nat.zero_le b
  | cons a rest ih =>
    exact max_le (h a (List.mem_cons_self a rest))
      (ih fun x hx => h x (List.mem_cons_of_mem a hx))

theorem foldr_max_mem {l : List Nat} (h : l ≠ []) : l.foldr max 0 ∈ l := by
  induction l with
  | nil => exact absurd rfl h
  | cons a rest ih =>
    cases rest with
    | nil => simp
    | cons b r2 =>
      have hstep : (a :: b :: r2).foldr max 0 = max a ((b :: r2).foldr max 0) := rfl
      rcases le_total ((b :: r2).foldr max 0) a with hc | hc
      · rw [hstep, max_eq_left hc]
        exact List.mem_cons_self _ _
      · rw [hstep, max_eq_right hc]
        exact List.mem_cons_of_mem _ (ih (List.cons_ne_nil b r2))

theorem hAt_le_maxH {d : List (Int × Nat)} {i : Nat} (h : i < d.length) :
    hAt d i ≤ maxH d := by
  rw [hAt_eq h, maxH]
  exact le_foldr_max (List.mem_map_of_mem Prod.snd (List.get_mem d i h))

theorem maxH_le_MAX {d : List (Int × Nat)} (hd : goodData d) : maxH d ≤ MAX_LEVEL := by
  refine foldr_max_le ?_
  intro x hx
  rcases List.mem_map.mp hx with ⟨p, hp, rfl⟩
  exact hd.2 p hp

theorem maxH_attained {d : List (Int × Nat)} (h : d ≠ []) :
    ∃ i, i < d.length ∧ hAt d i = maxH d := by
  have hne : d.map Prod.snd ≠ [] := by
    intro hc
    exact h (List.map_eq_nil.mp hc)
  have hmem := foldr_max_mem hne
  rcases List.mem_map.mp hmem with ⟨p, hp, hpe⟩
  rcases List.mem_iff_get.mp hp with ⟨⟨i, hi⟩, hie⟩
  refine ⟨i, hi, ?_⟩
  rw [hAt_eq hi, hie, hpe]
  rfl

/-!
Accessors of canonical states.
-/

theorem mkCanon_nodes_length {d : List (Int × Nat)} {rng : Nat} :
    (mkCanon d rng).nodes.length = d.length := by
  simp [mkCanon]

theorem mkCanon_level {d : List (Int × Nat)} {rng : Nat} :
    (mkCanon d rng).level = maxH d := rfl

theorem mkCanon_rng {d : List (Int × Nat)} {rng : Nat} :
    (mkCanon d rng).rng_state = rng := rfl

theorem mkCanon_head_length {d : List (Int × Nat)} {rng : Nat} :
    (mkCanon d rng).head_forward.length = MAX_LEVEL + 1 := by
  simp [mkCanon]

theorem mkCanon_node_get? {d : List (Int × Nat)} {rng i : Nat} (h : i < d.length) :
    (mkCanon d rng).nodes.get? i =
      some { value := vAt d i
             forward := (List.range (hAt d i + 1)).map fun L => succAt d L (vAt d i) } := by
  simp [mkCanon, List.get?_eq_getElem?, List.getElem?_map, List.getElem?_range h]

theorem mkCanon_node_get?_oob {d : List (Int × Nat)} {rng i : Nat} (h : d.length ≤ i) :
    (mkCanon d rng).nodes.get? i = none := by
  apply List.get?_eq_none.mpr
  rw [mkCanon_nodes_length]
  exact h

theorem mkCanon_head_get? {d : List (Int × Nat)} {rng L : Nat} :
    (mkCanon d rng).head_forward.get? L =
      if L < MAX_LEVEL + 1 then some (headAt d L) else none := by
  by_cases h : L < MAX_LEVEL + 1
  · simp [mkCanon, List.get?_eq_getElem?, List.getElem?_map, List.getElem?_range h, h]
  · rw [if_neg h]
    apply List.get?_eq_none.mpr
    rw [mkCanon_head_length]
    omega

theorem get_forward_none {d : List (Int × Nat)} {rng L : Nat} (hd : goodData d) :
    (mkCanon d rng).get_forward none L = headAt d L := by
  simp only [SkipList.get_forward, mkCanon_head_get?]
  by_cases h : L < MAX_LEVEL + 1
  · rw [if_pos h]
    rfl
  · rw [if_neg h]
    have hnone : headAt d L = none := by
      rw [headAt_eq_none]
      intro j hj hL
      have := hAt_le_MAX hd hj
      simp only [MAX_LEVEL] at *
      omega
    rw [hnone]
    rfl

theorem get_forward_some {d : List (Int × Nat)} {rng L i : Nat} (h : i < d.length) :
    (mkCanon d rng).get_forward (some i) L =
      if L ≤ hAt d i then succAt d L (vAt d i) else none := by
  simp only [SkipList.get_forward, mkCanon_node_get? h]
  by_cases hL : L ≤ hAt d i
  · rw [if_pos hL]
    have hlt : L < hAt d i + 1 := by omega
    simp [List.get?_eq_getElem?, List.getElem?_map, List.getElem?_range hlt]
  · rw [if_neg hL]
    have hnone : ((List.range (hAt d i + 1)).map fun L => succAt d L (vAt d i)).get? L = none := by
      apply List.get?_eq_none.mpr
      simp only [List.length_map, List.length_range]
      omega
    rw [hnone]
    rfl

theorem get_forward_oob {l : SkipList} {L i : Nat} (h : l.nodes.length ≤ i) :
    l.get_forward (some i) L = none := by
  simp only [SkipList.get_forward]
  rw [List.get?_eq_none.mpr h]

theorem mkCanon_value_getD {d : List (Int × Nat)} {rng i : Nat} (h : i < d.length) :
    ((mkCanon d rng).nodes.getD i default).value = vAt d i := by
  rw [List.getD_eq_get?, mkCanon_node_get? h]
  rfl

theorem mkCanon_forward_getD {d : List (Int × Nat)} {rng i : Nat} (h : i < d.length) :
    ((mkCanon d rng).nodes.getD i default).forward =
      (List.range (hAt d i + 1)).map fun L => succAt d L (vAt d i) := by
  rw [List.getD_eq_get?, mkCanon_node_get? h]
  rfl

/-!
Correctness of the shared traversal loop on canonical states.
-/

def okStart (d : List (Int × Nat)) (L : Nat) (t : Int) : Option Nat → Prop
  | none => True
  | some j => j < d.length ∧ L ≤ hAt d j ∧ vAt d j < t

def aboveB (d : List (Int × Nat)) : Option Nat → Nat → Bool
  | none, _ => true
  | some j, i => decide (vAt d j < vAt d i)

def countAbove (d : List (Int × Nat)) (L : Nat) (t : Int) (p : Option Nat) : Nat :=
  ((candBelow d L t).filter (aboveB d p)).length

def nextFrom (d : List (Int × Nat)) (L : Nat) (p : Option Nat) : Option Nat :=
  pickMin (vAt d) ((candL d L).filter (aboveB d p))

theorem mem_fromCand {d : List (Int × Nat)} {L i : Nat} {p : Option Nat} :
    i ∈ (candL d L).filter (aboveB d p) ↔
      i < d.length ∧ L ≤ hAt d i ∧ aboveB d p i = true := by
  simp [List.mem_filter, mem_candL, and_assoc]

theorem nextFrom_spec {d : List (Int × Nat)} {L i : Nat} {p : Option Nat}
    (h : nextFrom d L p = some i) :
    i < d.length ∧ L ≤ hAt d i ∧ aboveB d p i = true ∧
      ∀ j, j < d.length → L ≤ hAt d j → aboveB d p j = true → vAt d i ≤ vAt d j := by
  have hm := mem_fromCand.mp (pickMin_mem h)
  refine ⟨hm.1, hm.2.1, hm.2.2, ?_⟩
  intro j hj hLj hpj
  exact pickMin_le h j (mem_fromCand.mpr ⟨hj, hLj, hpj⟩)

theorem nextFrom_eq_none {d : List (Int × Nat)} {L : Nat} {p : Option Nat} :
    nextFrom d L p = none ↔
      ∀ j, j < d.length → L ≤ hAt d j → ¬ aboveB d p j = true := by
  rw [nextFrom, pickMin_eq_none, List.eq_nil_iff_forall_not_mem]
  constructor
  · intro h j hj hL hp
    exact h j (mem_fromCand.mpr ⟨hj, hL, hp⟩)
  · intro h x hx
    rw [mem_fromCand] at hx
    exact h x hx.1 hx.2.1 hx.2.2

theorem predAt_eq_of_stopped {d : List (Int × Nat)} {L : Nat} {t : Int} {p : Option Nat}
    (hd : goodData d) (hp : okStart d L t p)
    (hno : ∀ i, i < d.length → L ≤ hAt d i → vAt d i < t → aboveB d p i = false) :
    predAt d L t = p := by
  cases p with
  | none =>
    rw [predAt_eq_none]
    intro j hj hL hv
    have := hno j hj hL hv
    simp [aboveB] at this
  | some j =>
    rcases hp with ⟨hj, hLj, hvj⟩
    refine predAt_intro hd hj hLj hvj ?_
    intro k hk hLk hvk
    by_contra hc
    have habove : aboveB d (some j) k = true := by
      simp only [aboveB, decide_eq_true_eq]
      exact lt_of_not_le hc
    rw [hno k hk hLk hvk] at habove
    exact Bool.noConfusion habove

theorem get_forward_okStart {d : List (Int × Nat)} {rng L : Nat} {t : Int}
    {p : Option Nat} (hd : goodData d) (hp : okStart d L t p) :
    (mkCanon d rng).get_forward p L = nextFrom d L p := by
  cases p with
  | none =>
    rw [get_forward_none hd, nextFrom]
    have hfe : (candL d L).filter (aboveB d none) = candL d L :=
      List.filter_eq_self.mpr fun a _ => rfl
    rw [hfe]
    rfl
  | some j =>
    rcases hp with ⟨hj, hLj, _⟩
    rw [get_forward_some hj, if_pos hLj, nextFrom]
    have hfe : (candL d L).filter (aboveB d (some j)) = candAbove d L (vAt d j) :=
      List.filter_congr fun a _ => rfl
    rw [hfe]
    rfl

theorem length_filter_ne_lt {l : List Nat} {i : Nat} (h : i ∈ l) :
    (l.filter fun k => decide (k ≠ i)).length < l.length := by
  induction l with
  | nil => cases h
  | cons a rest ih =>
    by_cases ha : a = i
    · subst ha
      have : ((a :: rest).filter fun k => decide (k ≠ a)) =
          rest.filter fun k => decide (k ≠ a) := by
        simp
      rw [this]
      have := List.length_filter_le (fun k => decide (k ≠ a)) rest
      simp only [List.length_cons]
      omega
    · have hmem : i ∈ rest := by
        rcases List.mem_cons.mp h with rfl | h2
        · exact absurd rfl ha
        · exact h2
      have : ((a :: rest).filter fun k => decide (k ≠ i)) =
          a :: (rest.filter fun k => decide (k ≠ i)) := by
        simp [ha]
      rw [this]
      simp only [List.length_cons]
      exact Nat.succ_lt_succ (ih hmem)

theorem countAbove_lt {d : List (Int × Nat)} {L : Nat} {t : Int} {p : Option Nat} {i : Nat}
    (hp : okStart d L t p) (hi : nextFrom d L p = some i) (hvt : vAt d i < t) :
    countAbove d L t (some i) < countAbove d L t p := by
  rcases nextFrom_spec hi with ⟨hin, hiL, hiab, _⟩
  have himem : i ∈ (candBelow d L t).filter (aboveB d p) :=
    List.mem_filter.mpr ⟨mem_candBelow.mpr ⟨hin, hiL, hvt⟩, hiab⟩
  have hsub : List.Sublist ((candBelow d L t).filter (aboveB d (some i)))
      (((candBelow d L t).filter (aboveB d p)).filter fun k => decide (k ≠ i)) := by
    rw [List.filter_filter]
    apply List.monotone_filter_right
    intro k hk
    simp only [aboveB, decide_eq_true_eq] at hk
    have hik : vAt d i < vAt d k := hk
    have hkne : k ≠ i := by
      intro hkeq
      subst hkeq
      exact lt_irrefl _ hik
    have habk : aboveB d p k = true := by
      cases p with
      | none => rfl
      | some j =>
        simp only [aboveB, decide_eq_true_eq] at hiab ⊢
        exact lt_trans hiab hik
    simp [habk, hkne]
  calc ((candBelow d L t).filter (aboveB d (some i))).length
      ≤ (((candBelow d L t).filter (aboveB d p)).filter fun k => decide (k ≠ i)).length :=
        hsub.length_le
    _ < ((candBelow d L t).filter (aboveB d p)).length := length_filter_ne_lt himem

theorem countAbove_le_length {d : List (Int × Nat)} {L : Nat} {t : Int} {p : Option Nat} :
    countAbove d L t p ≤ d.length := by
  have h1 := List.length_filter_le (aboveB d p) (candBelow d L t)
  have h2 := List.length_filter_le (fun i => decide (vAt d i < t)) (candL d L)
  have h3 := List.length_filter_le (fun i => decide (L ≤ hAt d i)) (List.range d.length)
  simp only [countAbove, candBelow, candL] at *
  simp only [List.length_range] at h3
  omega

theorem advance_correct {d : List (Int × Nat)} {rng L : Nat} {t : Int}
    (hd : goodData d) :
    ∀ (fuel : Nat) (p : Option Nat), okStart d L t p → countAbove d L t p ≤ fuel →
      (mkCanon d rng).advance t L p fuel = predAt d L t := by
  intro fuel
  induction fuel with
  | zero =>
    intro p hp hc
    have hzero : countAbove d L t p = 0 := Nat.le_zero.mp hc
    have hnil : (candBelow d L t).filter (aboveB d p) = [] :=
      List.length_eq_zero.mp hzero
    have hno : ∀ i, i < d.length → L ≤ hAt d i → vAt d i < t → aboveB d p i = false := by
      intro i hin hiL hit
      by_contra hcon
      have : i ∈ (candBelow d L t).filter (aboveB d p) :=
        List.mem_filter.mpr ⟨mem_candBelow.mpr ⟨hin, hiL, hit⟩,
          Bool.of_not_eq_false hcon⟩
      rw [hnil] at this
      exact absurd this (List.not_mem_nil i)
    exact (predAt_eq_of_stopped hd hp hno).symm
  | succ fuel ih =>
    intro p hp hc
    have hgf := @get_forward_okStart d rng L t p hd hp
    cases hnf : nextFrom d L p with
    | none =>
      rw [hnf] at hgf
      simp only [SkipList.advance, hgf]
      have hno : ∀ i, i < d.length → L ≤ hAt d i → vAt d i < t → aboveB d p i = false := by
        intro i hin hiL _
        by_contra hcon
        exact (nextFrom_eq_none.mp hnf) i hin hiL (Bool.of_not_eq_false hcon)
      exact (predAt_eq_of_stopped hd hp hno).symm
    | some i =>
      rw [hnf] at hgf
      rcases nextFrom_spec hnf with ⟨hin, hiL, hiab, himin⟩
      have hlen : i < (mkCanon d rng).nodes.length := by
        rw [mkCanon_nodes_length]
        exact hin
      simp only [SkipList.advance, hgf, if_pos hlen, mkCanon_value_getD hin]
      by_cases hvt : vAt d i < t
      · rw [if_pos hvt]
        refine ih (some i) ⟨hin, hiL, hvt⟩ ?_
        have := countAbove_lt hp hnf hvt
        omega
      · rw [if_neg hvt]
        have hno : ∀ k, k < d.length → L ≤ hAt d k → vAt d k < t → aboveB d p k = false := by
          intro k hkn hkL hkt
          by_contra hcon
          have h1 := himin k hkn hkL (Bool.of_not_eq_false hcon)
          exact hvt (lt_of_le_of_lt h1 hkt)
        exact (predAt_eq_of_stopped hd hp hno).symm

/-!
Characterization of the update vector built by the descending traversal.
-/

theorem okStart_predAt {d : List (Int × Nat)} {L L2 : Nat} {t : Int} (h : L2 ≤ L) :
    okStart d L2 t (predAt d L t) := by
  cases hp : predAt d L t with
  | none => trivial
  | some j =>
    rcases predAt_spec hp with ⟨hj, hLj, hvj, _⟩
    exact ⟨hj, le_trans h hLj, hvj⟩

theorem predAt_none_of_gt_maxH {d : List (Int × Nat)} {L : Nat} {t : Int}
    (h : maxH d < L) : predAt d L t = none := by
  rw [predAt_eq_none]
  intro j hj hL
  have := hAt_le_maxH hj
  omega

theorem succAt_none_of_gt_maxH {d : List (Int × Nat)} {L : Nat} {u : Int}
    (h : maxH d < L) : succAt d L u = none := by
  rw [succAt_eq_none]
  intro j hj hL
  have := hAt_le_maxH hj
  omega

theorem headAt_none_of_gt_maxH {d : List (Int × Nat)} {L : Nat}
    (h : maxH d < L) : headAt d L = none := by
  rw [headAt_eq_none]
  intro j hj hL
  have := hAt_le_maxH hj
  omega

theorem nextAt_none_of_gt_maxH {d : List (Int × Nat)} {L : Nat} {t : Int}
    (h : maxH d < L) : nextAt d L t = none := by
  rw [nextAt_eq_none]
  intro j hj hL
  have := hAt_le_maxH hj
  omega

theorem advance_correct_full {d : List (Int × Nat)} {rng L : Nat} {t : Int}
    (hd : goodData d) {p : Option Nat} (hp : okStart d L t p) :
    (mkCanon d rng).advance t L p ((mkCanon d rng).nodes.length) = predAt d L t := by
  apply advance_correct hd _ p hp
  rw [mkCanon_nodes_length]
  exact countAbove_le_length

theorem buildUpdateAux_correct {d : List (Int × Nat)} {rng : Nat} {t : Int}
    (hd : goodData d) :
    ∀ (lvl : Nat) (cur : Option Nat) (upd : List (Option Nat)),
      okStart d lvl t cur → lvl < upd.length →
      (∀ L, ((mkCanon d rng).buildUpdateAux t lvl cur upd).1.getD L none =
          if L ≤ lvl then predAt d L t else upd.getD L none) ∧
      ((mkCanon d rng).buildUpdateAux t lvl cur upd).2 = predAt d 0 t ∧
      ((mkCanon d rng).buildUpdateAux t lvl cur upd).1.length = upd.length := by
  intro lvl
  induction lvl with
  | zero =>
    intro cur upd hcur hlen
    have hadv : (mkCanon d rng).advance t 0 cur ((mkCanon d rng).nodes.length) =
        predAt d 0 t := advance_correct_full hd hcur
    simp only [SkipList.buildUpdateAux, hadv]
    refine ⟨?_, by trivial, by simp⟩
    intro L
    by_cases hL : L ≤ 0
    · have hL0 : L = 0 := Nat.le_zero.mp hL
      subst hL0
      rw [if_pos (le_refl 0)]
      simp only [List.getD_eq_getElem?_getD, List.getElem?_set]
      rw [if_pos trivial, if_pos hlen]
      rfl
    · rw [if_neg hL]
      have hne : (0 : Nat) ≠ L := fun hc => hL (hc ▸ le_refl 0)
      simp only [List.getD_eq_getElem?_getD, List.getElem?_set, if_neg hne]
  | succ lvl ih =>
    intro cur upd hcur hlen
    have hadv : (mkCanon d rng).advance t (lvl + 1) cur ((mkCanon d rng).nodes.length) =
        predAt d (lvl + 1) t := advance_correct_full hd hcur
    simp only [SkipList.buildUpdateAux, hadv]
    have hok : okStart d lvl t (predAt d (lvl + 1) t) :=
      okStart_predAt (Nat.le_succ lvl)
    have hlen2 : lvl < (upd.set (lvl + 1) (predAt d (lvl + 1) t)).length := by
      rw [List.length_set]
      omega
    rcases ih (predAt d (lvl + 1) t) (upd.set (lvl + 1) (predAt d (lvl + 1) t)) hok hlen2
      with ⟨hupd, hcur2, hlen3⟩
    refine ⟨?_, hcur2, by rw [hlen3, List.length_set]⟩
    intro L
    rw [hupd L]
    by_cases hL : L ≤ lvl
    · rw [if_pos hL, if_pos (le_trans hL (Nat.le_succ lvl))]
    · rw [if_neg hL]
      by_cases hL2 : L = lvl + 1
      · subst hL2
        rw [if_pos (le_refl _)]
        simp only [List.getD_eq_getElem?_getD, List.getElem?_set]
        rw [if_pos trivial, if_pos hlen]
        rfl
      · have : ¬ L ≤ lvl + 1 := by omega
        rw [if_neg this]
        have hne : lvl + 1 ≠ L := fun hc => hL2 hc.symm
        simp only [List.getD_eq_getElem?_getD, List.getElem?_set, if_neg hne]

theorem buildUpdate_correct {d : List (Int × Nat)} {rng : Nat} (hd : goodData d)
    (t : Int) :
    (∀ L, ((mkCanon d rng).buildUpdate t).1.getD L none = predAt d L t) ∧
    ((mkCanon d rng).buildUpdate t).2 = predAt d 0 t ∧
    ((mkCanon d rng).buildUpdate t).1.length = MAX_LEVEL + 1 := by
  have hmax : maxH d ≤ MAX_LEVEL := maxH_le_MAX hd
  have hlen : maxH d < (List.replicate (MAX_LEVEL + 1) (none : Option Nat)).length := by
    rw [List.length_replicate]
    omega
  have h := @buildUpdateAux_correct d rng t hd (maxH d) none
    (List.replicate (MAX_LEVEL + 1) none) trivial hlen
  rcases h with ⟨hupd, hcur, hlen2⟩
  have hbu : (mkCanon d rng).buildUpdate t =
      (mkCanon d rng).buildUpdateAux t (maxH d) none (List.replicate (MAX_LEVEL + 1) none) := by
    rw [SkipList.buildUpdate, mkCanon_level]
  rw [hbu]
  refine ⟨?_, hcur, by rw [hlen2, List.length_replicate]⟩
  intro L
  rw [hupd L]
  by_cases hL : L ≤ maxH d
  · rw [if_pos hL]
  · rw [if_neg hL]
    rw [predAt_none_of_gt_maxH (lt_of_not_le hL)]
    simp only [List.getD_eq_getElem?_getD, List.getElem?_replicate]
    split <;> rfl

/-!
The node after the canonical predecessor is the canonical next node.
-/

theorem get_forward_predAt {d : List (Int × Nat)} {rng L : Nat} {t : Int}
    (hd : goodData d) :
    (mkCanon d rng).get_forward (predAt d L t) L = nextAt d L t := by
  cases hp : predAt d L t with
  | none =>
    rw [get_forward_none hd]
    have hnone := predAt_eq_none.mp hp
    rw [headAt, nextAt]
    congr 1
    symm
    apply List.filter_eq_self.mpr
    intro a ha
    rw [mem_candL] at ha
    simp only [decide_eq_true_eq]
    by_contra hc
    exact hnone a ha.1 ha.2 (lt_of_not_le hc)
  | some j =>
    rcases predAt_spec hp with ⟨hj, hLj, hvj, hmax⟩
    rw [get_forward_some hj, if_pos hLj]
    rw [succAt, nextAt, candAbove]
    congr 1
    apply List.filter_congr
    intro a ha
    rw [mem_candL] at ha
    simp only [decide_eq_decide]
    constructor
    · intro hgt
      by_contra hc
      have hat : vAt d a < t := lt_of_not_le hc
      have := hmax a ha.1 ha.2 hat
      exact absurd hgt (not_lt_of_le this)
    · intro hge
      exact lt_of_lt_of_le hvj hge

/-!
Extracted forms of the predecessor-successor relation.
-/

theorem headAt_eq_nextAt {d : List (Int × Nat)} {L : Nat} {t : Int}
    (hp : predAt d L t = none) : headAt d L = nextAt d L t := by
  have hnone := predAt_eq_none.mp hp
  rw [headAt, nextAt]
  congr 1
  symm
  apply List.filter_eq_self.mpr
  intro a ha
  rw [mem_candL] at ha
  simp only [decide_eq_true_eq]
  by_contra hc
  exact hnone a ha.1 ha.2 (lt_of_not_le hc)

theorem succAt_pred_eq_nextAt {d : List (Int × Nat)} {L j : Nat} {t : Int}
    (hp : predAt d L t = some j) : succAt d L (vAt d j) = nextAt d L t := by
  rcases predAt_spec hp with ⟨hj, hLj, hvj, hmax⟩
  rw [succAt, nextAt, candAbove]
  congr 1
  apply List.filter_congr
  intro a ha
  rw [mem_candL] at ha
  simp only [decide_eq_decide]
  constructor
  · intro hgt
    by_contra hc
    have hat : vAt d a < t := lt_of_not_le hc
    exact absurd hgt (not_lt_of_le (hmax a ha.1 ha.2 hat))
  · intro hge
    exact lt_of_lt_of_le hvj hge

/-!
Data accessors across an append at the end of the arena.
-/

theorem vAt_append_lt {d : List (Int × Nat)} {p : Int × Nat} {j : Nat}
    (h : j < d.length) : vAt (d ++ [p]) j = vAt d j := by
  simp only [vAt, List.get?_eq_getElem?, List.getElem?_append_left h]

theorem hAt_append_lt {d : List (Int × Nat)} {p : Int × Nat} {j : Nat}
    (h : j < d.length) : hAt (d ++ [p]) j = hAt d j := by
  simp only [hAt, List.get?_eq_getElem?, List.getElem?_append_left h]

theorem vAt_append_self {d : List (Int × Nat)} {p : Int × Nat} :
    vAt (d ++ [p]) d.length = p.1 := by
  simp only [vAt, List.get?_eq_getElem?, List.getElem?_concat_length]
  rfl

theorem hAt_append_self {d : List (Int × Nat)} {p : Int × Nat} :
    hAt (d ++ [p]) d.length = p.2 := by
  simp only [hAt, List.get?_eq_getElem?, List.getElem?_concat_length]
  rfl

theorem vals_append {d : List (Int × Nat)} {p : Int × Nat} :
    vals (d ++ [p]) = vals d ++ [p.1] := by
  simp [vals]

theorem goodData_append {d : List (Int × Nat)} {t : Int} {H : Nat}
    (hd : goodData d) (ht : t ∉ vals d) (hH : H ≤ MAX_LEVEL) :
    goodData (d ++ [(t, H)]) := by
  constructor
  · rw [vals_append]
    apply List.Nodup.append hd.1 (List.nodup_singleton t)
    intro a ha hb
    rcases List.mem_singleton.mp hb with rfl
    exact ht ha
  · intro p hp
    rcases List.mem_append.mp hp with h1 | h1
    · exact hd.2 p h1
    · rcases List.mem_singleton.mp h1 with rfl
      exact hH

theorem foldr_max_init {l : List Nat} {b : Nat} :
    l.foldr max b = max (l.foldr max 0) b := by
  induction l with
  | nil => simp
  | cons a rest ih =>
    simp only [List.foldr_cons, ih]
    omega

theorem maxH_append {d : List (Int × Nat)} {t : Int} {H : Nat} :
    maxH (d ++ [(t, H)]) = max (maxH d) H := by
  simp only [maxH, List.map_append, List.map_cons, List.map_nil, List.foldr_append, List.foldr_cons, List.foldr_nil]
  rw [foldr_max_init]
  omega

theorem succAt_eq_nextAt_of_absent {d : List (Int × Nat)} {L : Nat} {t : Int}
    (ht : t ∉ vals d) : succAt d L t = nextAt d L t := by
  rw [succAt, nextAt, candAbove]
  congr 1
  apply List.filter_congr
  intro a ha
  rw [mem_candL] at ha
  simp only [decide_eq_decide]
  constructor
  · exact le_of_lt
  · intro hge
    rcases lt_or_eq_of_le hge with h1 | h1
    · exact h1
    · exact absurd (h1 ▸ vAt_mem_vals ha.1) ht

theorem succAt_append {d : List (Int × Nat)} {t : Int} {H L j : Nat}
    (hd : goodData d) (ht : t ∉ vals d) (hH : H ≤ MAX_LEVEL)
    (hj : j < d.length) (hLj : L ≤ hAt d j) :
    succAt (d ++ [(t, H)]) L (vAt d j) =
      if L ≤ H ∧ predAt d L t = some j then some d.length
      else succAt d L (vAt d j) := by
  have hd' := goodData_append hd ht hH
  have hlen : (d ++ [(t, H)]).length = d.length + 1 := by simp
  by_cases hcond : L ≤ H ∧ predAt d L t = some j
  · rw [if_pos hcond]
    rcases hcond with ⟨hLH, hpred⟩
    rcases predAt_spec hpred with ⟨_, _, hvj, hmax⟩
    apply succAt_intro hd'
    · omega
    · rw [hAt_append_self]
      exact hLH
    · rw [vAt_append_self]
      exact hvj
    · intro k hk hLk hjk
      rw [vAt_append_self]
      rw [hlen] at hk
      by_cases hkn : k < d.length
      · rw [hAt_append_lt hkn] at hLk
        rw [vAt_append_lt hkn] at hjk ⊢
        by_contra hc
        have hkt : vAt d k < t := lt_of_not_le hc
        exact absurd hjk (not_lt_of_le (hmax k hkn hLk hkt))
      · have hkeq : k = d.length := by omega
        subst hkeq
        rw [vAt_append_self]
  · rw [if_neg hcond]
    cases hs : succAt d L (vAt d j) with
    | some q =>
      rcases succAt_spec hs with ⟨hq, hLq, hjq, hqmin⟩
      apply succAt_intro hd'
      · omega
      · rw [hAt_append_lt hq]
        exact hLq
      · rw [vAt_append_lt hq]
        exact hjq
      · intro k hk hLk hjk
        rw [vAt_append_lt hq]
        rw [hlen] at hk
        by_cases hkn : k < d.length
        · rw [hAt_append_lt hkn] at hLk
          rw [vAt_append_lt hkn] at hjk ⊢
          exact hqmin k hkn hLk hjk
        · have hkeq : k = d.length := by omega
          subst hkeq
          rw [hAt_append_self] at hLk
          rw [vAt_append_self] at hjk ⊢
          by_contra hc
          have htq : t < vAt d q := lt_of_not_le hc
          apply hcond
          refine ⟨hLk, predAt_intro hd hj hLj hjk ?_⟩
          intro m hm hLm hmt
          by_contra hcm
          have hjm : vAt d j < vAt d m := lt_of_not_le hcm
          have := hqmin m hm hLm hjm
          exact absurd (lt_of_le_of_lt this hmt) (not_lt_of_le (le_of_lt htq))
    | none =>
      rw [succAt_eq_none]
      intro k hk hLk
      rw [hlen] at hk
      by_cases hkn : k < d.length
      · rw [hAt_append_lt hkn] at hLk
        rw [vAt_append_lt hkn]
        exact succAt_eq_none.mp hs k hkn hLk
      · have hkeq : k = d.length := by omega
        subst hkeq
        rw [hAt_append_self] at hLk
        rw [vAt_append_self]
        intro hjt
        apply hcond
        refine ⟨hLk, predAt_intro hd hj hLj hjt ?_⟩
        intro m hm hLm hmt
        by_contra hcm
        exact succAt_eq_none.mp hs m hm hLm (lt_of_not_le hcm)

theorem headAt_append {d : List (Int × Nat)} {t : Int} {H L : Nat}
    (hd : goodData d) (ht : t ∉ vals d) (hH : H ≤ MAX_LEVEL) :
    headAt (d ++ [(t, H)]) L =
      if L ≤ H ∧ predAt d L t = none then some d.length
      else headAt d L := by
  have hd' := goodData_append hd ht hH
  have hlen : (d ++ [(t, H)]).length = d.length + 1 := by simp
  by_cases hcond : L ≤ H ∧ predAt d L t = none
  · rw [if_pos hcond]
    rcases hcond with ⟨hLH, hpred⟩
    have hnone := predAt_eq_none.mp hpred
    apply headAt_intro hd'
    · omega
    · rw [hAt_append_self]
      exact hLH
    · intro k hk hLk
      rw [vAt_append_self]
      rw [hlen] at hk
      by_cases hkn : k < d.length
      · rw [hAt_append_lt hkn] at hLk
        rw [vAt_append_lt hkn]
        exact le_of_not_lt (hnone k hkn hLk)
      · have hkeq : k = d.length := by omega
        subst hkeq
        rw [vAt_append_self]
  · rw [if_neg hcond]
    cases hh : headAt d L with
    | some q =>
      rcases headAt_spec hh with ⟨hq, hLq, hqmin⟩
      apply headAt_intro hd'
      · omega
      · rw [hAt_append_lt hq]
        exact hLq
      · intro k hk hLk
        rw [vAt_append_lt hq]
        rw [hlen] at hk
        by_cases hkn : k < d.length
        · rw [hAt_append_lt hkn] at hLk
          rw [vAt_append_lt hkn]
          exact hqmin k hkn hLk
        · have hkeq : k = d.length := by omega
          subst hkeq
          rw [hAt_append_self] at hLk
          rw [vAt_append_self]
          cases hp : predAt d L t with
          | none => exact absurd ⟨hLk, hp⟩ hcond
          | some j0 =>
            rcases predAt_spec hp with ⟨hj0, hLj0, hvj0, _⟩
            exact le_of_lt (lt_of_le_of_lt (hqmin j0 hj0 hLj0) hvj0)
    | none =>
      have hnoq := headAt_eq_none.mp hh
      rw [headAt_eq_none]
      intro k hk hLk
      rw [hlen] at hk
      by_cases hkn : k < d.length
      · rw [hAt_append_lt hkn] at hLk
        exact hnoq k hkn hLk
      · have hkeq : k = d.length := by omega
        subst hkeq
        rw [hAt_append_self] at hLk
        have hprednone : predAt d L t = none := by
          rw [predAt_eq_none]
          intro m hm hLm
          exact absurd hLm (hnoq m hm)
        exact absurd ⟨hLk, hprednone⟩ hcond

theorem succAt_append_self {d : List (Int × Nat)} {t : Int} {H L : Nat}
    (hd : goodData d) (ht : t ∉ vals d) (hH : H ≤ MAX_LEVEL) :
    succAt (d ++ [(t, H)]) L t = nextAt d L t := by
  have hd' := goodData_append hd ht hH
  have hlen : (d ++ [(t, H)]).length = d.length + 1 := by simp
  rw [← succAt_eq_nextAt_of_absent ht]
  cases hs : succAt d L t with
  | some q =>
    rcases succAt_spec hs with ⟨hq, hLq, htq, hqmin⟩
    apply succAt_intro hd'
    · omega
    · rw [hAt_append_lt hq]
      exact hLq
    · rw [vAt_append_lt hq]
      exact htq
    · intro k hk hLk htk
      rw [vAt_append_lt hq]
      rw [hlen] at hk
      by_cases hkn : k < d.length
      · rw [hAt_append_lt hkn] at hLk
        rw [vAt_append_lt hkn] at htk ⊢
        exact hqmin k hkn hLk htk
      · have hkeq : k = d.length := by omega
        subst hkeq
        rw [vAt_append_self] at htk
        exact absurd htk (lt_irrefl t)
  | none =>
    rw [succAt_eq_none]
    intro k hk hLk
    rw [hlen] at hk
    by_cases hkn : k < d.length
    · rw [hAt_append_lt hkn] at hLk
      rw [vAt_append_lt hkn]
      exact succAt_eq_none.mp hs k hkn hLk
    · have hkeq : k = d.length := by omega
      subst hkeq
      rw [vAt_append_self]
      exact lt_irrefl t

/-!
Frame lemmas for `set_forward`.
-/

theorem set_forward_level {l : SkipList} {p : Option Nat} {L : Nat} {x : Option Nat} :
    (l.set_forward p L x).level = l.level := by
  cases p with
  | none =>
    simp only [SkipList.set_forward]
    split <;> rfl
  | some idx =>
    simp only [SkipList.set_forward]
    cases h : l.nodes.get? idx with
    | none => simp only [h]
    | some nd =>
      simp only [h]
      split <;> rfl

theorem set_forward_rng {l : SkipList} {p : Option Nat} {L : Nat} {x : Option Nat} :
    (l.set_forward p L x).rng_state = l.rng_state := by
  cases p with
  | none =>
    simp only [SkipList.set_forward]
    split <;> rfl
  | some idx =>
    simp only [SkipList.set_forward]
    cases h : l.nodes.get? idx with
    | none => simp only [h]
    | some nd =>
      simp only [h]
      split <;> rfl

theorem map_range_set {m k : Nat} {f : Nat → Option Nat} {x : Option Nat} (hk : k < m) :
    ((List.range m).map f).set k x =
      (List.range m).map fun L => if L = k then x else f L := by
  apply List.ext_get?
  intro i
  simp only [List.get?_eq_getElem?, List.getElem?_set, List.getElem?_map]
  by_cases hik : k = i
  · subst hik
    rw [if_pos rfl]
    rw [List.length_map, List.length_range]
    rw [if_pos hk, List.getElem?_range hk]
    simp
  · rw [if_neg hik]
    by_cases him : i < m
    · rw [List.getElem?_range him]
      have hne : ¬ (i = k) := fun hc => hik hc.symm
      simp [hne]
    · have : (List.range m)[i]? = none := by
        apply List.getElem?_eq_none
        rw [List.length_range]
        omega
      rw [this]
      simp

theorem replicate_none_eq_map_range {m : Nat} {f : Nat → Option Nat} :
    List.replicate m (none : Option Nat) =
      (List.range m).map fun L => if L < 0 then f L else none := by
  apply List.ext_get?
  intro i
  simp only [List.get?_eq_getElem?, List.getElem?_replicate, List.getElem?_map]
  by_cases him : i < m
  · rw [if_pos him, List.getElem?_range him]
    simp
  · rw [if_neg him]
    have : (List.range m)[i]? = none := by
      apply List.getElem?_eq_none
      rw [List.length_range]
      omega
    rw [this]
    simp

/-!
Invariant of the insert splice loop: after the first `k` levels have been
spliced, the predecessors at those levels point at the new position, the
new node holds the old successors there, and everything else is still
canonical for the old data.
-/

def spliceInv (d : List (Int × Nat)) (t : Int) (H : Nat) (l1 : SkipList) (k : Nat)
    (st : SkipList × Node) : Prop :=
  st.1.nodes.length = d.length ∧
  (∀ j, j < d.length → st.1.nodes.get? j =
    some { value := vAt d j
           forward := (List.range (hAt d j + 1)).map fun L =>
             if L < k ∧ predAt d L t = some j then some d.length
             else succAt d L (vAt d j) }) ∧
  st.1.head_forward.length = MAX_LEVEL + 1 ∧
  (∀ L, L < MAX_LEVEL + 1 → st.1.head_forward.get? L =
    some (if L < k ∧ predAt d L t = none then some d.length else headAt d L)) ∧
  st.1.level = l1.level ∧
  st.1.rng_state = l1.rng_state ∧
  st.2.value = t ∧
  st.2.forward = (List.range (H + 1)).map fun L => if L < k then nextAt d L t else none

theorem spliceStep_inv {d : List (Int × Nat)} {t : Int} {H : Nat} {l1 : SkipList}
    {upd : List (Option Nat)} {k : Nat} {st : SkipList × Node}
    (hupd : ∀ L, upd.getD L none = predAt d L t)
    (hH : H ≤ MAX_LEVEL) (hk : k ≤ H) (hinv : spliceInv d t H l1 k st) :
    spliceInv d t H l1 (k + 1) (spliceStep upd d.length st k) := by
  rcases hinv with ⟨hlen, hnode, hhlen, hhead, hlev, hrng, hval, hfwd⟩
  have hk17 : k < MAX_LEVEL + 1 := by omega
  cases hp : predAt d k t with
  | none =>
    have hfwdv : st.1.get_forward (upd.getD k none) k = nextAt d k t := by
      rw [hupd k, hp]
      simp only [SkipList.get_forward]
      rw [hhead k hk17]
      have hcond : ¬ (k < k ∧ predAt d k t = none) := fun hc => lt_irrefl k hc.1
      rw [if_neg hcond]
      simp only [Option.getD_some]
      exact headAt_eq_nextAt hp
    have hset : st.1.set_forward (upd.getD k none) k (some d.length) =
        { st.1 with head_forward := st.1.head_forward.set k (some d.length) } := by
      rw [hupd k, hp]
      simp only [SkipList.set_forward]
      rw [if_pos (by omega : k < st.1.head_forward.length)]
    simp only [spliceStep, hfwdv, hset]
    refine ⟨hlen, ?_, ?_, ?_, hlev, hrng, hval, ?_⟩
    · intro j hj
      rw [hnode j hj]
      refine congrArg some ?_
      refine congrArg (fun fw => Node.mk (vAt d j) fw) ?_
      apply List.map_congr_left
      intro L _
      apply if_congr _ rfl rfl
      constructor
      · intro hc
        exact ⟨by omega, hc.2⟩
      · rintro ⟨hLk, hpj⟩
        refine ⟨?_, hpj⟩
        rcases Nat.lt_succ_iff_lt_or_eq.mp hLk with h1 | h1
        · exact h1
        · subst h1
          rw [hp] at hpj
          exact absurd hpj (Option.noConfusion)
    · rw [List.length_set]
      exact hhlen
    · intro L hL
      simp only [List.get?_eq_getElem?, List.getElem?_set]
      by_cases hkL : k = L
      · subst hkL
        rw [if_pos rfl, if_pos (by omega : k < st.1.head_forward.length)]
        have : (k < k + 1 ∧ predAt d k t = none) := ⟨Nat.lt_succ_self k, hp⟩
        rw [if_pos this]
      · rw [if_neg hkL]
        have := hhead L hL
        rw [List.get?_eq_getElem?] at this
        rw [this]
        refine congrArg some ?_
        apply if_congr _ rfl rfl
        constructor
        · intro hc
          exact ⟨by omega, hc.2⟩
        · rintro ⟨hLk, hpj⟩
          refine ⟨?_, hpj⟩
          rcases Nat.lt_succ_iff_lt_or_eq.mp hLk with h1 | h1
          · exact h1
          · exact absurd h1.symm hkL
    · show (st.2.forward.set k (nextAt d k t)) = _
      rw [hfwd, map_range_set (by omega : k < H + 1)]
      apply List.map_congr_left
      intro L _
      by_cases hLk : L = k
      · subst hLk
        rw [if_pos rfl, if_pos (Nat.lt_succ_self L)]
      · rw [if_neg hLk]
        apply if_congr _ rfl rfl
        omega
  | some j =>
    rcases predAt_spec hp with ⟨hj, hkj, hvj, _⟩
    have hnd := hnode j hj
    have hfl : ((List.range (hAt d j + 1)).map fun L =>
        if L < k ∧ predAt d L t = some j then some d.length
        else succAt d L (vAt d j)).length = hAt d j + 1 := by
      rw [List.length_map, List.length_range]
    have hfwdv : st.1.get_forward (upd.getD k none) k = nextAt d k t := by
      rw [hupd k, hp]
      simp only [SkipList.get_forward, hnd]
      have hkh : k < hAt d j + 1 := by omega
      simp only [List.get?_eq_getElem?, List.getElem?_map, List.getElem?_range hkh]
      have hcond : ¬ (k < k ∧ predAt d k t = some j) := fun hc => lt_irrefl k hc.1
      simp only [Option.map_some']
      rw [if_neg hcond]
      simp only [Option.getD_some]
      exact succAt_pred_eq_nextAt hp
    have hset : st.1.set_forward (upd.getD k none) k (some d.length) =
        { st.1 with nodes := st.1.nodes.set j (Node.mk (vAt d j)
            (((List.range (hAt d j + 1)).map fun L =>
                if L < k ∧ predAt d L t = some j then some d.length
                else succAt d L (vAt d j)).set k (some d.length))) } := by
      rw [hupd k, hp]
      simp only [SkipList.set_forward, hnd]
      rw [if_pos (by rw [hfl]; omega)]
    simp only [spliceStep, hfwdv, hset]
    refine ⟨?_, ?_, hhlen, ?_, hlev, hrng, hval, ?_⟩
    · rw [List.length_set]
      exact hlen
    · intro j2 hj2
      simp only [List.get?_eq_getElem?, List.getElem?_set]
      by_cases hjj : j = j2
      · subst hjj
        rw [if_pos rfl, if_pos (by omega : j < st.1.nodes.length)]
        refine congrArg some ?_
        refine congrArg (fun fw => Node.mk (vAt d j) fw) ?_
        rw [map_range_set (by omega : k < hAt d j + 1)]
        apply List.map_congr_left
        intro L _
        by_cases hLk : L = k
        · subst hLk
          rw [if_pos rfl, if_pos ⟨Nat.lt_succ_self L, hp⟩]
        · rw [if_neg hLk]
          apply if_congr _ rfl rfl
          constructor
          · intro hc
            exact ⟨by omega, hc.2⟩
          · rintro ⟨hLk2, hpj⟩
            exact ⟨by omega, hpj⟩
      · rw [if_neg hjj]
        have := hnode j2 hj2
        rw [List.get?_eq_getElem?] at this
        rw [this]
        refine congrArg some ?_
        refine congrArg (fun fw => Node.mk (vAt d j2) fw) ?_
        apply List.map_congr_left
        intro L _
        apply if_congr _ rfl rfl
        constructor
        · intro hc
          exact ⟨by omega, hc.2⟩
        · rintro ⟨hLk, hpj⟩
          refine ⟨?_, hpj⟩
          rcases Nat.lt_succ_iff_lt_or_eq.mp hLk with h1 | h1
          · exact h1
          · subst h1
            rw [hp] at hpj
            have := Option.some_inj.mp hpj
            exact absurd this hjj
    · intro L hL
      rw [hhead L hL]
      refine congrArg some ?_
      apply if_congr _ rfl rfl
      constructor
      · intro hc
        exact ⟨by omega, hc.2⟩
      · rintro ⟨hLk, hpj⟩
        refine ⟨?_, hpj⟩
        rcases Nat.lt_succ_iff_lt_or_eq.mp hLk with h1 | h1
        · exact h1
        · subst h1
          rw [hp] at hpj
          exact absurd hpj (Option.noConfusion)
    · show (st.2.forward.set k (nextAt d k t)) = _
      rw [hfwd, map_range_set (by omega : k < H + 1)]
      apply List.map_congr_left
      intro L _
      by_cases hLk : L = k
      · subst hLk
        rw [if_pos rfl, if_pos (Nat.lt_succ_self L)]
      · rw [if_neg hLk]
        apply if_congr _ rfl rfl
        omega

/-!
Assembled characterization of the whole splice loop, and small facts
needed by the insert theorem.
-/

theorem SkipList.ext_fields {a b : SkipList} (h1 : a.nodes = b.nodes)
    (h2 : a.head_forward = b.head_forward) (h3 : a.level = b.level)
    (h4 : a.rng_state = b.rng_state) : a = b := by
  cases a
  cases b
  simp_all

theorem random_level_aux_le :
    ∀ (fuel level s : Nat), level ≤ MAX_LEVEL →
      (random_level_aux fuel level s).1 ≤ MAX_LEVEL := by
  intro fuel
  induction fuel with
  | zero =>
    intro level s h
    exact h
  | succ fuel ih =>
    intro level s h
    simp only [random_level_aux]
    by_cases hlv : level < MAX_LEVEL
    · rw [if_pos hlv]
      by_cases hev : next_random s % 2 = 0
      · rw [if_pos hev]
        exact ih (level + 1) (next_random s) (by omega)
      · rw [if_neg hev]
        exact h
    · rw [if_neg hlv]
      exact h

theorem random_level_le (s : Nat) : (random_level s).1 ≤ MAX_LEVEL :=
  random_level_aux_le MAX_LEVEL 0 s (Nat.zero_le _)

theorem foldl_set_none_getD :
    ∀ (xs : List Nat) (u : List (Option Nat)) (L : Nat),
      (xs.foldl (fun acc lv => acc.set lv none) u).getD L none =
        if L ∈ xs then none else u.getD L none := by
  intro xs
  induction xs with
  | nil =>
    intro u L
    simp
  | cons x rest ih =>
    intro u L
    rw [List.foldl_cons, ih]
    by_cases hLr : L ∈ rest
    · rw [if_pos hLr, if_pos (List.mem_cons_of_mem x hLr)]
    · rw [if_neg hLr]
      by_cases hLx : L = x
      · subst hLx
        rw [if_pos (List.mem_cons_self L rest)]
        simp only [List.getD_eq_getElem?_getD, List.getElem?_set]
        rw [if_pos trivial]
        split <;> rfl
      · have : L ∉ x :: rest := by
          intro hc
          rcases List.mem_cons.mp hc with rfl | hc2
          · exact hLx rfl
          · exact hLr hc2
        rw [if_neg this]
        simp only [List.getD_eq_getElem?_getD, List.getElem?_set]
        rw [if_neg (fun hc => hLx hc.symm)]

theorem clearRange_getD {u : List (Option Nat)} {a b L : Nat} :
    (clearRange u a b).getD L none =
      if a ≤ L ∧ L < b + 1 then none else u.getD L none := by
  rw [clearRange, foldl_set_none_getD]
  by_cases h : L ∈ List.range' a (b + 1 - a)
  · rw [if_pos h]
    rw [List.mem_range'] at h
    rcases h with ⟨i, hi, rfl⟩
    rw [if_pos ⟨by omega, by omega⟩]
  · rw [if_neg h]
    by_cases h2 : a ≤ L ∧ L < b + 1
    · exfalso
      apply h
      rw [List.mem_range']
      exact ⟨L - a, by omega, by omega⟩
    · rw [if_neg h2]

theorem insertSplice_inv {d : List (Int × Nat)} {rng : Nat} {t : Int} {l1 : SkipList}
    (hn : l1.nodes = (mkCanon d rng).nodes)
    (hh : l1.head_forward = (mkCanon d rng).head_forward)
    {upd : List (Option Nat)} (hupd : ∀ L, upd.getD L none = predAt d L t)
    {H : Nat} (hH : H ≤ MAX_LEVEL) :
    ∀ k, k ≤ H + 1 →
      spliceInv d t H l1 k
        ((List.range k).foldl (spliceStep upd d.length) (l1, Node.new t H)) := by
  intro k
  induction k with
  | zero =>
    intro _
    simp only [List.range_zero, List.foldl_nil]
    refine ⟨?_, ?_, ?_, ?_, rfl, rfl, rfl, ?_⟩
    · show l1.nodes.length = d.length
      rw [hn, mkCanon_nodes_length]
    · intro j hj
      show l1.nodes.get? j = _
      rw [hn, mkCanon_node_get? hj]
      refine congrArg some ?_
      refine congrArg (fun fw => Node.mk (vAt d j) fw) ?_
      apply List.map_congr_left
      intro L _
      have hc : ¬ (L < 0 ∧ predAt d L t = some j) :=
        fun hc => absurd hc.1 (Nat.not_lt_zero L)
      rw [if_neg hc]
    · show l1.head_forward.length = MAX_LEVEL + 1
      rw [hh, mkCanon_head_length]
    · intro L hL
      show l1.head_forward.get? L = _
      rw [hh, mkCanon_head_get?, if_pos hL]
      refine congrArg some ?_
      have hc : ¬ (L < 0 ∧ predAt d L t = none) :=
        fun hc => absurd hc.1 (Nat.not_lt_zero L)
      rw [if_neg hc]
    · show (Node.new t H).forward = _
      rw [Node.new]
      exact replicate_none_eq_map_range
  | succ k ih =>
    intro hk1
    rw [List.range_succ, List.foldl_append, List.foldl_cons, List.foldl_nil]
    exact spliceStep_inv hupd hH (by omega) (ih (by omega))

/-!
Finishing the insert proof: pushing the spliced state and new node back
together yields the canonical state of the extended data.
-/

theorem insert_finish {d : List (Int × Nat)} {rng2 : Nat} (hd : goodData d)
    {t : Int} (ht : t ∉ vals d) {H : Nat} (hH : H ≤ MAX_LEVEL) {l1 : SkipList}
    {st : SkipList × Node} (hinv : spliceInv d t H l1 (H + 1) st)
    (hlev : l1.level = max (maxH d) H) (hrng : l1.rng_state = rng2) :
    { st.1 with nodes := st.1.nodes ++ [st.2] } = mkCanon (d ++ [(t, H)]) rng2 := by
  rcases hinv with ⟨hlen, hnode, hhlen, hhead, hlev1, hrng1, hval, hfwd⟩
  have hlend : (d ++ [(t, H)]).length = d.length + 1 := by simp
  apply SkipList.ext_fields
  · apply List.ext_get?
    intro i
    show (st.1.nodes ++ [st.2]).get? i = _
    by_cases hi : i < d.length
    · rw [List.get?_eq_getElem?, List.getElem?_append_left (by omega : i < st.1.nodes.length)]
      rw [← List.get?_eq_getElem?, hnode i hi]
      rw [mkCanon_node_get? (by omega : i < (d ++ [(t, H)]).length)]
      refine congrArg some ?_
      rw [vAt_append_lt hi, hAt_append_lt hi]
      refine congrArg (fun fw => Node.mk (vAt d i) fw) ?_
      apply List.map_congr_left
      intro L hL
      rw [List.mem_range] at hL
      have hLi : L ≤ hAt d i := by omega
      rw [succAt_append hd ht hH hi hLi]
      apply if_congr _ rfl rfl
      constructor
      · rintro ⟨h1, h2⟩
        exact ⟨by omega, h2⟩
      · rintro ⟨h1, h2⟩
        exact ⟨by omega, h2⟩
    · by_cases hieq : i = d.length
      · subst hieq
        have hstl : st.1.nodes.length = d.length := hlen
        rw [List.get?_eq_getElem?]
        rw [show st.1.nodes ++ [st.2] = st.1.nodes ++ [st.2] from rfl]
        rw [← hstl, List.getElem?_concat_length]
        rw [hstl, mkCanon_node_get? (by omega : d.length < (d ++ [(t, H)]).length)]
        refine congrArg some ?_
        have hst2 : st.2 = Node.mk st.2.value st.2.forward := rfl
        rw [hst2, hval, hfwd]
        rw [vAt_append_self, hAt_append_self]
        refine congrArg (fun fw => Node.mk t fw) ?_
        apply List.map_congr_left
        intro L hL
        rw [List.mem_range] at hL
        rw [if_pos hL]
        exact (succAt_append_self hd ht hH).symm
      · have hlarge : d.length < i := by omega
        have h1 : (st.1.nodes ++ [st.2]).get? i = none := by
          apply List.get?_eq_none.mpr
          rw [List.length_append, hlen]
          simp only [List.length_cons, List.length_nil]
          omega
        rw [h1, mkCanon_node_get?_oob (by omega)]
  · apply List.ext_get?
    intro L
    show st.1.head_forward.get? L = _
    by_cases hL : L < MAX_LEVEL + 1
    · rw [hhead L hL, mkCanon_head_get?, if_pos hL]
      refine congrArg some ?_
      rw [headAt_append hd ht hH]
      apply if_congr _ rfl rfl
      constructor
      · rintro ⟨h1, h2⟩
        exact ⟨by omega, h2⟩
      · rintro ⟨h1, h2⟩
        exact ⟨by omega, h2⟩
    · rw [List.get?_eq_none.mpr (by omega : st.1.head_forward.length ≤ L)]
      rw [List.get?_eq_none.mpr]
      rw [mkCanon_head_length]
      omega
  · show st.1.level = _
    rw [hlev1, hlev, mkCanon_level, maxH_append]
  · show st.1.rng_state = _
    rw [hrng1, hrng, mkCanon_rng]

theorem nextAt_zero_present {d : List (Int × Nat)} (hd : goodData d) {t : Int}
    (ht : t ∈ vals d) :
    ∃ i, i < d.length ∧ vAt d i = t ∧ nextAt d 0 t = some i := by
  rcases mem_vals_iff.mp ht with ⟨i, hi, hv⟩
  refine ⟨i, hi, hv, ?_⟩
  apply nextAt_intro hd hi (Nat.zero_le _) (le_of_eq hv.symm)
  intro j hj _ htj
  rw [hv]
  exact htj

theorem insert_canon_present {d : List (Int × Nat)} {rng : Nat} (hd : goodData d)
    {t : Int} (ht : t ∈ vals d) :
    (mkCanon d rng).insert t = mkCanon d rng := by
  rcases buildUpdate_correct hd t with ⟨hupd, hcur, hulen⟩
  rcases nextAt_zero_present hd ht with ⟨i, hi, hv, hna⟩
  have hdup : (match (mkCanon d rng).get_forward ((mkCanon d rng).buildUpdate t).2 0 with
      | some next_idx =>
        decide (next_idx < (mkCanon d rng).nodes.length) &&
          decide (((mkCanon d rng).nodes.getD next_idx default).value = t)
      | none => false) = true := by
    rw [hcur, get_forward_predAt hd, hna]
    have h1 : i < (mkCanon d rng).nodes.length := by
      rw [mkCanon_nodes_length]
      exact hi
    show (decide (i < (mkCanon d rng).nodes.length) &&
      decide (((mkCanon d rng).nodes.getD i default).value = t)) = true
    rw [mkCanon_value_getD hi]
    rw [decide_eq_true h1, decide_eq_true hv]
    rfl
  show SkipList.insert (mkCanon d rng) t = mkCanon d rng
  simp only [SkipList.insert]
  rw [hdup]
  rw [if_pos rfl]

theorem insert_canon_absent {d : List (Int × Nat)} {rng : Nat} (hd : goodData d)
    {t : Int} (ht : t ∉ vals d) :
    (mkCanon d rng).insert t =
      mkCanon (d ++ [(t, (random_level rng).1)]) (random_level rng).2 := by
  rcases buildUpdate_correct hd t with ⟨hupd, hcur, hulen⟩
  have hrl : (random_level rng).1 ≤ MAX_LEVEL := random_level_le rng
  have hdup : (match (mkCanon d rng).get_forward ((mkCanon d rng).buildUpdate t).2 0 with
      | some next_idx =>
        decide (next_idx < (mkCanon d rng).nodes.length) &&
          decide (((mkCanon d rng).nodes.getD next_idx default).value = t)
      | none => false) = false := by
    rw [hcur, get_forward_predAt hd]
    cases hna : nextAt d 0 t with
    | none => rfl
    | some i =>
      rcases nextAt_spec hna with ⟨hi, _, hti, _⟩
      have hne : ¬ ((mkCanon d rng).nodes.getD i default).value = t := by
        rw [mkCanon_value_getD hi]
        intro hc
        exact ht (hc ▸ vAt_mem_vals hi)
      show (decide (i < (mkCanon d rng).nodes.length) &&
        decide (((mkCanon d rng).nodes.getD i default).value = t)) = false
      rw [decide_eq_false hne]
      rw [Bool.and_false]
  simp only [SkipList.insert]
  rw [hdup, if_neg Bool.false_ne_true]
  rw [mkCanon_rng]
  by_cases hlev : (mkCanon d rng).level < (random_level rng).1
  · rw [if_pos hlev]
    have hupd1 : ∀ L, (clearRange ((mkCanon d rng).buildUpdate t).1
        ((mkCanon d rng).level + 1) (random_level rng).1).getD L none = predAt d L t := by
      intro L
      rw [clearRange_getD]
      by_cases hc : (mkCanon d rng).level + 1 ≤ L ∧ L < (random_level rng).1 + 1
      · rw [if_pos hc]
        symm
        apply predAt_none_of_gt_maxH
        rw [mkCanon_level] at hc
        omega
      · rw [if_neg hc]
        exact hupd L
    have hinv := @insertSplice_inv d rng t
      { mkCanon d rng with rng_state := (random_level rng).2, level := (random_level rng).1 }
      rfl rfl _ hupd1 _ hrl ((random_level rng).1 + 1) (le_refl _)
    have hnid : ({ mkCanon d rng with rng_state := (random_level rng).2, level := (random_level rng).1 } : SkipList).nodes.length = d.length := by
      show (mkCanon d rng).nodes.length = d.length
      exact mkCanon_nodes_length
    rw [hnid]
    apply insert_finish hd ht hrl hinv
    · show (random_level rng).1 = max (maxH d) (random_level rng).1
      rw [mkCanon_level] at hlev
      omega
    · rfl
  · rw [if_neg hlev]
    have hinv := @insertSplice_inv d rng t
      { mkCanon d rng with rng_state := (random_level rng).2 }
      rfl rfl _ hupd _ hrl ((random_level rng).1 + 1) (le_refl _)
    have hnid : ({ mkCanon d rng with rng_state := (random_level rng).2 } : SkipList).nodes.length
        = d.length := by
      show (mkCanon d rng).nodes.length = d.length
      exact mkCanon_nodes_length
    rw [hnid]
    apply insert_finish hd ht hrl hinv
    · show (mkCanon d rng).level = max (maxH d) (random_level rng).1
      rw [mkCanon_level] at hlev ⊢
      omega
    · rfl

/-!
Data accessors across removal of one arena position, and the
corresponding transformation of the canonical selectors.
-/

def liftIdx (p i : Nat) : Nat := if i < p then i else i + 1

def unshift (p : Nat) : Option Nat → Option Nat
  | none => none
  | some q => if p < q then some (q - 1) else some q

theorem liftIdx_ne {p i : Nat} : liftIdx p i ≠ p := by
  rw [liftIdx]
  split <;> omega

theorem liftIdx_lt {d : List (Int × Nat)} {p i : Nat} (hp : p < d.length)
    (hi : i < d.length - 1) : liftIdx p i < d.length := by
  rw [liftIdx]
  split <;> omega

theorem liftIdx_surj {p k n : Nat} (hk : k < n) (hne : k ≠ p) (hp : p < n) :
    ∃ i, i < n - 1 ∧ liftIdx p i = k := by
  by_cases h : k < p
  · exact ⟨k, by omega, by rw [liftIdx, if_pos h]⟩
  · refine ⟨k - 1, by omega, ?_⟩
    rw [liftIdx, if_neg (by omega)]
    omega

theorem vAt_erase {d : List (Int × Nat)} {p i : Nat} :
    vAt (d.eraseIdx p) i = vAt d (liftIdx p i) := by
  rw [vAt, vAt, liftIdx, List.get?_eq_getElem?, List.get?_eq_getElem?,
    List.getElem?_eraseIdx]
  split <;> rfl

theorem hAt_erase {d : List (Int × Nat)} {p i : Nat} :
    hAt (d.eraseIdx p) i = hAt d (liftIdx p i) := by
  rw [hAt, hAt, liftIdx, List.get?_eq_getElem?, List.get?_eq_getElem?,
    List.getElem?_eraseIdx]
  split <;> rfl

theorem length_erase {d : List (Int × Nat)} {p : Nat} (hp : p < d.length) :
    (d.eraseIdx p).length = d.length - 1 :=
  List.length_eraseIdx_of_lt hp

theorem goodData_erase {d : List (Int × Nat)} {p : Nat} (hd : goodData d) :
    goodData (d.eraseIdx p) := by
  constructor
  · exact List.Nodup.sublist (List.Sublist.map Prod.fst (List.eraseIdx_sublist d p)) hd.1
  · intro q hq
    exact hd.2 q (List.Sublist.mem hq (List.eraseIdx_sublist d p))

theorem maxH_erase_le {d : List (Int × Nat)} {p : Nat} :
    maxH (d.eraseIdx p) ≤ maxH d := by
  apply foldr_max_le
  intro x hx
  apply le_foldr_max
  exact List.Sublist.mem hx (List.Sublist.map Prod.snd (List.eraseIdx_sublist d p))

theorem unshift_liftIdx {p i w : Nat} (hie : liftIdx p i = w) :
    unshift p (some w) = some i := by
  rw [unshift]
  rw [liftIdx] at hie
  split at hie <;> rename_i hcase
  · rw [if_neg (by omega)]
    rw [hie]
  · rw [if_pos (by omega)]
    rw [← hie]
    simp

theorem succAt_erase {d : List (Int × Nat)} {p L : Nat} {t u : Int}
    (hd : goodData d) (hp : p < d.length) (hv : vAt d p = t) :
    succAt (d.eraseIdx p) L u =
      unshift p (if succAt d L u = some p then succAt d L t else succAt d L u) := by
  have hd' := goodData_erase (p := p) hd
  have hlen := length_erase hp
  cases hs : succAt d L u with
  | none =>
    rw [if_neg (fun hc => Option.noConfusion hc)]
    show succAt (d.eraseIdx p) L u = none
    rw [succAt_eq_none]
    intro k hk hLk
    rw [hAt_erase] at hLk
    rw [vAt_erase]
    exact succAt_eq_none.mp hs (liftIdx p k) (liftIdx_lt hp (by omega)) hLk
  | some q =>
    rcases succAt_spec hs with ⟨hq, hLq, huq, hqmin⟩
    by_cases hqp : q = p
    · rw [if_pos (by rw [hqp])]
      rw [hqp] at hq hLq huq hqmin
      have hut : u < t := hv ▸ huq
      have hother : ∀ k, k < d.length → L ≤ hAt d k → k ≠ p → u < vAt d k →
          t < vAt d k := by
        intro k hk hLk hkp huk
        have h1 := hqmin k hk hLk huk
        rw [hv] at h1
        rcases lt_or_eq_of_le h1 with h2 | h2
        · exact h2
        · exact absurd (goodData_inj hd hp hk (hv.symm ▸ h2)).symm hkp
      cases hst : succAt d L t with
      | none =>
        show succAt (d.eraseIdx p) L u = none
        rw [succAt_eq_none]
        intro k hk hLk
        rw [hAt_erase] at hLk
        rw [vAt_erase]
        intro huk
        have htk := hother (liftIdx p k) (liftIdx_lt hp (by omega)) hLk liftIdx_ne huk
        exact succAt_eq_none.mp hst (liftIdx p k) (liftIdx_lt hp (by omega)) hLk htk
      | some w =>
        rcases succAt_spec hst with ⟨hw, hLw, htw, hwmin⟩
        have hwp : w ≠ p := by
          intro hc
          rw [hc, hv] at htw
          exact lt_irrefl t htw
        show succAt (d.eraseIdx p) L u = unshift p (some w)
        rcases liftIdx_surj hw hwp hp with ⟨i, hi, hie⟩
        rw [unshift_liftIdx hie]
        apply succAt_intro hd' (by omega)
        · rw [hAt_erase, hie]
          exact hLw
        · rw [vAt_erase, hie]
          exact lt_trans hut htw
        · intro k hk hLk huk
          rw [hAt_erase] at hLk
          rw [vAt_erase] at huk
          rw [vAt_erase, vAt_erase, hie]
          have hklt : liftIdx p k < d.length := liftIdx_lt hp (by omega)
          have htk := hother (liftIdx p k) hklt hLk liftIdx_ne huk
          exact hwmin (liftIdx p k) hklt hLk htk
    · rw [if_neg (fun hc => hqp (Option.some_inj.mp hc))]
      rcases liftIdx_surj hq hqp hp with ⟨i, hi, hie⟩
      rw [unshift_liftIdx hie]
      apply succAt_intro hd' (by omega)
      · rw [hAt_erase, hie]
        exact hLq
      · rw [vAt_erase, hie]
        exact huq
      · intro k hk hLk huk
        rw [hAt_erase] at hLk
        rw [vAt_erase] at huk
        rw [vAt_erase, vAt_erase, hie]
        exact hqmin (liftIdx p k) (liftIdx_lt hp (by omega)) hLk huk

theorem headAt_erase {d : List (Int × Nat)} {p L : Nat} {t : Int}
    (hd : goodData d) (hp : p < d.length) (hv : vAt d p = t) :
    headAt (d.eraseIdx p) L =
      unshift p (if headAt d L = some p then succAt d L t else headAt d L) := by
  have hd' := goodData_erase (p := p) hd
  have hlen := length_erase hp
  cases hs : headAt d L with
  | none =>
    rw [if_neg (fun hc => Option.noConfusion hc)]
    show headAt (d.eraseIdx p) L = none
    rw [headAt_eq_none]
    intro k hk hLk
    rw [hAt_erase] at hLk
    exact headAt_eq_none.mp hs (liftIdx p k) (liftIdx_lt hp (by omega)) hLk
  | some q =>
    rcases headAt_spec hs with ⟨hq, hLq, hqmin⟩
    by_cases hqp : q = p
    · rw [if_pos (by rw [hqp])]
      rw [hqp] at hq hLq hqmin
      have hother : ∀ k, k < d.length → L ≤ hAt d k → k ≠ p → t < vAt d k := by
        intro k hk hLk hkp
        have h1 := hqmin k hk hLk
        rw [hv] at h1
        rcases lt_or_eq_of_le h1 with h2 | h2
        · exact h2
        · exact absurd (goodData_inj hd hp hk (hv.symm ▸ h2)).symm hkp
      cases hst : succAt d L t with
      | none =>
        show headAt (d.eraseIdx p) L = none
        rw [headAt_eq_none]
        intro k hk hLk
        rw [hAt_erase] at hLk
        have hklt : liftIdx p k < d.length := liftIdx_lt hp (by omega)
        have htk := hother (liftIdx p k) hklt hLk liftIdx_ne
        exact succAt_eq_none.mp hst (liftIdx p k) hklt hLk htk
      | some w =>
        rcases succAt_spec hst with ⟨hw, hLw, htw, hwmin⟩
        have hwp : w ≠ p := by
          intro hc
          rw [hc, hv] at htw
          exact lt_irrefl t htw
        show headAt (d.eraseIdx p) L = unshift p (some w)
        rcases liftIdx_surj hw hwp hp with ⟨i, hi, hie⟩
        rw [unshift_liftIdx hie]
        apply headAt_intro hd' (by omega)
        · rw [hAt_erase, hie]
          exact hLw
        · intro k hk hLk
          rw [hAt_erase] at hLk
          rw [vAt_erase, vAt_erase, hie]
          have hklt : liftIdx p k < d.length := liftIdx_lt hp (by omega)
          have htk := hother (liftIdx p k) hklt hLk liftIdx_ne
          exact hwmin (liftIdx p k) hklt hLk htk
    · rw [if_neg (fun hc => hqp (Option.some_inj.mp hc))]
      rcases liftIdx_surj hq hqp hp with ⟨i, hi, hie⟩
      rw [unshift_liftIdx hie]
      apply headAt_intro hd' (by omega)
      · rw [hAt_erase, hie]
        exact hLq
      · intro k hk hLk
        rw [hAt_erase] at hLk
        rw [vAt_erase, vAt_erase, hie]
        exact hqmin (liftIdx p k) (liftIdx_lt hp (by omega)) hLk

/-!
Identification of the spliced positions: the level-`L` predecessor of the
target is exactly the node whose successor entry is the target, and the
target heads level `L` exactly when it has no predecessor there.
-/

theorem cond_node_iff {d : List (Int × Nat)} {p L j : Nat} {t : Int}
    (hd : goodData d) (hp : p < d.length) (hv : vAt d p = t)
    (hj : j < d.length) (hLj : L ≤ hAt d j) :
    (L ≤ hAt d p ∧ predAt d L t = some j) ↔ succAt d L (vAt d j) = some p := by
  constructor
  · rintro ⟨hLp, hpred⟩
    rcases predAt_spec hpred with ⟨_, _, hvj, hmax⟩
    apply succAt_intro hd hp hLp (hv.symm ▸ hvj)
    intro k hk hLk hjk
    rw [hv]
    by_contra hc
    have hkt : vAt d k < t := lt_of_not_le hc
    exact absurd hjk (not_lt_of_le (hmax k hk hLk hkt))
  · intro hs
    rcases succAt_spec hs with ⟨_, hLp, hjp, hmin⟩
    rw [hv] at hjp
    refine ⟨hLp, predAt_intro hd hj hLj hjp ?_⟩
    intro k hk hLk hkt
    by_contra hc
    have hjk : vAt d j < vAt d k := lt_of_not_le hc
    have := hmin k hk hLk hjk
    rw [hv] at this
    exact absurd (lt_of_le_of_lt this hkt) (lt_irrefl t)

theorem cond_head_iff {d : List (Int × Nat)} {p L : Nat} {t : Int}
    (hd : goodData d) (hp : p < d.length) (hv : vAt d p = t) :
    (L ≤ hAt d p ∧ predAt d L t = none) ↔ headAt d L = some p := by
  constructor
  · rintro ⟨hLp, hpred⟩
    have hnone := predAt_eq_none.mp hpred
    apply headAt_intro hd hp hLp
    intro k hk hLk
    rw [hv]
    exact le_of_not_lt (hnone k hk hLk)
  · intro hs
    rcases headAt_spec hs with ⟨_, hLp, hmin⟩
    refine ⟨hLp, ?_⟩
    rw [predAt_eq_none]
    intro k hk hLk
    have := hmin k hk hLk
    rw [hv] at this
    exact not_lt_of_le this

/-!
Characterizations of the two renumbering passes and the level shrink.
-/

def shiftClear (p : Nat) : Option Nat → Option Nat
  | none => none
  | some fi => if p < fi then some (fi - 1) else if fi = p then none else some fi

theorem renumStep_get? {p lv L : Nat} {acc : List (Option Nat)} :
    (renumStep p acc lv).get? L =
      if L = lv then (acc.get? lv).map (shiftClear p) else acc.get? L := by
  have hset : ∀ (x : Option Nat), lv < acc.length →
      (acc.set lv x).get? L = if L = lv then some x else acc.get? L := by
    intro x hlv
    simp only [List.get?_eq_getElem?, List.getElem?_set]
    by_cases h : lv = L
    · subst h
      rw [if_pos rfl, if_pos rfl, if_pos hlv]
    · rw [if_neg h, if_neg (fun hc => h hc.symm)]
  cases hread : acc.get? lv with
  | none =>
    rw [renumStep, hread]
    show acc.get? L = _
    by_cases h : L = lv
    · subst h
      rw [if_pos rfl, hread]
      rfl
    · rw [if_neg h]
  | some e =>
    have hlv : lv < acc.length := by
      by_contra hc
      rw [List.get?_eq_none.mpr (le_of_not_lt hc)] at hread
      exact Option.noConfusion hread
    cases e with
    | none =>
      rw [renumStep, hread]
      show acc.get? L = _
      by_cases h : L = lv
      · subst h
        rw [if_pos rfl, hread]
        rfl
      · rw [if_neg h]
    | some fi =>
      rw [renumStep, hread]
      show (if p < fi then acc.set lv (some (fi - 1))
          else if fi = p then acc.set lv none else acc).get? L = _
      by_cases h1 : p < fi
      · rw [if_pos h1, hset (some (fi - 1)) hlv]
        by_cases h : L = lv
        · subst h
          rw [if_pos rfl, if_pos rfl]
          show some (some (fi - 1)) = some (shiftClear p (some fi))
          rw [shiftClear, if_pos h1]
        · rw [if_neg h, if_neg h]
      · rw [if_neg h1]
        by_cases h2 : fi = p
        · rw [if_pos h2, hset none hlv]
          by_cases h : L = lv
          · subst h
            rw [if_pos rfl, if_pos rfl]
            show some none = some (shiftClear p (some fi))
            rw [shiftClear, if_neg h1, if_pos h2]
          · rw [if_neg h, if_neg h]
        · rw [if_neg h2]
          by_cases h : L = lv
          · subst h
            rw [if_pos rfl, hread]
            show some (some fi) = some (shiftClear p (some fi))
            rw [shiftClear, if_neg h1, if_neg h2]
          · rw [if_neg h]

theorem renumberHead_get? {p : Nat} {hf : List (Option Nat)} :
    ∀ (lvl L : Nat), (renumberHead p lvl hf).get? L =
      if L < lvl + 1 then (hf.get? L).map (shiftClear p) else hf.get? L := by
  intro lvl
  induction lvl with
  | zero =>
    intro L
    show ((List.range 1).foldl (renumStep p) hf).get? L = _
    have h1 : List.range 1 = [0] := rfl
    rw [h1, List.foldl_cons, List.foldl_nil, renumStep_get?]
    by_cases h : L = 0
    · subst h
      rw [if_pos rfl, if_pos (by omega)]
    · rw [if_neg h, if_neg (by omega)]
  | succ lvl ih =>
    intro L
    show ((List.range (lvl + 2)).foldl (renumStep p) hf).get? L = _
    rw [List.range_succ, List.foldl_append, List.foldl_cons, List.foldl_nil,
      renumStep_get?]
    have hfold : List.foldl (renumStep p) hf (List.range (lvl + 1)) =
        renumberHead p lvl hf := rfl
    by_cases h : L = lvl + 1
    · subst h
      rw [if_pos rfl, hfold, ih, if_neg (by omega), if_pos (by omega)]
    · rw [if_neg h, hfold, ih]
      by_cases h2 : L < lvl + 1
      · rw [if_pos h2, if_pos (by omega)]
      · rw [if_neg h2, if_neg (by omega)]

theorem renumberNodes_get? {p j : Nat} {ns : List Node} :
    (renumberNodes p ns).get? j =
      (ns.get? j).map fun nd => Node.mk nd.value (nd.forward.map (unshift p)) := by
  rw [renumberNodes, List.get?_eq_getElem?, List.get?_eq_getElem?, List.getElem?_map]
  cases h : ns[j]? with
  | none => rfl
  | some nd =>
    simp only [Option.map_some']
    refine congrArg some ?_
    refine congrArg (fun fw => Node.mk nd.value fw) ?_
    apply List.map_congr_left
    intro fr _
    cases fr <;> rfl

theorem shrinkLevel_eq_maxH {e : List (Int × Nat)} {hf : List (Option Nat)}
    (hhead : ∀ L, L < MAX_LEVEL + 1 → hf.get? L = some (headAt e L)) :
    ∀ start, start ≤ MAX_LEVEL → maxH e ≤ start → shrinkLevel hf start = maxH e := by
  intro start
  induction start with
  | zero =>
    intro _ hm
    have : maxH e = 0 := Nat.le_zero.mp hm
    rw [this]
    rfl
  | succ s ih =>
    intro h16 hm
    have hget := hhead (s + 1) (by omega)
    rw [shrinkLevel, hget]
    cases hnone : headAt e (s + 1) with
    | none =>
      have hcond : ((some (none : Option Nat)).getD none = none) := rfl
      rw [if_pos hcond]
      have hms : maxH e ≤ s := by
        by_contra hc
        have hmeq : maxH e = s + 1 := by omega
        have hne : e ≠ [] := by
          intro h0
          rw [h0] at hmeq
          exact absurd hmeq.symm (by simp [maxH])
        rcases maxH_attained hne with ⟨i, hi, hie⟩
        have := headAt_eq_none.mp hnone i hi
        rw [hie, hmeq] at this
        exact this (le_refl _)
      exact ih (by omega) hms
    | some w =>
      rw [if_neg (fun hc => Option.noConfusion hc)]
      rcases headAt_spec hnone with ⟨hw, hLw, _⟩
      have := hAt_le_maxH hw
      omega

/-!
Invariant of the delete splice loop: after the first `k` levels, the
per-level predecessors of the target have been routed to the target's
successor; everything else is still canonical.
-/

def dInv (d : List (Int × Nat)) (t : Int) (rng k : Nat) (st : SkipList) : Prop :=
  st.nodes.length = d.length ∧
  (∀ j, j < d.length → st.nodes.get? j = some
     { value := vAt d j
       forward := (List.range (hAt d j + 1)).map fun L =>
         if L < k ∧ predAt d L t = some j then succAt d L t
         else succAt d L (vAt d j) }) ∧
  st.head_forward.length = MAX_LEVEL + 1 ∧
  (∀ L, L < MAX_LEVEL + 1 → st.head_forward.get? L = some
     (if L < k ∧ predAt d L t = none then succAt d L t else headAt d L)) ∧
  st.level = maxH d ∧
  st.rng_state = rng

theorem dspliceStep_inv {d : List (Int × Nat)} {t : Int} {rng k p : Nat}
    {upd : List (Option Nat)} {st : SkipList} (hd : goodData d)
    (hupd : ∀ L, upd.getD L none = predAt d L t)
    (hp : p < d.length) (hv : vAt d p = t) (hk : k ≤ hAt d p)
    (hinv : dInv d t rng k st) :
    dInv d t rng (k + 1) (dspliceStep upd p st k) := by
  rcases hinv with ⟨hlen, hnode, hhlen, hhead, hlev, hrng⟩
  have hk17 : k < MAX_LEVEL + 1 := by
    have h1 := hAt_le_MAX hd hp
    omega
  have hguard : k ≤ st.level := by
    rw [hlev]
    exact le_trans hk (hAt_le_maxH hp)
  have hread : ((st.nodes.getD p default).forward.get? k).getD none = succAt d k t := by
    rw [List.getD_eq_get?, hnode p hp]
    show (((List.range (hAt d p + 1)).map fun L =>
        if L < k ∧ predAt d L t = some p then succAt d L t
        else succAt d L (vAt d p)).get? k).getD none = _
    have hkh : k < hAt d p + 1 := by omega
    rw [List.get?_eq_getElem?, List.getElem?_map, List.getElem?_range hkh]
    simp only [Option.map_some', Option.getD_some]
    have hc : ¬ (k < k ∧ predAt d k t = some p) := fun hc => lt_irrefl k hc.1
    rw [if_neg hc, hv]
  rw [dspliceStep, if_pos hguard, hread]
  cases hpk : predAt d k t with
  | none =>
    have hset : st.set_forward (upd.getD k none) k (succAt d k t) =
        { st with head_forward := st.head_forward.set k (succAt d k t) } := by
      rw [hupd k, hpk]
      simp only [SkipList.set_forward]
      rw [if_pos (by omega : k < st.head_forward.length)]
    rw [hset]
    refine ⟨hlen, ?_, ?_, ?_, hlev, hrng⟩
    · intro j hj
      rw [hnode j hj]
      refine congrArg some ?_
      refine congrArg (fun fw => Node.mk (vAt d j) fw) ?_
      apply List.map_congr_left
      intro L _
      apply if_congr _ rfl rfl
      constructor
      · intro hc
        exact ⟨by omega, hc.2⟩
      · rintro ⟨hLk, hpj⟩
        refine ⟨?_, hpj⟩
        rcases Nat.lt_succ_iff_lt_or_eq.mp hLk with h1 | h1
        · exact h1
        · subst h1
          rw [hpk] at hpj
          exact absurd hpj (Option.noConfusion)
    · rw [List.length_set]
      exact hhlen
    · intro L hL
      simp only [List.get?_eq_getElem?, List.getElem?_set]
      by_cases hkL : k = L
      · subst hkL
        rw [if_pos rfl, if_pos (by omega : k < st.head_forward.length)]
        rw [if_pos ⟨Nat.lt_succ_self k, hpk⟩]
      · rw [if_neg hkL]
        have h2 := hhead L hL
        rw [List.get?_eq_getElem?] at h2
        rw [h2]
        refine congrArg some ?_
        apply if_congr _ rfl rfl
        constructor
        · intro hc
          exact ⟨by omega, hc.2⟩
        · rintro ⟨hLk, hpj⟩
          refine ⟨?_, hpj⟩
          rcases Nat.lt_succ_iff_lt_or_eq.mp hLk with h1 | h1
          · exact h1
          · exact absurd h1.symm hkL
  | some j =>
    rcases predAt_spec hpk with ⟨hj, hkj, hvj, _⟩
    have hnd := hnode j hj
    have hfl : ((List.range (hAt d j + 1)).map fun L =>
        if L < k ∧ predAt d L t = some j then succAt d L t
        else succAt d L (vAt d j)).length = hAt d j + 1 := by
      rw [List.length_map, List.length_range]
    have hset : st.set_forward (upd.getD k none) k (succAt d k t) =
        { st with nodes := st.nodes.set j (Node.mk (vAt d j)
            (((List.range (hAt d j + 1)).map fun L =>
                if L < k ∧ predAt d L t = some j then succAt d L t
                else succAt d L (vAt d j)).set k (succAt d k t))) } := by
      rw [hupd k, hpk]
      simp only [SkipList.set_forward, hnd]
      rw [if_pos (by rw [hfl]; omega)]
    rw [hset]
    refine ⟨?_, ?_, hhlen, ?_, hlev, hrng⟩
    · rw [List.length_set]
      exact hlen
    · intro j2 hj2
      simp only [List.get?_eq_getElem?, List.getElem?_set]
      by_cases hjj : j = j2
      · subst hjj
        rw [if_pos rfl, if_pos (by omega : j < st.nodes.length)]
        refine congrArg some ?_
        refine congrArg (fun fw => Node.mk (vAt d j) fw) ?_
        rw [map_range_set (by omega : k < hAt d j + 1)]
        apply List.map_congr_left
        intro L _
        by_cases hLk : L = k
        · subst hLk
          rw [if_pos rfl, if_pos ⟨Nat.lt_succ_self L, hpk⟩]
        · rw [if_neg hLk]
          apply if_congr _ rfl rfl
          constructor
          · intro hc
            exact ⟨by omega, hc.2⟩
          · rintro ⟨hLk2, hpj⟩
            exact ⟨by omega, hpj⟩
      · rw [if_neg hjj]
        have h2 := hnode j2 hj2
        rw [List.get?_eq_getElem?] at h2
        rw [h2]
        refine congrArg some ?_
        refine congrArg (fun fw => Node.mk (vAt d j2) fw) ?_
        apply List.map_congr_left
        intro L _
        apply if_congr _ rfl rfl
        constructor
        · intro hc
          exact ⟨by omega, hc.2⟩
        · rintro ⟨hLk, hpj⟩
          refine ⟨?_, hpj⟩
          rcases Nat.lt_succ_iff_lt_or_eq.mp hLk with h1 | h1
          · exact h1
          · subst h1
            rw [hpk] at hpj
            exact absurd (Option.some_inj.mp hpj) hjj
    · intro L hL
      rw [hhead L hL]
      refine congrArg some ?_
      apply if_congr _ rfl rfl
      constructor
      · intro hc
        exact ⟨by omega, hc.2⟩
      · rintro ⟨hLk, hpj⟩
        refine ⟨?_, hpj⟩
        rcases Nat.lt_succ_iff_lt_or_eq.mp hLk with h1 | h1
        · exact h1
        · subst h1
          rw [hpk] at hpj
          exact absurd hpj (Option.noConfusion)

theorem dsplice_inv {d : List (Int × Nat)} {t : Int} {rng p : Nat}
    (hd : goodData d) {upd : List (Option Nat)}
    (hupd : ∀ L, upd.getD L none = predAt d L t)
    (hp : p < d.length) (hv : vAt d p = t) :
    ∀ k, k ≤ hAt d p + 1 →
      dInv d t rng k ((List.range k).foldl (dspliceStep upd p) (mkCanon d rng)) := by
  intro k
  induction k with
  | zero =>
    intro _
    simp only [List.range_zero, List.foldl_nil]
    refine ⟨mkCanon_nodes_length, ?_, mkCanon_head_length, ?_, mkCanon_level, mkCanon_rng⟩
    · intro j hj
      rw [mkCanon_node_get? hj]
      refine congrArg some ?_
      refine congrArg (fun fw => Node.mk (vAt d j) fw) ?_
      apply List.map_congr_left
      intro L _
      have hc : ¬ (L < 0 ∧ predAt d L t = some j) :=
        fun hc => absurd hc.1 (Nat.not_lt_zero L)
      rw [if_neg hc]
    · intro L hL
      rw [mkCanon_head_get?, if_pos hL]
      refine congrArg some ?_
      have hc : ¬ (L < 0 ∧ predAt d L t = none) :=
        fun hc => absurd hc.1 (Nat.not_lt_zero L)
      rw [if_neg hc]
  | succ k ih =>
    intro hk1
    rw [List.range_succ, List.foldl_append, List.foldl_cons, List.foldl_nil]
    exact dspliceStep_inv hd hupd hp hv (by omega) (ih (by omega))

/-!
Delete: assembled theorems.
-/

theorem shiftClear_eq_unshift {p : Nat} {x : Option Nat} (hx : x ≠ some p) :
    shiftClear p x = unshift p x := by
  cases x with
  | none => rfl
  | some fi =>
    rw [shiftClear, unshift]
    by_cases h1 : p < fi
    · rw [if_pos h1, if_pos h1]
    · rw [if_neg h1, if_neg h1]
      rw [if_neg (fun hc => hx (congrArg some hc))]

theorem succAt_t_ne_some_p {d : List (Int × Nat)} {L p : Nat} {t : Int}
    (hv : vAt d p = t) : succAt d L t ≠ some p := by
  intro hc
  rcases succAt_spec hc with ⟨_, _, htp, _⟩
  rw [hv] at htp
  exact lt_irrefl t htp

theorem eraseIdx_get?_lift {α : Type} {xs : List α} {p j : Nat} :
    (xs.eraseIdx p).get? j = xs.get? (liftIdx p j) := by
  rw [List.get?_eq_getElem?, List.get?_eq_getElem?, List.getElem?_eraseIdx, liftIdx]
  split <;> rfl

theorem delete_canon_absent {d : List (Int × Nat)} {rng : Nat} (hd : goodData d)
    {t : Int} (ht : t ∉ vals d) :
    (mkCanon d rng).delete t = (false, mkCanon d rng) := by
  rcases buildUpdate_correct hd t with ⟨hupd, hcur, _⟩
  have hgf : (mkCanon d rng).get_forward ((mkCanon d rng).buildUpdate t).2 0 =
      nextAt d 0 t := by
    rw [hcur]
    exact get_forward_predAt hd
  cases hna : nextAt d 0 t with
  | none => simp only [SkipList.delete, hgf, hna]
  | some i =>
    rcases nextAt_spec hna with ⟨hi, _, hti, _⟩
    have hcond : ¬ (i < (mkCanon d rng).nodes.length ∧
        ((mkCanon d rng).nodes.getD i default).value = t) := by
      rintro ⟨_, hc⟩
      rw [mkCanon_value_getD hi] at hc
      exact ht (hc ▸ vAt_mem_vals hi)
    simp only [SkipList.delete, hgf, hna]
    rw [if_neg hcond]

theorem delete_canon_present {d : List (Int × Nat)} {rng : Nat} (hd : goodData d)
    {t : Int} {p : Nat} (hp : p < d.length) (hv : vAt d p = t) :
    (mkCanon d rng).delete t = (true, mkCanon (d.eraseIdx p) rng) := by
  rcases buildUpdate_correct hd t with ⟨hupd, hcur, _⟩
  have hd' := goodData_erase (p := p) hd
  have hlen' := length_erase hp
  have hgf : (mkCanon d rng).get_forward ((mkCanon d rng).buildUpdate t).2 0 =
      nextAt d 0 t := by
    rw [hcur]
    exact get_forward_predAt hd
  have hna : nextAt d 0 t = some p := by
    apply nextAt_intro hd hp (Nat.zero_le _) (le_of_eq hv.symm)
    intro j hj _ htj
    rw [hv]
    exact htj
  have hcond : p < (mkCanon d rng).nodes.length ∧
      ((mkCanon d rng).nodes.getD p default).value = t := by
    constructor
    · rw [mkCanon_nodes_length]
      exact hp
    · rw [mkCanon_value_getD hp]
      exact hv
  have htl : ((mkCanon d rng).nodes.getD p default).forward.length - 1 = hAt d p := by
    rw [mkCanon_forward_getD hp, List.length_map, List.length_range]
    omega
  have hinv := @dsplice_inv d t rng p hd _ hupd hp hv (hAt d p + 1) (le_refl _)
  rcases hinv with ⟨h1len, h1node, h1hlen, h1head, h1lev, h1rng⟩
  simp only [SkipList.delete, hgf, hna]
  rw [if_pos hcond, htl]
  refine congrArg (fun z => (true, z)) ?_
  set l1 := (List.range (hAt d p + 1)).foldl
    (dspliceStep ((mkCanon d rng).buildUpdate t).1 p) (mkCanon d rng) with hl1
  have hheadfinal : ∀ L, L < MAX_LEVEL + 1 →
      (renumberHead p (maxH d) l1.head_forward).get? L =
        some (headAt (d.eraseIdx p) L) := by
    intro L hL
    rw [renumberHead_get?]
    by_cases hLm : L < maxH d + 1
    · rw [if_pos hLm, h1head L hL]
      refine congrArg some ?_
      rw [headAt_erase hd hp hv]
      have hcent : (if L < hAt d p + 1 ∧ predAt d L t = none then succAt d L t
          else headAt d L) =
          (if headAt d L = some p then succAt d L t else headAt d L) := by
        apply if_congr _ rfl rfl
        rw [← cond_head_iff hd hp hv]
        constructor
        · rintro ⟨h1, h2⟩
          exact ⟨by omega, h2⟩
        · rintro ⟨h1, h2⟩
          exact ⟨by omega, h2⟩
      rw [hcent]
      apply shiftClear_eq_unshift
      by_cases hhp : headAt d L = some p
      · rw [if_pos hhp]
        exact succAt_t_ne_some_p hv
      · rw [if_neg hhp]
        exact hhp
    · rw [if_neg hLm, h1head L hL]
      have hLmax : maxH d < L := by omega
      have h2 : ¬ (L < hAt d p + 1 ∧ predAt d L t = none) := by
        rintro ⟨h3, _⟩
        have := hAt_le_maxH hp
        omega
      rw [if_neg h2]
      refine congrArg some ?_
      rw [headAt_none_of_gt_maxH hLmax, headAt_none_of_gt_maxH
        (lt_of_le_of_lt maxH_erase_le hLmax)]
  apply SkipList.ext_fields
  · show renumberNodes p (l1.nodes.eraseIdx p) = _
    apply List.ext_get?
    intro j
    rw [renumberNodes_get?, eraseIdx_get?_lift]
    by_cases hj : j < d.length - 1
    · have hlift : liftIdx p j < d.length := liftIdx_lt hp hj
      rw [h1node (liftIdx p j) hlift]
      rw [mkCanon_node_get? (by omega : j < (d.eraseIdx p).length)]
      simp only [Option.map_some']
      refine congrArg some ?_
      have hvv : vAt (d.eraseIdx p) j = vAt d (liftIdx p j) := vAt_erase
      have hhh : hAt (d.eraseIdx p) j = hAt d (liftIdx p j) := hAt_erase
      rw [hvv, hhh]
      refine congrArg (fun fw => Node.mk (vAt d (liftIdx p j)) fw) ?_
      rw [List.map_map]
      apply List.map_congr_left
      intro L hL
      rw [List.mem_range] at hL
      have hLj : L ≤ hAt d (liftIdx p j) := by omega
      show unshift p (if L < hAt d p + 1 ∧ predAt d L t = some (liftIdx p j)
          then succAt d L t else succAt d L (vAt d (liftIdx p j))) =
        succAt (d.eraseIdx p) L (vAt d (liftIdx p j))
      rw [succAt_erase hd hp hv]
      refine congrArg (unshift p) ?_
      apply if_congr _ rfl rfl
      rw [← cond_node_iff hd hp hv hlift hLj]
      constructor
      · rintro ⟨h1, h2⟩
        exact ⟨by omega, h2⟩
      · rintro ⟨h1, h2⟩
        exact ⟨by omega, h2⟩
    · have hliftbig : d.length ≤ liftIdx p j := by
        rw [liftIdx]
        split <;> omega
      rw [List.get?_eq_none.mpr (by rw [h1len]; exact hliftbig)]
      rw [mkCanon_node_get?_oob (by omega)]
      rfl
  · show renumberHead p l1.level l1.head_forward = _
    rw [h1lev]
    apply List.ext_get?
    intro L
    by_cases hL : L < MAX_LEVEL + 1
    · rw [hheadfinal L hL, mkCanon_head_get?, if_pos hL]
    · have hlen2 : (renumberHead p (maxH d) l1.head_forward).get? L = none := by
        rw [renumberHead_get?]
        have hm16 := maxH_le_MAX hd
        rw [if_neg (by omega)]
        apply List.get?_eq_none.mpr
        rw [h1hlen]
        omega
      rw [hlen2]
      symm
      apply List.get?_eq_none.mpr
      rw [mkCanon_head_length]
      omega
  · show shrinkLevel (renumberHead p l1.level l1.head_forward) l1.level = _
    rw [h1lev, mkCanon_level]
    exact shrinkLevel_eq_maxH hheadfinal (maxH d) (maxH_le_MAX hd)
      (le_trans maxH_erase_le (le_refl _))
  · show l1.rng_state = _
    rw [h1rng, mkCanon_rng]

/-!
Correctness of search on canonical states.
-/

theorem countAbove_lt_of_nextAt {d : List (Int × Nat)} {L i : Nat} {t : Int}
    {p : Option Nat} (hna : nextAt d L t = some i) :
    countAbove d L t p < d.length := by
  rcases nextAt_spec hna with ⟨hi, _, hti, _⟩
  have h1 : List.Sublist ((candBelow d L t).filter (aboveB d p)) (candBelow d L t) :=
    List.filter_sublist _
  have h2 : List.Sublist (candBelow d L t)
      ((List.range d.length).filter fun k => decide (k ≠ i)) := by
    rw [candBelow, candL, List.filter_filter]
    apply List.monotone_filter_right
    intro k hk
    simp only [Bool.and_eq_true, decide_eq_true_eq] at hk
    simp only [decide_eq_true_eq]
    intro hc
    subst hc
    rcases hk with ⟨hk1, hk2⟩
    first
    | exact absurd hti (not_le_of_lt hk1)
    | exact absurd hti (not_le_of_lt hk2)
  calc countAbove d L t p ≤ (candBelow d L t).length := h1.length_le
    _ ≤ ((List.range d.length).filter fun k => decide (k ≠ i)).length := h2.length_le
    _ < (List.range d.length).length := length_filter_ne_lt (List.mem_range.mpr hi)
    _ = d.length := List.length_range d.length

theorem searchLevel_correct {d : List (Int × Nat)} {rng L : Nat} {t : Int}
    (hd : goodData d) :
    ∀ (fuel : Nat) (p : Option Nat), okStart d L t p →
      countAbove d L t p ≤ fuel →
      (nextAt d L t ≠ none → countAbove d L t p < fuel) →
      (mkCanon d rng).searchLevel t L p fuel =
        match nextAt d L t with
        | some i => if vAt d i = t then (some i, true) else (predAt d L t, false)
        | none => (predAt d L t, false) := by
  intro fuel
  induction fuel with
  | zero =>
    intro p hp hc hc2
    cases hna : nextAt d L t with
    | some i =>
      exfalso
      have := hc2 (by rw [hna]; exact fun h => Option.noConfusion h)
      omega
    | none =>
      have hzero : countAbove d L t p = 0 := Nat.le_zero.mp hc
      have hnil : (candBelow d L t).filter (aboveB d p) = [] :=
        List.length_eq_zero.mp hzero
      have hno : ∀ i, i < d.length → L ≤ hAt d i → vAt d i < t → aboveB d p i = false := by
        intro i hin hiL hit
        by_contra hcon
        have : i ∈ (candBelow d L t).filter (aboveB d p) :=
          List.mem_filter.mpr ⟨mem_candBelow.mpr ⟨hin, hiL, hit⟩,
            Bool.of_not_eq_false hcon⟩
        rw [hnil] at this
        exact absurd this (List.not_mem_nil i)
      show (p, false) = _
      rw [predAt_eq_of_stopped hd hp hno]
  | succ fuel ih =>
    intro p hp hc hc2
    have hgf := @get_forward_okStart d rng L t p hd hp
    cases hnf : nextFrom d L p with
    | none =>
      rw [hnf] at hgf
      simp only [SkipList.searchLevel, hgf]
      have hnone : ∀ j, j < d.length → L ≤ hAt d j → ¬ aboveB d p j = true :=
        nextFrom_eq_none.mp hnf
      have hna : nextAt d L t = none := by
        rw [nextAt_eq_none]
        intro j hj hLj htj
        apply hnone j hj hLj
        cases p with
        | none => rfl
        | some q =>
          rcases hp with ⟨_, _, hqt⟩
          simp only [aboveB, decide_eq_true_eq]
          exact lt_of_lt_of_le hqt htj
      rw [hna]
      have hno : ∀ i, i < d.length → L ≤ hAt d i → vAt d i < t → aboveB d p i = false := by
        intro i hin hiL _
        by_contra hcon
        exact hnone i hin hiL (Bool.of_not_eq_false hcon)
      rw [predAt_eq_of_stopped hd hp hno]
    | some i =>
      rw [hnf] at hgf
      rcases nextFrom_spec hnf with ⟨hin, hiL, hiab, himin⟩
      have hlen : i < (mkCanon d rng).nodes.length := by
        rw [mkCanon_nodes_length]
        exact hin
      simp only [SkipList.searchLevel, hgf, if_pos hlen, mkCanon_value_getD hin]
      by_cases hvt : vAt d i < t
      · rw [if_pos hvt]
        have hcnt := countAbove_lt hp hnf hvt
        refine ih (some i) ⟨hin, hiL, hvt⟩ (by omega) ?_
        intro hne
        have h4 := hc2 hne
        omega
      · rw [if_neg hvt]
        by_cases hvteq : vAt d i = t
        · rw [if_pos hvteq]
          have hna : nextAt d L t = some i := by
            apply nextAt_intro hd hin hiL (le_of_eq hvteq.symm)
            intro k hk hLk htk
            rw [hvteq]
            exact htk
          simp only [hna]
          rw [if_pos hvteq]
        · rw [if_neg hvteq]
          have hti : t < vAt d i := by
            rcases lt_trichotomy (vAt d i) t with h1 | h1 | h1
            · exact absurd h1 hvt
            · exact absurd h1 hvteq
            · exact h1
          have hna : nextAt d L t = some i := by
            apply nextAt_intro hd hin hiL (le_of_lt hti)
            intro k hk hLk htk
            apply himin k hk hLk
            cases p with
            | none => rfl
            | some q =>
              rcases hp with ⟨_, _, hqt⟩
              simp only [aboveB, decide_eq_true_eq]
              exact lt_of_lt_of_le hqt htk
          simp only [hna]
          rw [if_neg hvteq]
          have hno : ∀ k, k < d.length → L ≤ hAt d k → vAt d k < t →
              aboveB d p k = false := by
            intro k hkn hkL hkt
            by_contra hcon
            have h1 := himin k hkn hkL (Bool.of_not_eq_false hcon)
            exact hvt (lt_of_le_of_lt h1 hkt)
          rw [predAt_eq_of_stopped hd hp hno]

theorem vals_decide_exists {d : List (Int × Nat)} {t : Int} :
    decide (t ∈ vals d) = decide (∃ i, i < d.length ∧ vAt d i = t) := by
  by_cases h : t ∈ vals d
  · rw [decide_eq_true h, decide_eq_true (mem_vals_iff.mp h)]
  · rw [decide_eq_false h, decide_eq_false]
    intro hc
    exact h (mem_vals_iff.mpr hc)

theorem searchAux_correct {d : List (Int × Nat)} {rng : Nat} {t : Int}
    (hd : goodData d) :
    ∀ (lvl : Nat) (cur : Option Nat), okStart d lvl t cur →
      (mkCanon d rng).searchAux t lvl cur = decide (t ∈ vals d) := by
  have hfuel : ∀ (L : Nat) (q : Option Nat),
      countAbove d L t q ≤ (mkCanon d rng).nodes.length := by
    intro L q
    rw [mkCanon_nodes_length]
    exact countAbove_le_length
  have hfuel2 : ∀ (L : Nat) (q : Option Nat), nextAt d L t ≠ none →
      countAbove d L t q < (mkCanon d rng).nodes.length := by
    intro L q hne
    rw [mkCanon_nodes_length]
    rcases Option.ne_none_iff_exists.mp hne with ⟨w, hw⟩
    exact countAbove_lt_of_nextAt hw.symm
  intro lvl
  induction lvl with
  | zero =>
    intro cur hcur
    show ((mkCanon d rng).searchLevel t 0 cur ((mkCanon d rng).nodes.length)).2 = _
    rw [searchLevel_correct hd _ cur hcur (hfuel 0 cur) (hfuel2 0 cur)]
    cases hna : nextAt d 0 t with
    | some i =>
      rcases nextAt_spec hna with ⟨hi, _, hti, hmin⟩
      show (if vAt d i = t then ((some i : Option Nat), true)
          else (predAt d 0 t, false)).2 = decide (t ∈ vals d)
      by_cases hvt : vAt d i = t
      · rw [if_pos hvt]
        show true = decide (t ∈ vals d)
        symm
        rw [decide_eq_true_eq]
        exact hvt ▸ vAt_mem_vals hi
      · rw [if_neg hvt]
        show false = decide (t ∈ vals d)
        symm
        rw [decide_eq_false_iff_not]
        intro hmem
        rcases mem_vals_iff.mp hmem with ⟨w, hw, hwv⟩
        have h1 := hmin w hw (Nat.zero_le _) (le_of_eq hwv.symm)
        rw [hwv] at h1
        exact hvt (le_antisymm h1 hti)
    | none =>
      show false = decide (t ∈ vals d)
      symm
      rw [decide_eq_false_iff_not]
      intro hmem
      rcases mem_vals_iff.mp hmem with ⟨w, hw, hwv⟩
      exact nextAt_eq_none.mp hna w hw (Nat.zero_le _) (le_of_eq hwv.symm)
  | succ lvl ih =>
    intro cur hcur
    show (if ((mkCanon d rng).searchLevel t (lvl + 1) cur
        ((mkCanon d rng).nodes.length)).2 = true then true
      else (mkCanon d rng).searchAux t lvl
        ((mkCanon d rng).searchLevel t (lvl + 1) cur ((mkCanon d rng).nodes.length)).1) = _
    rw [searchLevel_correct hd _ cur hcur (hfuel (lvl + 1) cur) (hfuel2 (lvl + 1) cur)]
    cases hna : nextAt d (lvl + 1) t with
    | some i =>
      by_cases hvt : vAt d i = t
      · show (if (if vAt d i = t then ((some i : Option Nat), true)
            else (predAt d (lvl + 1) t, false)).2 = true then true
          else _) = _
        rw [if_pos hvt]
        show (if true = true then true else _) = _
        rw [if_pos rfl]
        rcases nextAt_spec hna with ⟨hi, _, _, _⟩
        show true = decide (t ∈ vals d)
        symm
        rw [decide_eq_true_eq]
        exact hvt ▸ vAt_mem_vals hi
      · show (if (if vAt d i = t then ((some i : Option Nat), true)
            else (predAt d (lvl + 1) t, false)).2 = true then true
          else (mkCanon d rng).searchAux t lvl
            (if vAt d i = t then ((some i : Option Nat), true)
              else (predAt d (lvl + 1) t, false)).1) = _
        rw [if_neg hvt]
        show (if false = true then true
          else (mkCanon d rng).searchAux t lvl (predAt d (lvl + 1) t)) = _
        rw [if_neg Bool.false_ne_true]
        exact ih (predAt d (lvl + 1) t) (okStart_predAt (Nat.le_succ lvl))
    | none =>
      show (if false = true then true
        else (mkCanon d rng).searchAux t lvl (predAt d (lvl + 1) t)) = _
      rw [if_neg Bool.false_ne_true]
      exact ih (predAt d (lvl + 1) t) (okStart_predAt (Nat.le_succ lvl))

theorem search_canon {d : List (Int × Nat)} {rng : Nat} (hd : goodData d) (t : Int) :
    (mkCanon d rng).search t = decide (t ∈ vals d) := by
  show (mkCanon d rng).searchAux t (mkCanon d rng).level none = _
  rw [mkCanon_level]
  exact searchAux_correct hd (maxH d) none trivial

/-!
Level chains: the observable sequence of nodes reached by following the
forward links of one level from the head, with the same in-bounds guard
the rendering loop of the program uses.
-/

def chainFrom (l : SkipList) (L : Nat) : Option Nat → Nat → List Nat
  | _, 0 => []
  | p, fuel + 1 =>
    match l.get_forward p L with
    | none => []
    | some i =>
      if i < l.nodes.length then i :: chainFrom l L (some i) fuel
      else []

def chain (l : SkipList) (L : Nat) : List Nat :=
  chainFrom l L none (l.nodes.length + 1)

def heightOf (l : SkipList) (i : Nat) : Nat :=
  (l.nodes.getD i default).forward.length - 1

def okStartC (d : List (Int × Nat)) (L : Nat) : Option Nat → Prop
  | none => True
  | some j => j < d.length ∧ L ≤ hAt d j

def countQ (d : List (Int × Nat)) (L : Nat) (p : Option Nat) : Nat :=
  ((candL d L).filter (aboveB d p)).length

theorem countQ_lt {d : List (Int × Nat)} {L i : Nat} {p : Option Nat}
    (hi : nextFrom d L p = some i) :
    countQ d L (some i) < countQ d L p := by
  rcases nextFrom_spec hi with ⟨hin, hiL, hiab, _⟩
  have himem : i ∈ (candL d L).filter (aboveB d p) :=
    List.mem_filter.mpr ⟨mem_candL.mpr ⟨hin, hiL⟩, hiab⟩
  have hsub : List.Sublist ((candL d L).filter (aboveB d (some i)))
      (((candL d L).filter (aboveB d p)).filter fun k => decide (k ≠ i)) := by
    rw [List.filter_filter]
    apply List.monotone_filter_right
    intro k hk
    simp only [aboveB, decide_eq_true_eq] at hk
    have hkne : k ≠ i := by
      intro hkeq
      subst hkeq
      exact lt_irrefl _ hk
    have habk : aboveB d p k = true := by
      cases p with
      | none => rfl
      | some j =>
        simp only [aboveB, decide_eq_true_eq] at hiab ⊢
        exact lt_trans hiab hk
    simp [habk, hkne]
  calc ((candL d L).filter (aboveB d (some i))).length
      ≤ (((candL d L).filter (aboveB d p)).filter fun k => decide (k ≠ i)).length :=
        hsub.length_le
    _ < ((candL d L).filter (aboveB d p)).length := length_filter_ne_lt himem

theorem countQ_le_length {d : List (Int × Nat)} {L : Nat} {p : Option Nat} :
    countQ d L p ≤ d.length := by
  have h1 := List.length_filter_le (aboveB d p) (candL d L)
  have h2 := List.length_filter_le (fun i => decide (L ≤ hAt d i)) (List.range d.length)
  simp only [countQ, candL] at *
  simp only [List.length_range] at h2
  omega

theorem get_forward_okStartC {d : List (Int × Nat)} {rng L : Nat}
    {p : Option Nat} (hd : goodData d) (hp : okStartC d L p) :
    (mkCanon d rng).get_forward p L = nextFrom d L p := by
  cases p with
  | none =>
    rw [get_forward_none hd, nextFrom]
    have hfe : (candL d L).filter (aboveB d none) = candL d L :=
      List.filter_eq_self.mpr fun a _ => rfl
    rw [hfe]
    rfl
  | some j =>
    rcases hp with ⟨hj, hLj⟩
    rw [get_forward_some hj, if_pos hLj, nextFrom]
    have hfe : (candL d L).filter (aboveB d (some j)) = candAbove d L (vAt d j) :=
      List.filter_congr fun a _ => rfl
    rw [hfe]
    rfl

theorem chainFrom_spec {d : List (Int × Nat)} {rng L : Nat} (hd : goodData d) :
    ∀ (fuel : Nat) (p : Option Nat), okStartC d L p → countQ d L p < fuel →
      (∀ k, k ∈ chainFrom (mkCanon d rng) L p fuel ↔
        (k < d.length ∧ L ≤ hAt d k ∧ aboveB d p k = true)) ∧
      List.Chain' (fun i j => vAt d i < vAt d j)
        (chainFrom (mkCanon d rng) L p fuel) := by
  intro fuel
  induction fuel with
  | zero =>
    intro p hp hc
    omega
  | succ fuel ih =>
    intro p hp hc
    have hgf := @get_forward_okStartC d rng L p hd hp
    cases hnf : nextFrom d L p with
    | none =>
      rw [hnf] at hgf
      simp only [chainFrom, hgf]
      refine ⟨?_, List.chain'_nil⟩
      intro k
      simp only [List.not_mem_nil, false_iff]
      rintro ⟨hk, hLk, habk⟩
      exact (nextFrom_eq_none.mp hnf) k hk hLk habk
    | some i =>
      rw [hnf] at hgf
      rcases nextFrom_spec hnf with ⟨hin, hiL, hiab, himin⟩
      have hlen : i < (mkCanon d rng).nodes.length := by
        rw [mkCanon_nodes_length]
        exact hin
      have hcnt := countQ_lt hnf
      rcases ih (some i) ⟨hin, hiL⟩ (by omega) with ⟨ihmem, ihchain⟩
      simp only [chainFrom, hgf, if_pos hlen]
      constructor
      · intro k
        rw [List.mem_cons, ihmem k]
        constructor
        · rintro (rfl | ⟨hk, hLk, habk⟩)
          · exact ⟨hin, hiL, hiab⟩
          · refine ⟨hk, hLk, ?_⟩
            simp only [aboveB, decide_eq_true_eq] at habk
            cases p with
            | none => rfl
            | some j =>
              simp only [aboveB, decide_eq_true_eq] at hiab ⊢
              exact lt_trans hiab habk
        · rintro ⟨hk, hLk, habk⟩
          by_cases hki : k = i
          · exact Or.inl hki
          · right
            refine ⟨hk, hLk, ?_⟩
            simp only [aboveB, decide_eq_true_eq]
            have h1 := himin k hk hLk habk
            rcases lt_or_eq_of_le h1 with h2 | h2
            · exact h2
            · exact absurd (goodData_inj hd hin hk h2).symm hki
      · rw [List.chain'_cons']
        refine ⟨?_, ihchain⟩
        intro y hy
        have hymem : y ∈ chainFrom (mkCanon d rng) L (some i) fuel := by
          cases hch : chainFrom (mkCanon d rng) L (some i) fuel with
          | nil => rw [hch] at hy; exact absurd hy (by simp)
          | cons a rest =>
            rw [hch] at hy
            simp only [List.head?_cons, Option.mem_some_iff] at hy
            rw [← hy]
            exact List.mem_cons_self a rest
        have := (ihmem y).mp hymem
        simp only [aboveB, decide_eq_true_eq] at this
        exact this.2.2

theorem chain_mem {d : List (Int × Nat)} {rng L : Nat} (hd : goodData d) {k : Nat} :
    k ∈ chain (mkCanon d rng) L ↔ k < d.length ∧ L ≤ hAt d k := by
  have hfc : countQ d L none < (mkCanon d rng).nodes.length + 1 := by
    rw [mkCanon_nodes_length]
    have := countQ_le_length (d := d) (L := L) (p := none)
    omega
  rcases @chainFrom_spec d rng L hd ((mkCanon d rng).nodes.length + 1) none trivial hfc
    with ⟨hmem, _⟩
  rw [chain, hmem k]
  constructor
  · rintro ⟨h1, h2, _⟩
    exact ⟨h1, h2⟩
  · rintro ⟨h1, h2⟩
    exact ⟨h1, h2, rfl⟩

theorem chain_chain' {d : List (Int × Nat)} {rng L : Nat} (hd : goodData d) :
    List.Chain' (fun i j => vAt d i < vAt d j) (chain (mkCanon d rng) L) := by
  have hfc : countQ d L none < (mkCanon d rng).nodes.length + 1 := by
    rw [mkCanon_nodes_length]
    have := countQ_le_length (d := d) (L := L) (p := none)
    omega
  exact (@chainFrom_spec d rng L hd ((mkCanon d rng).nodes.length + 1) none trivial hfc).2

/-!
Derived chain facts: the level chains are height filters of the base
chain, and the base chain lists the stored values in strictly increasing
order, each exactly once.
-/

def chainVals (l : SkipList) : List Int :=
  (chain l 0).map fun i => (l.nodes.getD i default).value

theorem heightOf_mkCanon {d : List (Int × Nat)} {rng i : Nat} (h : i < d.length) :
    heightOf (mkCanon d rng) i = hAt d i := by
  rw [heightOf, mkCanon_forward_getD h, List.length_map, List.length_range]
  omega

theorem chain_pairwise {d : List (Int × Nat)} {rng L : Nat} (hd : goodData d) :
    List.Pairwise (fun i j => vAt d i < vAt d j) (chain (mkCanon d rng) L) := by
  haveI : IsTrans Nat (fun i j => vAt d i < vAt d j) :=
    ⟨fun _ _ _ h1 h2 => lt_trans h1 h2⟩
  exact List.chain'_iff_pairwise.mp (chain_chain' hd)

theorem chain_nodup {d : List (Int × Nat)} {rng L : Nat} (hd : goodData d) :
    (chain (mkCanon d rng) L).Nodup := by
  apply List.Pairwise.imp _ (@chain_pairwise d rng L hd)
  intro a b hab
  intro hc
  subst hc
  exact lt_irrefl _ hab

theorem chain_filter_heights {d : List (Int × Nat)} {rng L : Nat} (hd : goodData d) :
    chain (mkCanon d rng) L =
      (chain (mkCanon d rng) 0).filter
        fun i => decide (L ≤ heightOf (mkCanon d rng) i) := by
  have hfe : (chain (mkCanon d rng) 0).filter
        (fun i => decide (L ≤ heightOf (mkCanon d rng) i)) =
      (chain (mkCanon d rng) 0).filter (fun i => decide (L ≤ hAt d i)) := by
    apply List.filter_congr
    intro a ha
    have hma := (chain_mem hd).mp ha
    rw [heightOf_mkCanon hma.1]
  rw [hfe]
  haveI : IsAntisymm Nat (fun i j => vAt d i < vAt d j) :=
    ⟨fun a b h1 h2 => absurd h2 (lt_asymm h1)⟩
  apply List.eq_of_perm_of_sorted (r := fun i j => vAt d i < vAt d j)
  · apply List.perm_of_nodup_nodup_toFinset_eq (chain_nodup hd)
      (List.Nodup.filter _ (chain_nodup hd))
    apply Finset.ext
    intro a
    rw [List.mem_toFinset, List.mem_toFinset, List.mem_filter, chain_mem hd,
      chain_mem hd]
    simp only [decide_eq_true_eq]
    constructor
    · rintro ⟨h1, h2⟩
      exact ⟨⟨h1, Nat.zero_le _⟩, h2⟩
    · rintro ⟨⟨h1, _⟩, h2⟩
      exact ⟨h1, h2⟩
  · exact chain_pairwise hd
  · exact List.Pairwise.filter _ (chain_pairwise hd)

theorem chainVals_canon {d : List (Int × Nat)} {rng : Nat} (hd : goodData d) :
    List.Sorted (fun a b : Int => a < b) (chainVals (mkCanon d rng)) ∧
    ∀ v : Int, (chainVals (mkCanon d rng)).count v =
      if v ∈ vals d then 1 else 0 := by
  have hval : ∀ a ∈ chain (mkCanon d rng) 0,
      ((mkCanon d rng).nodes.getD a default).value = vAt d a := by
    intro a ha
    exact mkCanon_value_getD ((chain_mem hd).mp ha).1
  have hsorted : List.Sorted (fun a b : Int => a < b) (chainVals (mkCanon d rng)) := by
    rw [chainVals, List.Sorted, List.pairwise_map]
    apply List.Pairwise.imp_of_mem _ (chain_pairwise hd)
    intro a b ha hb hab
    rw [hval a ha, hval b hb]
    exact hab
  refine ⟨hsorted, ?_⟩
  have hnd : (chainVals (mkCanon d rng)).Nodup := by
    apply List.Pairwise.imp _ hsorted
    intro a b hab
    exact ne_of_lt hab
  have hmem : ∀ v : Int, v ∈ chainVals (mkCanon d rng) ↔ v ∈ vals d := by
    intro v
    rw [chainVals, List.mem_map]
    constructor
    · rintro ⟨a, ha, hav⟩
      rw [hval a ha] at hav
      exact hav ▸ vAt_mem_vals ((chain_mem hd).mp ha).1
    · intro hv
      rcases mem_vals_iff.mp hv with ⟨i, hi, hiv⟩
      refine ⟨i, ?_, ?_⟩
      · rw [chain_mem hd]
        exact ⟨hi, Nat.zero_le _⟩
      · rw [mkCanon_value_getD hi]
        exact hiv
  intro v
  by_cases hv : v ∈ vals d
  · rw [if_pos hv]
    have h1 := List.nodup_iff_count_le_one.mp hnd v
    have h2 := List.count_pos_iff.mpr ((hmem v).mpr hv)
    omega
  · rw [if_neg hv]
    rw [List.count_eq_zero]
    intro hc
    exact hv ((hmem v).mp hc)

/-!
Reachability: every state obtained from `new` by a sequence of operations
is canonical, and its value set tracks the history semantics.
-/

theorem goodData_nil : goodData [] := ⟨List.nodup_nil, fun p hp => absurd hp (List.not_mem_nil p)⟩

theorem new_canonical (seed : Nat) :
    SkipList.new seed = mkCanon [] ((seed % U32) ||| 1) := by
  apply SkipList.ext_fields
  · rfl
  · show List.replicate (MAX_LEVEL + 1) none =
      (List.range (MAX_LEVEL + 1)).map fun L => headAt [] L
    apply List.ext_get?
    intro i
    simp only [List.get?_eq_getElem?, List.getElem?_replicate, List.getElem?_map]
    by_cases h : i < MAX_LEVEL + 1
    · rw [if_pos h, List.getElem?_range h]
      simp only [Option.map_some']
      refine congrArg some ?_
      symm
      rw [headAt_eq_none]
      intro j hj
      simp at hj
    · rw [if_neg h]
      have : (List.range (MAX_LEVEL + 1))[i]? = none := by
        apply List.getElem?_eq_none
        rw [List.length_range]
        omega
      rw [this]
      rfl
  · rfl
  · rfl

theorem liveAfter_append_ins {ops : List Op} {w v : Int} :
    liveAfter (ops ++ [Op.ins w]) v = if w = v then true else liveAfter ops v := by
  rw [liveAfter, liveAfter, List.foldl_append, List.foldl_cons, List.foldl_nil]

theorem liveAfter_append_del {ops : List Op} {w v : Int} :
    liveAfter (ops ++ [Op.del w]) v = if w = v then false else liveAfter ops v := by
  rw [liveAfter, liveAfter, List.foldl_append, List.foldl_cons, List.foldl_nil]

theorem mem_vals_erase {d : List (Int × Nat)} {p : Nat} (hd : goodData d)
    (hp : p < d.length) {w : Int} :
    w ∈ vals (d.eraseIdx p) ↔ (w ∈ vals d ∧ w ≠ vAt d p) := by
  have hlen := length_erase hp
  rw [mem_vals_iff]
  constructor
  · rintro ⟨i, hi, hiv⟩
    rw [vAt_erase] at hiv
    have hlift : liftIdx p i < d.length := liftIdx_lt hp (by omega)
    constructor
    · exact hiv ▸ vAt_mem_vals hlift
    · intro hc
      rw [hc] at hiv
      exact liftIdx_ne (goodData_inj hd hlift hp hiv)
  · rintro ⟨hw, hne⟩
    rcases mem_vals_iff.mp hw with ⟨k, hk, hkv⟩
    have hkp : k ≠ p := by
      intro hc
      rw [hc] at hkv
      exact hne hkv.symm
    rcases liftIdx_surj hk hkp hp with ⟨i, hi, hie⟩
    refine ⟨i, by omega, ?_⟩
    rw [vAt_erase, hie]
    exact hkv

theorem run_append {seed : Nat} {ops : List Op} {op : Op} :
    run seed (ops ++ [op]) = applyOp (run seed ops) op := by
  rw [run, run, List.foldl_append, List.foldl_cons, List.foldl_nil]

theorem run_canonical (seed : Nat) (ops : List Op) :
    ∃ d rng, goodData d ∧ run seed ops = mkCanon d rng ∧
      ∀ v : Int, v ∈ vals d ↔ liveAfter ops v = true := by
  induction ops using List.reverseRecOn with
  | nil =>
    refine ⟨[], (seed % U32) ||| 1, goodData_nil, new_canonical seed, ?_⟩
    intro v
    simp [vals, liveAfter]
  | append_singleton ops op ih =>
    rcases ih with ⟨d, rng, hd, hrun, hvals⟩
    rw [run_append, hrun]
    cases op with
    | ins w =>
      by_cases hw : w ∈ vals d
      · refine ⟨d, rng, hd, ?_, ?_⟩
        · show (mkCanon d rng).insert w = _
          rw [insert_canon_present hd hw]
        · intro v
          rw [liveAfter_append_ins]
          by_cases hwv : w = v
          · subst hwv
            rw [if_pos rfl]
            exact ⟨fun _ => rfl, fun _ => hw⟩
          · rw [if_neg hwv]
            exact hvals v
      · refine ⟨d ++ [(w, (random_level rng).1)], (random_level rng).2,
          goodData_append hd hw (random_level_le rng), ?_, ?_⟩
        · show (mkCanon d rng).insert w = _
          rw [insert_canon_absent hd hw]
        · intro v
          rw [liveAfter_append_ins, vals_append]
          by_cases hwv : w = v
          · subst hwv
            rw [if_pos rfl]
            exact ⟨fun _ => rfl,
              fun _ => List.mem_append.mpr (Or.inr (List.mem_singleton.mpr rfl))⟩
          · rw [if_neg hwv, List.mem_append]
            constructor
            · rintro (h1 | h1)
              · exact (hvals v).mp h1
              · exact absurd (List.mem_singleton.mp h1).symm hwv
            · intro h1
              exact Or.inl ((hvals v).mpr h1)
    | del w =>
      by_cases hw : w ∈ vals d
      · rcases mem_vals_iff.mp hw with ⟨p, hp, hpv⟩
        refine ⟨d.eraseIdx p, rng, goodData_erase hd, ?_, ?_⟩
        · show ((mkCanon d rng).delete w).2 = _
          rw [delete_canon_present hd hp hpv]
        · intro v
          rw [liveAfter_append_del, mem_vals_erase hd hp]
          by_cases hwv : w = v
          · subst hwv
            rw [if_pos rfl]
            refine ⟨fun h1 => absurd hpv.symm h1.2, fun h1 => absurd h1 Bool.false_ne_true⟩
          · rw [if_neg hwv, hvals v]
            constructor
            · rintro ⟨h1, _⟩
              exact h1
            · intro h1
              refine ⟨h1, ?_⟩
              intro hc
              rw [hpv] at hc
              exact hwv hc.symm
      · refine ⟨d, rng, hd, ?_, ?_⟩
        · show ((mkCanon d rng).delete w).2 = _
          rw [delete_canon_absent hd hw]
        · intro v
          rw [liveAfter_append_del]
          by_cases hwv : w = v
          · subst hwv
            rw [if_pos rfl]
            exact ⟨fun h1 => absurd h1 hw, fun h1 => absurd h1 Bool.false_ne_true⟩
          · rw [if_neg hwv]
            exact hvals v

/-!
Frame lemma for the generator state of delete, valid on every state.
-/

theorem dspliceFold_rng (u : List (Option Nat)) (p : Nat) :
    ∀ (xs : List Nat) (st : SkipList),
      (xs.foldl (dspliceStep u p) st).rng_state = st.rng_state := by
  intro xs
  induction xs with
  | nil =>
    intro st
    rfl
  | cons x rest ih =>
    intro st
    rw [List.foldl_cons, ih]
    rw [dspliceStep]
    split
    · exact set_forward_rng
    · rfl

theorem delete_rng_frame (l : SkipList) (v : Int) :
    ((l.delete v).2).rng_state = l.rng_state := by
  cases hgf : l.get_forward (l.buildUpdate v).2 0 with
  | none => simp only [SkipList.delete, hgf]
  | some p =>
    by_cases hc : p < l.nodes.length ∧ (l.nodes.getD p default).value = v
    · simp only [SkipList.delete, hgf]
      rw [if_pos hc]
      exact dspliceFold_rng _ _ _ l
    · simp only [SkipList.delete, hgf]
      rw [if_neg hc]

/-!
Claim theorems.
-/

/-- C1: for every sequence of insert and delete operations starting from
`new()` and every value `v`, `search v` returns `true` exactly when `v`
was inserted and not subsequently deleted, and `false` when `v` was never
inserted or was deleted after its last insertion. -/
theorem spec_C1 (seed : Nat) (ops : List Op) (v : Int) :
    (run seed ops).search v = liveAfter ops v := by
  rcases run_canonical seed ops with ⟨d, rng, hd, hrun, hvals⟩
  rw [hrun, search_canon hd]
  by_cases hv : v ∈ vals d
  · rw [decide_eq_true hv, (hvals v).mp hv]
  · rw [decide_eq_false hv]
    symm
    rw [Bool.eq_false_iff]
    intro hc
    exact hv ((hvals v).mpr hc)

/-- C2: after every operation sequence, the sequence of node values found
by following `forward[0]` links from the head is strictly increasing and
contains every currently inserted value exactly once. -/
theorem spec_C2 (seed : Nat) (ops : List Op) :
    List.Sorted (fun a b : Int => a < b) (chainVals (run seed ops)) ∧
    ∀ v : Int, (chainVals (run seed ops)).count v =
      if liveAfter ops v = true then 1 else 0 := by
  rcases run_canonical seed ops with ⟨d, rng, hd, hrun, hvals⟩
  rw [hrun]
  rcases chainVals_canon hd with ⟨hs, hc⟩
  refine ⟨hs, ?_⟩
  intro v
  rw [hc v]
  by_cases hv : v ∈ vals d
  · rw [if_pos hv, if_pos ((hvals v).mp hv)]
  · rw [if_neg hv, if_neg (fun hc2 => hv ((hvals v).mpr hc2))]

/-- C3: `delete v` succeeds exactly when `v` is currently present; on
success `v` is no longer found and the length drops by exactly one; on
failure the entire structure is unchanged. -/
theorem spec_C3 (seed : Nat) (ops : List Op) (v : Int) :
    ((run seed ops).delete v).1 = liveAfter ops v ∧
    (((run seed ops).delete v).1 = true →
      ((run seed ops).delete v).2.search v = false ∧
      ((run seed ops).delete v).2.len + 1 = (run seed ops).len) ∧
    (((run seed ops).delete v).1 = false →
      ((run seed ops).delete v).2 = run seed ops) := by
  rcases run_canonical seed ops with ⟨d, rng, hd, hrun, hvals⟩
  rw [hrun]
  by_cases hv : v ∈ vals d
  · rcases mem_vals_iff.mp hv with ⟨p, hp, hpv⟩
    rw [delete_canon_present hd hp hpv]
    refine ⟨?_, ?_, ?_⟩
    · show true = liveAfter ops v
      rw [(hvals v).mp hv]
    · intro _
      constructor
      · show (mkCanon (d.eraseIdx p) rng).search v = false
        have hnot : v ∉ vals (d.eraseIdx p) := by
          rw [mem_vals_erase hd hp]
          rintro ⟨_, hne⟩
          exact hne hpv.symm
        rw [search_canon (goodData_erase hd), decide_eq_false hnot]
      · show (mkCanon (d.eraseIdx p) rng).nodes.length + 1 =
          (mkCanon d rng).nodes.length
        rw [mkCanon_nodes_length, mkCanon_nodes_length, length_erase hp]
        omega
    · intro hc
      exact Bool.noConfusion hc
  · rw [delete_canon_absent hd hv]
    refine ⟨?_, ?_, ?_⟩
    · show false = liveAfter ops v
      symm
      rw [Bool.eq_false_iff]
      intro hc
      exact hv ((hvals v).mpr hc)
    · intro hc
      exact Bool.noConfusion hc
    · intro _
      rfl

/-- C4: inserting a value that is already present leaves the whole
structure unchanged, and inserting the same value twice is the same as
inserting it once. -/
theorem spec_C4 (seed : Nat) (ops : List Op) (v : Int) :
    (liveAfter ops v = true → (run seed ops).insert v = run seed ops) ∧
    ((run seed ops).insert v).insert v = (run seed ops).insert v := by
  rcases run_canonical seed ops with ⟨d, rng, hd, hrun, hvals⟩
  rw [hrun]
  constructor
  · intro hl
    exact insert_canon_present hd ((hvals v).mpr hl)
  · by_cases hv : v ∈ vals d
    · rw [insert_canon_present hd hv, insert_canon_present hd hv]
    · rw [insert_canon_absent hd hv]
      apply insert_canon_present (goodData_append hd hv (random_level_le rng))
      rw [vals_append]
      exact List.mem_append.mpr (Or.inr (List.mem_singleton.mpr rfl))

/-- C6: after every operation sequence, the chain of level `L ≥ 1` is the
subsequence of the level-0 chain consisting of exactly the nodes whose
height is at least `L`. -/
theorem spec_C6 (seed : Nat) (ops : List Op) (L : Nat) (hL : 1 ≤ L) :
    chain (run seed ops) L =
      (chain (run seed ops) 0).filter
        fun i => decide (L ≤ heightOf (run seed ops) i) := by
  rcases run_canonical seed ops with ⟨d, rng, hd, hrun, _⟩
  rw [hrun]
  exact chain_filter_heights hd

/-- C7: after every operation sequence, every node's height is at most
`MAX_LEVEL`, the list level equals the maximum height of the present
nodes (`0` when empty), and a positive level always has a head forward
reference at the top level. -/
theorem spec_C7 (seed : Nat) (ops : List Op) :
    (∀ nd ∈ (run seed ops).nodes, nd.forward.length - 1 ≤ MAX_LEVEL) ∧
    (run seed ops).level =
      ((run seed ops).nodes.map fun nd => nd.forward.length - 1).foldr max 0 ∧
    ((run seed ops).level ≠ 0 →
      ((run seed ops).head_forward.get? (run seed ops).level).getD none ≠ none) := by
  rcases run_canonical seed ops with ⟨d, rng, hd, hrun, _⟩
  rw [hrun]
  have hnodemap : (mkCanon d rng).nodes.map (fun nd => nd.forward.length - 1) =
      d.map Prod.snd := by
    apply List.ext_get?
    intro i
    simp only [List.get?_eq_getElem?, List.getElem?_map]
    by_cases hi : i < d.length
    · have h1 := @mkCanon_node_get? d rng i hi
      rw [List.get?_eq_getElem?] at h1
      rw [h1]
      have h2 := List.get?_eq_get hi
      rw [List.get?_eq_getElem?] at h2
      rw [h2]
      simp only [Option.map_some']
      refine congrArg some ?_
      rw [List.length_map, List.length_range, hAt_eq hi]
      omega
    · have h1 : (mkCanon d rng).nodes[i]? = none := by
        apply List.getElem?_eq_none
        rw [mkCanon_nodes_length]
        omega
      have h2 : d[i]? = none := by
        apply List.getElem?_eq_none
        omega
      rw [h1, h2]
      rfl
  refine ⟨?_, ?_, ?_⟩
  · intro nd hnd
    rcases List.mem_map.mp hnd with ⟨i, hi, hie⟩
    rcases List.mem_range.mp hi with hilt
    rw [← hie]
    show ((List.range (hAt d i + 1)).map fun L => succAt d L (vAt d i)).length - 1
      ≤ MAX_LEVEL
    rw [List.length_map, List.length_range]
    have := hAt_le_MAX hd hilt
    omega
  · rw [hnodemap]
    exact mkCanon_level
  · intro hne
    rw [mkCanon_level] at hne
    have hdne : d ≠ [] := by
      intro hc
      subst hc
      exact hne rfl
    rcases maxH_attained hdne with ⟨i, hi, hie⟩
    show ((mkCanon d rng).head_forward.get? (mkCanon d rng).level).getD none ≠ none
    rw [mkCanon_level, mkCanon_head_get?]
    have hmle := maxH_le_MAX hd
    rw [if_pos (by omega)]
    show headAt d (maxH d) ≠ none
    intro hc
    exact headAt_eq_none.mp hc i hi (le_of_eq hie.symm)

/-- C10: only an insert of an absent value advances the generator: delete
never changes `rng_state` on any state, an insert of a present value
leaves it unchanged, and an insert of an absent value replaces it with
the state left by `random_level`. -/
theorem spec_C10 (seed : Nat) (ops : List Op) (v : Int) :
    (∀ (l : SkipList) (w : Int), ((l.delete w).2).rng_state = l.rng_state) ∧
    (liveAfter ops v = true →
      ((run seed ops).insert v).rng_state = (run seed ops).rng_state) ∧
    (liveAfter ops v = false →
      ((run seed ops).insert v).rng_state =
        (random_level (run seed ops).rng_state).2) := by
  refine ⟨fun l w => delete_rng_frame l w, ?_, ?_⟩
  · intro hl
    rcases run_canonical seed ops with ⟨d, rng, hd, hrun, hvals⟩
    rw [hrun, insert_canon_present hd ((hvals v).mpr hl)]
  · intro hl
    rcases run_canonical seed ops with ⟨d, rng, hd, hrun, hvals⟩
    have hv : v ∉ vals d := by
      intro hc
      rw [(hvals v).mp hc] at hl
      exact Bool.noConfusion hl
    rw [hrun, insert_canon_absent hd hv]
    rw [mkCanon_rng, mkCanon_rng]

/-- C5: when delete removes the node at arena position `p`, the final
head references and node references are obtained from the intermediate
state (after the splice and after the removal of position `p` from the
backing sequence) by sliding every stored index above `p` down by one and
clearing every stored index equal to `p`. -/
theorem spec_C5 (seed : Nat) (ops : List Op) (v : Int) (p : Nat)
    (hgf : (run seed ops).get_forward ((run seed ops).buildUpdate v).2 0 = some p)
    (hplt : p < (run seed ops).nodes.length)
    (hval : ((run seed ops).nodes.getD p default).value = v) :
    ((run seed ops).delete v).2.head_forward =
      ((run seed ops).deleteSplice ((run seed ops).buildUpdate v).1 p
        (((run seed ops).nodes.getD p default).forward.length - 1)).head_forward.map
          (shiftClear p) ∧
    ((run seed ops).delete v).2.nodes =
      (((run seed ops).deleteSplice ((run seed ops).buildUpdate v).1 p
        (((run seed ops).nodes.getD p default).forward.length - 1)).nodes.eraseIdx
          p).map (fun nd => Node.mk nd.value (nd.forward.map (shiftClear p))) := by
  rcases run_canonical seed ops with ⟨d, rng, hd, hrun, _⟩
  rw [hrun] at hgf hplt hval ⊢
  rcases buildUpdate_correct hd v with ⟨hupd, hcur, _⟩
  have hna : nextAt d 0 v = some p := by
    rw [← @get_forward_predAt d rng 0 v hd, ← hcur]
    exact hgf
  rcases nextAt_spec hna with ⟨hp, _, _, _⟩
  have hv : vAt d p = v := by
    rw [← mkCanon_value_getD hp]
    exact hval
  have htl : ((mkCanon d rng).nodes.getD p default).forward.length - 1 = hAt d p := by
    rw [mkCanon_forward_getD hp, List.length_map, List.length_range]
    omega
  have hinv := @dsplice_inv d v rng p hd _ hupd hp hv (hAt d p + 1) (le_refl _)
  rcases hinv with ⟨h1len, h1node, h1hlen, h1head, h1lev, h1rng⟩
  simp only [SkipList.delete, hgf]
  rw [if_pos ⟨hplt, hval⟩, htl]
  set l1 := (List.range (hAt d p + 1)).foldl
    (dspliceStep ((mkCanon d rng).buildUpdate v).1 p) (mkCanon d rng) with hl1
  constructor
  · show renumberHead p l1.level l1.head_forward = l1.head_forward.map (shiftClear p)
    rw [h1lev]
    apply List.ext_get?
    intro L
    rw [renumberHead_get?]
    have hmap : (l1.head_forward.map (shiftClear p)).get? L =
        (l1.head_forward.get? L).map (shiftClear p) := by
      rw [List.get?_eq_getElem?, List.get?_eq_getElem?, List.getElem?_map]
    rw [hmap]
    by_cases hLm : L < maxH d + 1
    · rw [if_pos hLm]
    · rw [if_neg hLm]
      by_cases hL17 : L < MAX_LEVEL + 1
      · rw [h1head L hL17]
        have hc : ¬ (L < hAt d p + 1 ∧ predAt d L v = none) := by
          rintro ⟨h3, _⟩
          have := hAt_le_maxH hp
          omega
        rw [if_neg hc, headAt_none_of_gt_maxH (by omega)]
        rfl
      · rw [List.get?_eq_none.mpr (by rw [h1hlen]; omega)]
        rfl
  · show renumberNodes p (l1.nodes.eraseIdx p) =
      (l1.nodes.eraseIdx p).map fun nd => Node.mk nd.value (nd.forward.map (shiftClear p))
    apply List.ext_get?
    intro j
    rw [renumberNodes_get?]
    have hmap : ((l1.nodes.eraseIdx p).map
        (fun nd => Node.mk nd.value (nd.forward.map (shiftClear p)))).get? j =
        ((l1.nodes.eraseIdx p).get? j).map
          (fun nd => Node.mk nd.value (nd.forward.map (shiftClear p))) := by
      rw [List.get?_eq_getElem?, List.get?_eq_getElem?, List.getElem?_map]
    rw [hmap, eraseIdx_get?_lift]
    by_cases hj : j < d.length - 1
    · have hlift : liftIdx p j < d.length := liftIdx_lt hp hj
      rw [h1node (liftIdx p j) hlift]
      simp only [Option.map_some']
      refine congrArg some ?_
      refine congrArg (fun fw => Node.mk (vAt d (liftIdx p j)) fw) ?_
      rw [List.map_map, List.map_map]
      apply List.map_congr_left
      intro L hL
      rw [List.mem_range] at hL
      show unshift p (if L < hAt d p + 1 ∧ predAt d L v = some (liftIdx p j)
          then succAt d L v else succAt d L (vAt d (liftIdx p j))) =
        shiftClear p (if L < hAt d p + 1 ∧ predAt d L v = some (liftIdx p j)
          then succAt d L v else succAt d L (vAt d (liftIdx p j)))
      symm
      apply shiftClear_eq_unshift
      by_cases hcond : L < hAt d p + 1 ∧ predAt d L v = some (liftIdx p j)
      · rw [if_pos hcond]
        exact succAt_t_ne_some_p hv
      · rw [if_neg hcond]
        intro hc
        have hLj : L ≤ hAt d (liftIdx p j) := by omega
        have hback := (cond_node_iff hd hp hv hlift hLj).mpr hc
        exact hcond ⟨by omega, hback.2⟩
    · have hbig : d.length ≤ liftIdx p j := by
        rw [liftIdx]
        split <;> omega
      rw [List.get?_eq_none.mpr (by rw [h1len]; exact hbig)]
      rfl

theorem spec_C5_witness :
    ((run 0 [Op.ins 5]).delete 5).2.head_forward =
      ((run 0 [Op.ins 5]).deleteSplice ((run 0 [Op.ins 5]).buildUpdate 5).1 0
        (((run 0 [Op.ins 5]).nodes.getD 0 default).forward.length - 1)).head_forward.map
          (shiftClear 0) ∧
    ((run 0 [Op.ins 5]).delete 5).2.nodes =
      (((run 0 [Op.ins 5]).deleteSplice ((run 0 [Op.ins 5]).buildUpdate 5).1 0
        (((run 0 [Op.ins 5]).nodes.getD 0 default).forward.length - 1)).nodes.eraseIdx
          0).map (fun nd => Node.mk nd.value (nd.forward.map (shiftClear 0))) :=
  spec_C5 0 [Op.ins 5] 5 0 (by decide) (by decide) (by decide)

theorem spec_C6_witness :
    chain (run 0 [Op.ins 3, Op.ins 7]) 1 =
      (chain (run 0 [Op.ins 3, Op.ins 7]) 0).filter
        fun i => decide (1 ≤ heightOf (run 0 [Op.ins 3, Op.ins 7]) i) :=
  spec_C6 0 [Op.ins 3, Op.ins 7] 1 (by decide)

/-!
The xorshift generator as a linear map over bitwise xor, with inverse
certificates used to rule out short cycles of the generator state.
-/

def nrInvCert : List Nat :=
  [4071982377, 3848997458, 3738612901, 3182258506, 2069549716, 4139099432, 3983231568, 3470144673, 2645322050, 995676804, 1991353608, 3982707216, 3469095969, 2643224642, 991481988, 1982963976, 3965927952, 3435537441, 2576107586, 857247876, 1714495752, 3428991504, 2294547488, 294127680, 588255360, 1176510720, 2353021440, 142607360, 285214720, 570429440, 1140858880, 2281717760]

def nrCerts : List (List Nat) := [
  [2456421193, 645318041, 1313818681, 1280725041, 1214537761, 1073741825, 2147483650, 3502817351, 1901674701, 3803349402, 3351756863, 2408546430, 522125564, 4009148859, 260538430, 3485974591, 2676981886, 1058996476, 2935407035, 2408022078, 521076860, 4007051451, 264733246, 3477587007, 2660206718, 1025446140, 2868306363, 2273820734, 252674172, 3470246075, 2645524854, 3912565156],
  [1199292750, 109543855, 1438105646, 3144220765, 1725202619, 264602175, 3477324861, 2390820987, 218403063, 3401703853, 3443195946, 1254014999, 1169506413, 2607546587, 2886484367, 1253883924, 1169244267, 2338488534, 113476013, 1161379883, 2322759766, 82018477, 1098465835, 1111278612, 1420904555, 2841809110, 1120117165, 3443064875, 1253752853, 1438367848, 2876735696, 3426435481],
  [2332617502, 3607954719, 1651612526, 3963333265, 1046911796, 1874585091, 3920544339, 943392963, 1853326238, 620714802, 1264350575, 1483847813, 1166307191, 3788738445, 1696063273, 451378705, 2192191345, 1196921804, 1583867867, 3653312429, 843047516, 3031893243, 4101015011, 942263173, 1059526743, 2961662709, 2131711986, 2915660202, 2743254874, 453452162, 4173795679, 356331427],
  [2630594315, 139718218, 4063129220, 2800754191, 3441458256, 1951440237, 1911601388, 4216828580, 3994658356, 500829486, 190294788, 1597379709, 4160055951, 1837651547, 3576412256, 2510869578, 2718345891, 213063223, 1231989859, 1782639265, 1559352945, 3924503791, 2738612362, 3616936031, 4138984138, 3051292388, 1001819589, 3343837852, 1601311871, 765930174, 3275281998, 1484945417],
  [3878413362, 1807735053, 830021350, 3552595174, 3525513023, 3863113933, 1842702892, 2919842475, 3716102214, 1746832021, 27017622, 3392406729, 4294438077, 3462055526, 3987701984, 1609239672, 3353432247, 4062992769, 555976701, 1755130563, 2256826625, 1486814431, 2183800233, 1673272679, 2190335631, 2484468370, 2232274312, 1887940308, 643584781, 3249215128, 3296873891, 2879024875],
  [91150926, 1926875594, 836599778, 3026196051, 4245010540, 2982022396, 4173242155, 1511601873, 1737903608, 3627561509, 729200402, 828230983, 2244476237, 2356850395, 1628748487, 507798751, 1019199736, 529085043, 576956052, 3699820380, 797918046, 2359694997, 2238701280, 1188782839, 1049060933, 3338792409, 696072339, 3077092247, 4111421838, 2061758203, 2164371198, 3554499413],
  [3500295782, 2289321543, 43931846, 4223356839, 1794669404, 2989602544, 10093580, 2472231623, 2552055136, 1671198474, 291025143, 1039816603, 1688521871, 3093538192, 1619306822, 3538174434, 943383163, 1122836349, 1330107767, 4282551860, 3128436550, 2150620732, 4277147784, 2110911836, 277406595, 3042546767, 2410662050, 475314167, 1820421642, 1956599764, 3908155384, 763026161],
  [649751795, 768780412, 1655138868, 1156788943, 3757963338, 1610679864, 2082673475, 444208325, 3464419509, 2301843775, 986215244, 791561814, 2050263520, 3823725738, 1905292943, 4256837728, 611589069, 243217233, 2867925792, 1126063074, 4138949589, 3641393517, 1617917663, 4190842960, 3219816608, 1489085118, 439641638, 1653138062, 3442011381, 3481534778, 2332744948, 2860125960],
  [743624198, 4017922803, 2406893599, 3652729753, 2272327714, 3098068855, 4041273172, 1935150517, 3741293156, 3965448559, 2077875996, 473778571, 3326683907, 421309459, 2841473112, 827403302, 969524985, 2483035264, 1244792909, 2847682269, 1169917449, 959155320, 4248529828, 1045938261, 4110872153, 3637579200, 238102623, 2817630252, 3749120657, 1902204208, 3413468227, 123129066],
  [448048888, 4253618139, 3039819215, 3876927112, 2491914367, 3588311660, 1994035834, 914149891, 3532276284, 520176949, 943140110, 2182659304, 1758699149, 2584676349, 3834681729, 2756223596, 3082366118, 1105935333, 927736708, 1039219074, 508278052, 4217406264, 2478391008, 955509309, 4232967916, 1591470755, 4213145513, 1185326864, 1057534120, 2994215238, 1143101574, 2301513025],
  [32656330, 287545612, 3055550106, 3915574259, 3047766913, 4069614154, 1274084622, 3994438474, 1770053777, 570745835, 2955159561, 1233640241, 1067475182, 915137231, 3352683020, 3866093669, 1389375846, 1557912049, 2617644320, 3208753059, 3459876937, 3853833305, 4058392406, 2175914631, 994889642, 1475456730, 3940532021, 666905285, 1141536047, 528016440, 797674155, 3038091867],
  [3816236671, 2288725115, 870713180, 2013288575, 2305278363, 396552300, 581503231, 1810823357, 963821591, 1000099270, 593250076, 1709768518, 1979415420, 1691957344, 3537423933, 1621591946, 217335087, 642346441, 1621919664, 695828752, 2854051313, 1601790911, 1000378518, 3788957215, 1130054892, 3735231673, 4284158682, 279245385, 958471059, 240269250, 2561720973, 723256891],
  [3802551976, 560400369, 172419422, 1073225795, 43700506, 3450359802, 281126798, 2886573680, 1958371740, 916353819, 1708330208, 110726619, 1422968005, 431621522, 616439902, 842412968, 3991299691, 1803194977, 279907441, 3886620860, 2931317614, 3814706543, 1073626292, 3351787749, 4119116433, 4204192693, 2481802680, 1660268334, 198966239, 895104158, 1836896222, 4041039048],
  [1008268760, 4066143187, 2699651187, 1787181928, 2586350743, 3049195526, 2457593029, 4020653995, 880964447, 1799771549, 3634415374, 730050982, 219319510, 928597780, 3957861379, 17247113, 2433964546, 2496276553, 3357658979, 271523669, 2135331537, 3750874120, 1946107159, 106571268, 3558680794, 801289561, 184046082, 17793542, 2926058766, 1734717662, 2017793375, 2649518594],
  [2942747606, 2893733020, 3184444488, 2451026076, 2099719829, 3706147634, 546965136, 3592286765, 495055500, 868505930, 1555622036, 1087611964, 1914665749, 95400439, 485861352, 2890745166, 2453201834, 1858792542, 3803517515, 2597894028, 170350752, 4180340964, 3588592746, 145389011, 4161586033, 1122448809, 4131113892, 3754832850, 3975494340, 808907017, 1960034642, 3215243621],
  [1127323069, 3175908463, 1430955259, 1453517310, 664009348, 672014541, 1210581956, 2540655612, 2447476535, 178216072, 388557157, 1078520015, 739563438, 3135180900, 1438968601, 4201089105, 1148610025, 4156213525, 2426865578, 894390237, 53426535, 4211974416, 4045426732, 873228207, 3176008125, 2686095368, 2094944635, 1368818682, 2611883287, 4118735438, 977456894, 1264176265]]

def nrIter : Nat → Nat → Nat
  | 0, s => s
  | m + 1, s => nrIter m (next_random s)

def applyCols : List Nat → Nat → Nat
  | [], _ => 0
  | c :: cs, x => (if x % 2 = 1 then c else 0) ^^^ applyCols cs (x / 2)

theorem xorShuffle (a b c d : Nat) : (a ^^^ b) ^^^ (c ^^^ d) = (a ^^^ c) ^^^ (b ^^^ d) := by
  rw [Nat.xor_assoc, ← Nat.xor_assoc b c d, Nat.xor_comm b c, Nat.xor_assoc c b d,
    ← Nat.xor_assoc]

theorem xor_shiftLeft_distrib (a b k : Nat) : (a ^^^ b) <<< k = (a <<< k) ^^^ (b <<< k) := by
  apply Nat.eq_of_testBit_eq
  intro i
  simp only [Nat.testBit_shiftLeft, Nat.testBit_xor]
  by_cases h : k ≤ i
  · simp [h]
  · simp [h]

theorem xor_shiftRight_distrib (a b k : Nat) : (a ^^^ b) >>> k = (a >>> k) ^^^ (b >>> k) := by
  apply Nat.eq_of_testBit_eq
  intro i
  simp [Nat.testBit_shiftRight, Nat.testBit_xor]

theorem xor_mod_two_pow_distrib (a b n : Nat) :
    (a ^^^ b) % 2 ^ n = (a % 2 ^ n) ^^^ (b % 2 ^ n) := by
  apply Nat.eq_of_testBit_eq
  intro i
  simp only [Nat.testBit_mod_two_pow, Nat.testBit_xor]
  by_cases h : i < n
  · simp [h]
  · simp [h]

theorem xor_mod_U32 (a b : Nat) : (a ^^^ b) % U32 = (a % U32) ^^^ (b % U32) :=
  xor_mod_two_pow_distrib a b 32

theorem next_random_linear (a b : Nat) :
    next_random (a ^^^ b) = next_random a ^^^ next_random b := by
  have l1 : ∀ x y : Nat, ((x ^^^ y) ^^^ ((x ^^^ y) <<< 13)) % U32 =
      ((x ^^^ (x <<< 13)) % U32) ^^^ ((y ^^^ (y <<< 13)) % U32) := by
    intro x y
    rw [xor_shiftLeft_distrib, xorShuffle, xor_mod_U32]
  have l2 : ∀ x y : Nat, ((x ^^^ y) ^^^ ((x ^^^ y) >>> 17)) % U32 =
      ((x ^^^ (x >>> 17)) % U32) ^^^ ((y ^^^ (y >>> 17)) % U32) := by
    intro x y
    rw [xor_shiftRight_distrib, xorShuffle, xor_mod_U32]
  have l3 : ∀ x y : Nat, ((x ^^^ y) ^^^ ((x ^^^ y) <<< 5)) % U32 =
      ((x ^^^ (x <<< 5)) % U32) ^^^ ((y ^^^ (y <<< 5)) % U32) := by
    intro x y
    rw [xor_shiftLeft_distrib, xorShuffle, xor_mod_U32]
  simp only [next_random]
  rw [l1, l2, l3]

theorem nrIter_linear (m : Nat) : ∀ a b, nrIter m (a ^^^ b) = nrIter m a ^^^ nrIter m b := by
  induction m with
  | zero => intro a b; rfl
  | succ m ih =>
    intro a b
    show nrIter m (next_random (a ^^^ b)) = nrIter m (next_random a) ^^^ nrIter m (next_random b)
    rw [next_random_linear, ih]

theorem applyCols_zero (cs : List Nat) : applyCols cs 0 = 0 := by
  induction cs with
  | nil => rfl
  | cons c cs ih =>
    show (if (0 : Nat) % 2 = 1 then c else 0) ^^^ applyCols cs (0 / 2) = 0
    rw [if_neg (by omega), Nat.zero_div, ih, Nat.xor_zero]

theorem applyCols_xor (cs : List Nat) :
    ∀ a b, applyCols cs (a ^^^ b) = applyCols cs a ^^^ applyCols cs b := by
  induction cs with
  | nil =>
    intro a b
    show (0 : Nat) = 0 ^^^ 0
    rw [Nat.xor_zero]
  | cons c cs ih =>
    intro a b
    show (if (a ^^^ b) % 2 = 1 then c else 0) ^^^ applyCols cs ((a ^^^ b) / 2) =
      ((if a % 2 = 1 then c else 0) ^^^ applyCols cs (a / 2)) ^^^
        ((if b % 2 = 1 then c else 0) ^^^ applyCols cs (b / 2))
    have hif : (if (a ^^^ b) % 2 = 1 then c else 0) =
        (if a % 2 = 1 then c else 0) ^^^ (if b % 2 = 1 then c else 0) := by
      rcases Nat.mod_two_eq_zero_or_one a with ha | ha <;>
        rcases Nat.mod_two_eq_zero_or_one b with hb | hb
      · have hab : ¬ (a ^^^ b) % 2 = 1 := by
          rw [Nat.xor_mod_two_eq_one]
          omega
        rw [if_neg hab, if_neg (by omega), if_neg (by omega), Nat.xor_self]
      · have hab : (a ^^^ b) % 2 = 1 := by
          rw [Nat.xor_mod_two_eq_one]
          omega
        rw [if_pos hab, if_neg (by omega), if_pos hb, Nat.zero_xor]
      · have hab : (a ^^^ b) % 2 = 1 := by
          rw [Nat.xor_mod_two_eq_one]
          omega
        rw [if_pos hab, if_pos ha, if_neg (by omega), Nat.xor_zero]
      · have hab : ¬ (a ^^^ b) % 2 = 1 := by
          rw [Nat.xor_mod_two_eq_one]
          omega
        rw [if_neg hab, if_pos ha, if_pos hb, Nat.xor_self]
    rw [Nat.xor_div_two, ih, hif, xorShuffle]

theorem applyCols_pow (cs : List Nat) : ∀ i, i < cs.length → applyCols cs (2 ^ i) = cs.getD i 0 := by
  induction cs with
  | nil =>
    intro i hi
    exact absurd hi (by simp)
  | cons c cs ih =>
    intro i hi
    cases i with
    | zero =>
      show (if 1 % 2 = 1 then c else 0) ^^^ applyCols cs (1 / 2) = c
      have h2 : (1 : Nat) / 2 = 0 := rfl
      rw [if_pos rfl, h2, applyCols_zero, Nat.xor_zero]
    | succ i =>
      show (if 2 ^ (i + 1) % 2 = 1 then c else 0) ^^^ applyCols cs (2 ^ (i + 1) / 2) =
        cs.getD i 0
      have h1 : ¬ 2 ^ (i + 1) % 2 = 1 := by
        rw [Nat.pow_succ]
        omega
      have h2 : 2 ^ (i + 1) / 2 = 2 ^ i := by
        rw [Nat.pow_succ]
        omega
      rw [if_neg h1, h2, Nat.zero_xor]
      exact ih i (by simpa using hi)

theorem two_pow_xor_lt {i r : Nat} (hr : r < 2 ^ i) : 2 ^ i ^^^ r = 2 ^ i + r := by
  apply Nat.eq_of_testBit_eq
  intro j
  rw [Nat.testBit_xor]
  rcases Nat.lt_trichotomy j i with hj | hj | hj
  · rw [Nat.testBit_two_pow_add_gt hj, Nat.testBit_two_pow_of_ne (by omega), Bool.false_xor]
  · subst hj
    rw [Nat.testBit_two_pow_add_eq, Nat.testBit_two_pow_self, Nat.testBit_lt_two_pow hr]
    rfl
  · have hpow : 2 ^ i + r < 2 ^ j := by
      have h1 : 2 ^ i + r < 2 ^ (i + 1) := by
        have := Nat.pow_succ 2 i
        omega
      exact lt_of_lt_of_le h1 (Nat.pow_le_pow_right (by omega) (by omega))
    have hrj : r < 2 ^ j := lt_of_lt_of_le hr (Nat.pow_le_pow_right (by omega) (by omega))
    rw [Nat.testBit_two_pow_of_ne (by omega), Nat.testBit_lt_two_pow hpow,
      Nat.testBit_lt_two_pow hrj]
    rfl

theorem linear_ext (f g : Nat → Nat)
    (hf : ∀ a b, f (a ^^^ b) = f a ^^^ f b) (hg : ∀ a b, g (a ^^^ b) = g a ^^^ g b) :
    ∀ n, (∀ i, i < n → f (2 ^ i) = g (2 ^ i)) → ∀ x, x < 2 ^ n → f x = g x := by
  intro n
  induction n with
  | zero =>
    intro _ x hx
    have h1 : (2 : Nat) ^ 0 = 1 := rfl
    have hx0 : x = 0 := by omega
    subst hx0
    have hf0 : f 0 = 0 := by
      have h := hf 0 0
      rw [Nat.xor_self] at h
      rw [Nat.xor_self] at h
      exact h
    have hg0 : g 0 = 0 := by
      have h := hg 0 0
      rw [Nat.xor_self] at h
      rw [Nat.xor_self] at h
      exact h
    rw [hf0, hg0]
  | succ n ih =>
    intro hb x hx
    by_cases hxn : x < 2 ^ n
    · exact ih (fun i hi => hb i (by omega)) x hxn
    · have h2 : 2 ^ (n + 1) = 2 ^ n + 2 ^ n := by
        rw [Nat.pow_succ]
        omega
      have hr : x - 2 ^ n < 2 ^ n := by omega
      have hdecomp : 2 ^ n ^^^ (x - 2 ^ n) = x := by
        rw [two_pow_xor_lt hr]
        omega
      have e1 : f x = f (2 ^ n) ^^^ f (x - 2 ^ n) := by rw [← hf, hdecomp]
      have e2 : g x = g (2 ^ n) ^^^ g (x - 2 ^ n) := by rw [← hg, hdecomp]
      rw [e1, e2, hb n (by omega), ih (fun i hi => hb i (by omega)) _ hr]

theorem no_fix_of_cert (m : Nat) (M : List Nat)
    (hb : ∀ i, i < 32 → applyCols M (nrIter m (2 ^ i) ^^^ 2 ^ i) = 2 ^ i) :
    ∀ s, s < U32 → s ≠ 0 → nrIter m s ≠ s := by
  have hflin : ∀ a b, applyCols M (nrIter m (a ^^^ b) ^^^ (a ^^^ b)) =
      applyCols M (nrIter m a ^^^ a) ^^^ applyCols M (nrIter m b ^^^ b) := by
    intro a b
    rw [nrIter_linear, xorShuffle, applyCols_xor]
  intro s hs h0 heq
  have hcomp : applyCols M (nrIter m s ^^^ s) = s :=
    linear_ext (fun x => applyCols M (nrIter m x ^^^ x)) (fun x => x)
      hflin (fun _ _ => rfl) 32 hb s hs
  rw [heq, Nat.xor_self, applyCols_zero] at hcomp
  exact h0 hcomp.symm

theorem nrIter_ne_of_le (m s : Nat) (hm1 : 1 ≤ m) (hm : m ≤ 16)
    (hs : s < U32) (h0 : s ≠ 0) : nrIter m s ≠ s := by
  interval_cases m
  · exact no_fix_of_cert 1 (nrCerts.getD 0 []) (by decide) s hs h0
  · exact no_fix_of_cert 2 (nrCerts.getD 1 []) (by decide) s hs h0
  · exact no_fix_of_cert 3 (nrCerts.getD 2 []) (by decide) s hs h0
  · exact no_fix_of_cert 4 (nrCerts.getD 3 []) (by decide) s hs h0
  · exact no_fix_of_cert 5 (nrCerts.getD 4 []) (by decide) s hs h0
  · exact no_fix_of_cert 6 (nrCerts.getD 5 []) (by decide) s hs h0
  · exact no_fix_of_cert 7 (nrCerts.getD 6 []) (by decide) s hs h0
  · exact no_fix_of_cert 8 (nrCerts.getD 7 []) (by decide) s hs h0
  · exact no_fix_of_cert 9 (nrCerts.getD 8 []) (by decide) s hs h0
  · exact no_fix_of_cert 10 (nrCerts.getD 9 []) (by decide) s hs h0
  · exact no_fix_of_cert 11 (nrCerts.getD 10 []) (by decide) s hs h0
  · exact no_fix_of_cert 12 (nrCerts.getD 11 []) (by decide) s hs h0
  · exact no_fix_of_cert 13 (nrCerts.getD 12 []) (by decide) s hs h0
  · exact no_fix_of_cert 14 (nrCerts.getD 13 []) (by decide) s hs h0
  · exact no_fix_of_cert 15 (nrCerts.getD 14 []) (by decide) s hs h0
  · exact no_fix_of_cert 16 (nrCerts.getD 15 []) (by decide) s hs h0

theorem next_random_lt (s : Nat) : next_random s < U32 := by
  simp only [next_random]
  exact Nat.mod_lt _ (by decide)

theorem next_random_ne_zero (s : Nat) (hs : s < U32) (h0 : s ≠ 0) : next_random s ≠ 0 := by
  intro hz
  have hcomp : applyCols nrInvCert (next_random s) = s :=
    linear_ext (fun x => applyCols nrInvCert (next_random x)) (fun x => x)
      (fun a b => by
        show applyCols nrInvCert (next_random (a ^^^ b)) =
          applyCols nrInvCert (next_random a) ^^^ applyCols nrInvCert (next_random b)
        rw [next_random_linear, applyCols_xor]) (fun _ _ => rfl)
      32 (by decide) s hs
  rw [hz, applyCols_zero] at hcomp
  exact h0 hcomp.symm

theorem nrIter_ok (j : Nat) :
    ∀ s, 1 ≤ j → s < U32 → s ≠ 0 → nrIter j s < U32 ∧ nrIter j s ≠ 0 := by
  induction j with
  | zero =>
    intro s h1
    exact absurd h1 (by omega)
  | succ j ih =>
    intro s _ hs h0
    show nrIter j (next_random s) < U32 ∧ nrIter j (next_random s) ≠ 0
    cases Nat.eq_zero_or_pos j with
    | inl hj =>
      subst hj
      exact ⟨next_random_lt s, next_random_ne_zero s hs h0⟩
    | inr hj => exact ih (next_random s) hj (next_random_lt s) (next_random_ne_zero s hs h0)

theorem random_level_aux_spec :
    ∀ fuel lvl s, lvl + fuel = MAX_LEVEL →
      lvl ≤ (random_level_aux fuel lvl s).1 ∧
      (random_level_aux fuel lvl s).1 ≤ MAX_LEVEL ∧
      (∀ i, i < (random_level_aux fuel lvl s).1 - lvl → nrIter (i + 1) s % 2 = 0) ∧
      ((random_level_aux fuel lvl s).1 < MAX_LEVEL →
        nrIter ((random_level_aux fuel lvl s).1 - lvl + 1) s % 2 = 1) ∧
      (random_level_aux fuel lvl s).2 =
        nrIter (min ((random_level_aux fuel lvl s).1 - lvl + 1) fuel) s := by
  intro fuel
  induction fuel with
  | zero =>
    intro lvl s hlf
    show lvl ≤ lvl ∧ lvl ≤ MAX_LEVEL ∧ (∀ i, i < lvl - lvl → nrIter (i + 1) s % 2 = 0) ∧
      (lvl < MAX_LEVEL → nrIter (lvl - lvl + 1) s % 2 = 1) ∧
      s = nrIter (min (lvl - lvl + 1) 0) s
    refine ⟨le_refl _, by omega, ?_, ?_, ?_⟩
    · intro i hi
      exact absurd hi (by omega)
    · intro h
      exact absurd h (by omega)
    · have h0 : min (lvl - lvl + 1) 0 = 0 := by omega
      rw [h0]
      rfl
  | succ fuel ih =>
    intro lvl s hlf
    have hlt : lvl < MAX_LEVEL := by omega
    simp only [random_level_aux]
    rw [if_pos hlt]
    by_cases hr : next_random s % 2 = 0
    · rw [if_pos hr]
      have ihh := ih (lvl + 1) (next_random s) (by omega)
      set res := random_level_aux fuel (lvl + 1) (next_random s) with hres
      rcases ihh with ⟨i1, i2, i3, i4, i5⟩
      refine ⟨by omega, i2, ?_, ?_, ?_⟩
      · intro i hi
        cases i with
        | zero =>
          show next_random s % 2 = 0
          exact hr
        | succ j =>
          show nrIter (j + 1) (next_random s) % 2 = 0
          exact i3 j (by omega)
      · intro hlt2
        have heq : res.1 - lvl + 1 = res.1 - (lvl + 1) + 1 + 1 := by omega
        rw [heq]
        show nrIter (res.1 - (lvl + 1) + 1) (next_random s) % 2 = 1
        exact i4 hlt2
      · rw [i5]
        have heq : min (res.1 - lvl + 1) (fuel + 1) = min (res.1 - (lvl + 1) + 1) fuel + 1 := by
          omega
        rw [heq]
        rfl
    · rw [if_neg hr]
      show lvl ≤ lvl ∧ lvl ≤ MAX_LEVEL ∧
        (∀ i, i < lvl - lvl → nrIter (i + 1) s % 2 = 0) ∧
        (lvl < MAX_LEVEL → nrIter (lvl - lvl + 1) s % 2 = 1) ∧
        next_random s = nrIter (min (lvl - lvl + 1) (fuel + 1)) s
      refine ⟨le_refl _, by omega, ?_, ?_, ?_⟩
      · intro i hi
        exact absurd hi (by omega)
      · intro _
        have h1 : lvl - lvl + 1 = 1 := by omega
        rw [h1]
        show next_random s % 2 = 1
        omega
      · have h1 : min (lvl - lvl + 1) (fuel + 1) = 1 := by omega
        rw [h1]
        rfl

theorem random_level_spec (s : Nat) :
    (random_level s).1 ≤ MAX_LEVEL ∧
    (∀ i, i < (random_level s).1 → nrIter (i + 1) s % 2 = 0) ∧
    ((random_level s).1 < MAX_LEVEL → nrIter ((random_level s).1 + 1) s % 2 = 1) ∧
    (random_level s).2 = nrIter (min ((random_level s).1 + 1) MAX_LEVEL) s := by
  have h := random_level_aux_spec MAX_LEVEL 0 s (by omega)
  rcases h with ⟨_, h2, h3, h4, h5⟩
  rw [random_level]
  simp only [Nat.sub_zero] at h3 h4 h5
  exact ⟨h2, h3, h4, h5⟩

theorem spliceFold_rng (u : List (Option Nat)) (ni : Nat) :
    ∀ (xs : List Nat) (ac : SkipList × Node),
      ((xs.foldl (spliceStep u ni) ac).1).rng_state = ac.1.rng_state := by
  intro xs
  induction xs with
  | nil =>
    intro ac
    rfl
  | cons x rest ih =>
    intro ac
    rw [List.foldl_cons, ih]
    show (ac.1.set_forward (u.getD x none) x (some ni)).rng_state = ac.1.rng_state
    exact set_forward_rng

theorem insert_rng_cases (l : SkipList) (v : Int) :
    (l.insert v).rng_state = l.rng_state ∨
    (l.insert v).rng_state = (random_level l.rng_state).2 := by
  have h1 : ∀ (l1 : SkipList) (u : List (Option Nat)),
      ((l1.insertSplice u v (random_level l.rng_state).1 l1.nodes.length).1).rng_state =
        l1.rng_state := by
    intro l1 u
    exact spliceFold_rng u l1.nodes.length
      (List.range ((random_level l.rng_state).1 + 1)) (l1, Node.new v (random_level l.rng_state).1)
  simp only [SkipList.insert]
  split
  · exact Or.inl rfl
  · right
    by_cases hc : l.level < (random_level l.rng_state).1
    · rw [if_pos hc]
      exact h1 _ _
    · rw [if_neg hc]
      exact h1 _ _

theorem run_rng_ok (seed : Nat) (ops : List Op) :
    (run seed ops).rng_state < U32 ∧ (run seed ops).rng_state ≠ 0 := by
  induction ops using List.reverseRecOn with
  | nil =>
    constructor
    · show ((seed % U32) ||| 1) < 2 ^ 32
      exact Nat.or_lt_two_pow (Nat.mod_lt _ (by decide)) (by decide)
    · show ((seed % U32) ||| 1) ≠ 0
      intro hc
      have hbit : ((seed % U32) ||| 1).testBit 0 = true := by
        rw [Nat.testBit_or, Nat.testBit_one_zero, Bool.or_true]
      rw [hc, Nat.zero_testBit] at hbit
      exact Bool.noConfusion hbit
  | append_singleton ops op ih =>
    rw [run_append]
    cases op with
    | ins v =>
      show ((run seed ops).insert v).rng_state < U32 ∧ ((run seed ops).insert v).rng_state ≠ 0
      rcases insert_rng_cases (run seed ops) v with h | h <;> rw [h]
      · exact ih
      · rcases random_level_spec (run seed ops).rng_state with ⟨hk, _, _, hst⟩
        rw [hst]
        refine nrIter_ok _ _ ?_ ih.1 ih.2
        have h16 : MAX_LEVEL = 16 := rfl
        omega
    | del v =>
      show (((run seed ops).delete v).2).rng_state < U32 ∧
        (((run seed ops).delete v).2).rng_state ≠ 0
      rw [delete_rng_frame]
      exact ih

/-- C8: `random_level` starts at height 0, increments the height for each
even draw while below `MAX_LEVEL` and stops at the first odd draw, so the
result lies in `[0, MAX_LEVEL]` and the returned generator state is the
corresponding iterate of `next_random`; on every reachable list the state
left behind differs from the state the call started from, so consecutive
calls never share generator state. -/
theorem spec_C8 (seed : Nat) (ops : List Op) (s : Nat) :
    (random_level s).1 ≤ MAX_LEVEL ∧
    (∀ i, i < (random_level s).1 → nrIter (i + 1) s % 2 = 0) ∧
    ((random_level s).1 < MAX_LEVEL → nrIter ((random_level s).1 + 1) s % 2 = 1) ∧
    (random_level s).2 = nrIter (min ((random_level s).1 + 1) MAX_LEVEL) s ∧
    (random_level (run seed ops).rng_state).2 ≠ (run seed ops).rng_state := by
  rcases random_level_spec s with ⟨h1, h2, h3, h4⟩
  refine ⟨h1, h2, h3, h4, ?_⟩
  rcases run_rng_ok seed ops with ⟨hlt, hne⟩
  rcases random_level_spec (run seed ops).rng_state with ⟨hk, _, _, hst⟩
  rw [hst]
  have h16 : MAX_LEVEL = 16 := rfl
  exact nrIter_ne_of_le _ _ (by omega) (by omega) hlt hne

/-!
Bounds for every unchecked index expression of the public operations.
`update` is the local vector of `insert` and `delete`, of length
`MAX_LEVEL + 1`; it is written at levels `0..=self.level` during the
descent and read at levels up to the new node's level during the splice.
`delete` additionally indexes `head_forward` at levels `0..=self.level`
and computes `forward.len() - 1` of the found target, and the display
routines read `head_forward[0]` and each chained node's `forward[0]` and
`forward.len() - 1`.  All other indexing in the source is guarded by an
explicit bounds test.
-/

def insertAccessOk (l : SkipList) : Prop :=
  l.level < MAX_LEVEL + 1 ∧ (random_level l.rng_state).1 < MAX_LEVEL + 1

def deleteAccessOk (l : SkipList) (v : Int) : Prop :=
  l.level < MAX_LEVEL + 1 ∧ l.level < l.head_forward.length ∧
  ∀ p, l.get_forward (l.buildUpdate v).2 0 = some p → p < l.nodes.length →
    1 ≤ (l.nodes.getD p default).forward.length

def displayAccessOk (l : SkipList) : Prop :=
  0 < l.head_forward.length ∧ ∀ nd ∈ l.nodes, 1 ≤ nd.forward.length

/-- C9: on every reachable list state, every unchecked index used by
`insert`, `delete`, `display` and `display_detailed` is within bounds
(`search`, `len` and `is_empty` only use accesses that the source guards
explicitly), so no operation can fault. -/
theorem spec_C9 (seed : Nat) (ops : List Op) (v : Int) :
    insertAccessOk (run seed ops) ∧ deleteAccessOk (run seed ops) v ∧
    displayAccessOk (run seed ops) := by
  rcases run_canonical seed ops with ⟨d, rng, hd, hrun, _⟩
  rw [hrun]
  have hlev : (mkCanon d rng).level < MAX_LEVEL + 1 := by
    rw [mkCanon_level]
    have := maxH_le_MAX hd
    omega
  have hnode : ∀ nd ∈ (mkCanon d rng).nodes, 1 ≤ nd.forward.length := by
    intro nd hnd
    rcases List.mem_map.mp hnd with ⟨i, _, hie⟩
    rw [← hie]
    show 1 ≤ ((List.range (hAt d i + 1)).map fun L => succAt d L (vAt d i)).length
    rw [List.length_map, List.length_range]
    omega
  refine ⟨⟨hlev, ?_⟩, ⟨hlev, ?_, ?_⟩, ⟨?_, hnode⟩⟩
  · have := random_level_le (mkCanon d rng).rng_state
    omega
  · rw [mkCanon_head_length]
    exact hlev
  · intro p _ hp
    rw [mkCanon_nodes_length] at hp
    rw [mkCanon_forward_getD hp, List.length_map, List.length_range]
    omega
  · rw [mkCanon_head_length]
    omega

end SkipListVerif
